import Mathlib

/-!
# Alphadocte: hint engine, game and solver

A shallow embedding of the library sources `Hint.cpp`, `Game.cpp`, `Solver.cpp`,
`MotusGameRules.cpp`, `WordleGameRules.cpp` and `Dictionary.cpp`.

* `std::string` / `std::string_view` are lists of characters (`Word`).
* `std::vector<T>` is `List T`; the index loops `for (i = 0; i < size; i++)` that walk
  several equally long sequences are recursions that walk the lists in lockstep.
* `std::multiset<char>` is a list of characters: `find` is membership, erasing the
  iterator returned by `find` removes one occurrence (`List.erase`).
* A function that may throw returns the state it leaves behind together with an
  `Except Error` result, so that a mutation made before the throw stays visible.
-/

namespace Alphadocte

/-- A `std::string` / `std::string_view`. -/
abbrev Word := List Char

/-- The enumeration `HintType` of `Hint.h`. -/
inductive HintType where
  | WRONG
  | MISPLACED
  | CORRECT
  deriving DecidableEq, Repr

/-- The exceptions thrown by the library, one constructor per `throw` site.
`Exception` is the base class, `InvalidArgException` derives from it. -/
inductive Error where
  /-- Thrown by the constructors of `Game` and `Solver`: "rules cannot be null"
  (InvalidArgException). -/
  | nullRules
  /-- Thrown by `computeHints`: "... does not have the same size" (InvalidArgException). -/
  | hintsSizeMismatch
  /-- Thrown by `computeHints`: "... must be lower-case alphabetical characters."
  (InvalidArgException). -/
  | hintsNotLower
  /-- Thrown by `setWord`: "the word ... is not a valid solution" (InvalidArgException). -/
  | wordNotValid
  /-- Thrown by `setWord`: "Cannot change word while the game is playing." (Exception). -/
  | wordChangeWhilePlaying
  /-- Thrown by `start`: "Cannot start game: game has already been started" (Exception). -/
  | alreadyStarted
  /-- Thrown by `start`: "Cannot start game: no word has been set" (Exception). -/
  | noWordSet
  /-- Thrown by `tryGuess`: "Cannot try a guess: game has not been started" (Exception). -/
  | gameNotStarted
  /-- Thrown by `tryGuess`: "Cannot try a guess: game is over" (Exception). -/
  | gameOver
  /-- Thrown by `tryGuess`: "Cannot try a guess: invalid guess" (Exception). -/
  | invalidGuess
  /-- Thrown by `setTemplate`: "invalid template, must contain either . or letters."
  (InvalidArgException). -/
  | invalidTemplate
  /-- Thrown by `populateGuesses` and `populateSolutions`: "template not set."
  (InvalidArgException). -/
  | populateTemplateNotSet
  /-- Thrown by `addHint`: "template needs to be set before adding hints." (Exception). -/
  | templateNotSet
  /-- Thrown by `addHint`: "guess is not a valid guess." (InvalidArgException). -/
  | guessNotValid
  /-- Thrown by `addHint`: "the number of hints does not match the guess number of
  letters." (InvalidArgException). -/
  | hintCountMismatch
  /-- Thrown by `computeTemplate`: "number of guesses and hint vectors must be the same,
  and word(/hints) sizes also." (InvalidArgException). -/
  | templateSizes
  /-- Thrown by `computeTemplate`: "guesses must contain only lower-case alphabetical
  characters." (InvalidArgException). -/
  | templateGuessNotLower
  /-- Thrown by `computeNextGuesses`: "cannot compute next guess with an empty template."
  (Exception). -/
  | emptyTemplate
  /-- Thrown by `getTemplate` of both rule classes: "no word has been set."
  (InvalidArgException). -/
  | templateNoWord
  /-- The exception `std::out_of_range` of `std::string::at`, which is not an exception
  class of the library. -/
  | outOfRange
  deriving DecidableEq, Repr

/-- Whether the thrown object is an `InvalidArgException` (and not only an `Exception`). -/
def Error.isInvalidArg : Error → Bool
  | .nullRules => true
  | .hintsSizeMismatch => true
  | .hintsNotLower => true
  | .wordNotValid => true
  | .wordChangeWhilePlaying => false
  | .alreadyStarted => false
  | .noWordSet => false
  | .gameNotStarted => false
  | .gameOver => false
  | .invalidGuess => false
  | .invalidTemplate => true
  | .populateTemplateNotSet => true
  | .templateNotSet => false
  | .guessNotValid => true
  | .hintCountMismatch => true
  | .templateSizes => true
  | .templateGuessNotLower => true
  | .emptyTemplate => false
  | .templateNoWord => true
  | .outOfRange => false

deriving instance DecidableEq for Except

/-- The C function `islower` in the "C" locale. -/
def islower (c : Char) : Bool := decide ('a' ≤ c) && decide (c ≤ 'z')

/-- The C function `tolower` in the "C" locale. -/
def tolower (c : Char) : Char :=
  if 'A' ≤ c ∧ c ≤ 'Z' then Char.ofNat (c.toNat + 32) else c

/-! ## `Game::computeHints` (Game.cpp) -/

/-- First loop of `computeHints`: positions where `word[i] == solution[i]` become
`CORRECT` and one occurrence of the letter leaves `remainingLetters`; the other
positions keep the initial `WRONG`. Returns the hints and the remaining letters. -/
def computeHintsCorrect : Word → Word → List Char → List HintType × List Char
  | w :: ws, s :: ss, remainingLetters =>
    if w = s then
      let r := computeHintsCorrect ws ss (remainingLetters.erase w)
      (HintType.CORRECT :: r.1, r.2)
    else
      let r := computeHintsCorrect ws ss remainingLetters
      (HintType.WRONG :: r.1, r.2)
  | _, _, remainingLetters => ([], remainingLetters)

/-- Second loop of `computeHints`: a position that is not `CORRECT` becomes `MISPLACED`
when its letter is still among `remainingLetters` (one occurrence is then erased). -/
def computeHintsMisplaced : Word → List HintType → List Char → List HintType
  | w :: ws, h :: hs, remainingLetters =>
    if h ≠ HintType.CORRECT then
      if w ∈ remainingLetters then
        HintType.MISPLACED :: computeHintsMisplaced ws hs (remainingLetters.erase w)
      else
        h :: computeHintsMisplaced ws hs remainingLetters
    else
      h :: computeHintsMisplaced ws hs remainingLetters
  | _, _, _ => []

/-- The function `Game::computeHints(word, solution)`. -/
def computeHints (word solution : Word) : Except Error (List HintType) :=
  if word.length ≠ solution.length then
    .error .hintsSizeMismatch
  else if !(word.all islower) || !(solution.all islower) then
    .error .hintsNotLower
  else
    let r := computeHintsCorrect word solution solution
    .ok (computeHintsMisplaced word r.1 r.2)

/-! ## `matches` (Hint.cpp) -/

/-- First loop of `matches`: a `CORRECT` hint needs `word[i] == guess[i]` and erases
one occurrence of `word[i]`; `none` stands for the early `return false`. -/
def matchesCorrect : Word → Word → List HintType → List Char → Option (List Char)
  | w :: ws, g :: gs, h :: hs, remainingLetters =>
    match h with
    | .CORRECT =>
      if w ≠ g then none
      else matchesCorrect ws gs hs (remainingLetters.erase w)
    | _ => matchesCorrect ws gs hs remainingLetters
  | _, _, _, remainingLetters => some remainingLetters

/-- Second loop of `matches`: the `MISPLACED` and `WRONG` hints, left to right. -/
def matchesOther : Word → Word → List HintType → List Char → Bool
  | w :: ws, g :: gs, h :: hs, remainingLetters =>
    match h with
    | .MISPLACED =>
      if w = g then false
      else if g ∈ remainingLetters then matchesOther ws gs hs (remainingLetters.erase g)
      else false
    | .WRONG =>
      if g ∈ remainingLetters then false
      else matchesOther ws gs hs remainingLetters
    | .CORRECT => matchesOther ws gs hs remainingLetters
  | _, _, _, _ => true

/-- The function `matches(word, guess, hints)`. -/
def Hint.matches (word guess : Word) (hints : List HintType) : Bool :=
  if word.length ≠ guess.length ∨ guess.length ≠ hints.length then false
  else
    match matchesCorrect word guess hints word with
    | none => false
    | some remainingLetters => matchesOther word guess hints remainingLetters


/-! ## Dictionaries (Dictionary.cpp, FixedSizeDictionary.cpp) -/

/-- The class `Dictionary`: the loaded word list `m_words`, which every loader of the
library keeps sorted. -/
structure Dictionary where
  m_words : List Word
  deriving DecidableEq, Repr

/-- The method `Dictionary::getAllWords`. -/
def Dictionary.getAllWords (d : Dictionary) : List Word := d.m_words

/-- The method `Dictionary::contains`: `std::binary_search` over the sorted `m_words`,
that is, whether the word occurs in the list. -/
def Dictionary.contains (d : Dictionary) (word : Word) : Bool := decide (word ∈ d.m_words)

/-- The class `FixedSizeDictionary` after a successful `load`: the words of the internal
dictionary that have `m_wordSize` letters, in the same order (`std::copy_if`). -/
structure FixedSizeDictionary where
  m_wordSize : Nat
  m_internalDict : Dictionary
  deriving DecidableEq, Repr

/-- The word list that `FixedSizeDictionary::load` builds. -/
def FixedSizeDictionary.toDictionary (d : FixedSizeDictionary) : Dictionary :=
  { m_words := d.m_internalDict.getAllWords.filter (fun word => decide (word.length = d.m_wordSize)) }

/-- The method `FixedSizeDictionary::getWordSize`. -/
def FixedSizeDictionary.getWordSize (d : FixedSizeDictionary) : Nat := d.m_wordSize

/-! ## Game rules (MotusGameRules.cpp, WordleGameRules.cpp) -/

/-- The two implementations of the interface `IGameRules`, with their fields
`m_dictionary` and `m_maxGuesses`. -/
inductive GameRules where
  | motus (m_dictionary : Dictionary) (m_maxGuesses : Nat)
  | wordle (m_dictionary : FixedSizeDictionary) (m_maxGuesses : Nat)
  deriving DecidableEq, Repr

/-- The method `getDictionary` of both rule classes. -/
def GameRules.getDictionary : GameRules → Dictionary
  | .motus d _ => d
  | .wordle d _ => d.toDictionary

/-- The method `getMaxGuesses` of both rule classes. -/
def GameRules.getMaxGuesses : GameRules → Nat
  | .motus _ m => m
  | .wordle _ m => m

/-- The methods `MotusGameRules::isGuessValid` and `WordleGameRules::isGuessValid`.
In the Motus case `word[0] == answer[0]` is only evaluated once both strings are known
to have the same non-zero length. -/
def GameRules.isGuessValid : GameRules → Word → Word → Bool
  | .motus d _, word, answer =>
    if answer.isEmpty then false
    else decide (word.length = answer.length) && decide (word.head? = answer.head?)
      && d.contains word
  | .wordle d _, word, answer =>
    decide (answer.length = d.getWordSize) && decide (word.length = d.getWordSize)
      && d.toDictionary.contains word

/-- The access `std::string_view::operator[]`: `none` stands for a position outside the
string, where the behaviour of the access is undefined. -/
def stringViewAt (s : Word) (pos : Nat) : Option Char := s[pos]?

/-- The evaluation of `isGuessValid` with its accesses to the strings: the operands of
`&&` are evaluated from left to right up to the first false one, and the result is `none`
when `word[0]` or `answer[0]` is evaluated outside the string. -/
def GameRules.isGuessValidEval : GameRules → Word → Word → Option Bool
  | .motus d _, word, answer =>
    if answer.isEmpty then some false
    else if word.length ≠ answer.length then some false
    else
      match stringViewAt word 0, stringViewAt answer 0 with
      | some a, some b => if a ≠ b then some false else some (d.contains word)
      | _, _ => none
  | .wordle d _, word, answer =>
    if answer.length ≠ d.getWordSize then some false
    else if word.length ≠ d.getWordSize then some false
    else some (d.toDictionary.contains word)

/-- The methods `MotusGameRules::isSolutionValid` and `WordleGameRules::isSolutionValid`. -/
def GameRules.isSolutionValid : GameRules → Word → Bool
  | .motus d _, word => !word.isEmpty && d.contains word
  | .wordle d _, word => decide (word.length = d.getWordSize) && d.toDictionary.contains word

/-- A non-null `std::shared_ptr<IGameRules>`: the address it holds and the object found
there. Two pointers compare equal when their addresses are equal. -/
structure RulesPtr where
  addr : Nat
  obj : GameRules
  deriving DecidableEq, Repr

/-! ## The game (Game.cpp) -/

/-- The fields of the class `Game`. -/
structure Game where
  m_word : Word
  m_rules : RulesPtr
  m_guesses : List Word
  m_hints : List (List HintType)
  m_start : Bool
  m_win : Bool
  deriving DecidableEq, Repr

/-- The member initialisers of the constructor `Game::Game(rules)`. -/
def Game.init (rules : RulesPtr) : Game :=
  { m_word := [], m_rules := rules, m_guesses := [], m_hints := [],
    m_start := false, m_win := false }

/-- The constructor `Game::Game(rules)`; `none` is the null pointer. -/
def Game.create : Option RulesPtr → Except Error Game
  | none => .error .nullRules
  | some rules => .ok (Game.init rules)

/-- The method `Game::hasStarted`. -/
def Game.hasStarted (g : Game) : Bool := g.m_start

/-- The method `Game::isOver`. -/
def Game.isOver (g : Game) : Bool :=
  g.m_win || (g.m_rules.obj.getMaxGuesses != 0
    && decide (g.m_guesses.length ≥ g.m_rules.obj.getMaxGuesses))

/-- The method `Game::isWon`. -/
def Game.isWon (g : Game) : Bool := g.m_win

/-- The method `Game::getWord`. -/
def Game.getWord (g : Game) : Word := g.m_word

/-- The method `Game::getTriedGuesses`. -/
def Game.getTriedGuesses (g : Game) : List Word := g.m_guesses

/-- The method `Game::getGuessesHints`. -/
def Game.getGuessesHints (g : Game) : List (List HintType) := g.m_hints

/-- The method `Game::setWord`. -/
def Game.setWord (g : Game) (word : Word) : Game × Except Error Unit :=
  if !g.m_rules.obj.isSolutionValid word then (g, .error .wordNotValid)
  else if g.m_start && decide (word ≠ g.m_word) then (g, .error .wordChangeWhilePlaying)
  else ({ g with m_word := word }, .ok ())

/-- The method `Game::reset`. -/
def Game.reset (g : Game) : Game :=
  { g with m_start := false, m_win := false, m_guesses := [], m_hints := [], m_word := [] }

/-- The method `Game::setRules`; `none` is the null pointer. -/
def Game.setRules (g : Game) : Option RulesPtr → Game
  | none => g
  | some rules =>
    if g.m_rules.addr = rules.addr then g
    else
      let g1 := if g.hasStarted then g.reset else g
      let g2 := { g1 with m_rules := rules }
      if !g2.m_rules.obj.isSolutionValid g2.m_word then { g2 with m_word := [] } else g2

/-- The method `Game::start`. -/
def Game.start (g : Game) : Game × Except Error Unit :=
  if g.m_start then (g, .error .alreadyStarted)
  else if g.m_word.isEmpty then (g, .error .noWordSet)
  else ({ g with m_start := true }, .ok ())

/-- The method `Game::tryGuess`. The guess is appended to `m_guesses` before
`computeHints` runs, so an exception of `computeHints` leaves it there. -/
def Game.tryGuess (g : Game) (word : Word) : Game × Except Error (List HintType) :=
  if !g.hasStarted then (g, .error .gameNotStarted)
  else if g.isOver then (g, .error .gameOver)
  else if !g.m_rules.obj.isGuessValid word g.m_word then (g, .error .invalidGuess)
  else
    let g1 := { g with m_guesses := g.m_guesses ++ [word] }
    match computeHints word g1.m_word with
    | .error e => (g1, .error e)
    | .ok hints =>
      let g2 := { g1 with m_hints := g1.m_hints ++ [hints] }
      ({ g2 with m_win := decide (hints.count HintType.CORRECT = hints.length) }, .ok hints)

/-- The game states a caller can produce: a constructed game, and the state left by any
call of `setWord`, `start`, `tryGuess`, `reset` or `setRules`, whether it threw or not. -/
inductive Game.Reachable : Game → Prop where
  | create (rules : RulesPtr) : Game.Reachable (Game.init rules)
  | setWord (g : Game) (word : Word) : Game.Reachable g → Game.Reachable (g.setWord word).1
  | start (g : Game) : Game.Reachable g → Game.Reachable g.start.1
  | tryGuess (g : Game) (word : Word) : Game.Reachable g → Game.Reachable (g.tryGuess word).1
  | reset (g : Game) : Game.Reachable g → Game.Reachable g.reset
  | setRules (g : Game) (rules : Option RulesPtr) :
      Game.Reachable g → Game.Reachable (g.setRules rules)

/-- Every word of the dictionary consists of lower-case letters only (what
`TxtDictionary::load` enforces). -/
def Dictionary.isLowercase (d : Dictionary) : Prop :=
  ∀ word ∈ d.m_words, ∀ c ∈ word, islower c = true

/-! ## The solver base class (Solver.cpp) -/

/-- The `std::map<std::string, std::vector<HintType>>` of the solver, as the list of its
entries; the keys are unique. -/
abbrev HintMap := List (Word × List HintType)

/-- The lookup `std::map::find`. -/
def HintMap.find (m : HintMap) (key : Word) : Option (List HintType) :=
  (List.find? (fun entry => decide (entry.1 = key)) m).map Prod.snd

/-- The insertion `std::map::emplace`: nothing is inserted when the key is already
present. -/
def HintMap.emplace (m : HintMap) (key : Word) (value : List HintType) : HintMap :=
  if (HintMap.find m key).isSome then m else m ++ [(key, value)]

/-- The fields of the class `Solver` (the constant name and version of the solver are
left out). -/
structure Solver where
  m_rules : RulesPtr
  m_hints : HintMap
  m_wordTemplate : Word
  m_potentialGuesses : List Word
  m_potentialSolutions : List Word
  deriving DecidableEq, Repr

/-- The member initialisers of the constructor `Solver::Solver(rules, name, version)`. -/
def Solver.init (rules : RulesPtr) : Solver :=
  { m_rules := rules, m_hints := [], m_wordTemplate := [],
    m_potentialGuesses := [], m_potentialSolutions := [] }

/-- The constructor `Solver::Solver(rules, name, version)`; `none` is the null pointer. -/
def Solver.create : Option RulesPtr → Except Error Solver
  | none => .error .nullRules
  | some rules => .ok (Solver.init rules)

/-- The method `Solver::getHints`. -/
def Solver.getHints (s : Solver) : HintMap := s.m_hints

/-- The method `Solver::getTemplate`. -/
def Solver.getTemplate (s : Solver) : Word := s.m_wordTemplate

/-- The method `Solver::getPotentialGuesses`. -/
def Solver.getPotentialGuesses (s : Solver) : List Word := s.m_potentialGuesses

/-- The method `Solver::getPotentialSolutions`. -/
def Solver.getPotentialSolutions (s : Solver) : List Word := s.m_potentialSolutions

/-- The method `Solver::reset`. -/
def Solver.reset (s : Solver) : Solver :=
  { s with m_hints := [], m_wordTemplate := [], m_potentialGuesses := [],
           m_potentialSolutions := [] }

/-- The method `Solver::setRules`; `none` is the null pointer. -/
def Solver.setRules (s : Solver) : Option RulesPtr → Solver
  | none => s
  | some rules =>
    if rules.addr = s.m_rules.addr then s
    else Solver.reset { s with m_rules := rules }

/-- The method `Solver::populateGuesses`. -/
def Solver.populateGuesses (s : Solver) : Solver × Except Error Unit :=
  if s.m_wordTemplate.isEmpty then (s, .error .populateTemplateNotSet)
  else
    let allWords := s.m_rules.obj.getDictionary.getAllWords
    let guesses := allWords.filter
      (fun word => s.m_rules.obj.isGuessValid word s.m_wordTemplate)
    ({ s with m_potentialGuesses := guesses }, .ok ())

/-- The method `Solver::populateSolutions`. -/
def Solver.populateSolutions (s : Solver) : Solver × Except Error Unit :=
  if s.m_wordTemplate.isEmpty then (s, .error .populateTemplateNotSet)
  else
    let allWords := s.m_rules.obj.getDictionary.getAllWords
    let solutions := allWords.filter (fun word => s.m_rules.obj.isSolutionValid word)
    ({ s with m_potentialSolutions := solutions }, .ok ())

/-- The loop of the lambda of `setTemplate`, over a template and a word of the same
length: `true` as soon as a template character is neither a dot nor the letter of the
word at that position. -/
def templateLoop : Word → Word → Bool
  | t :: ts, w :: ws => if t ≠ '.' ∧ t ≠ w then true else templateLoop ts ws
  | _, _ => false

/-- The lambda given to `std::remove_if` in `setTemplate`: whether `word` is removed
from the potential solutions. -/
def templateRejects (wordTemplate word : Word) : Bool :=
  if word.length ≠ wordTemplate.length then true
  else templateLoop wordTemplate word

/-- The method `Solver::setTemplate`. -/
def Solver.setTemplate (s : Solver) (wordTemplate : Word) : Solver × Except Error Unit :=
  let wordTemplate := wordTemplate.map tolower
  if !(wordTemplate.all
      (fun c => decide (c = '.') || (decide (c ≥ 'a') && decide (c ≤ 'z')))) then
    (s, .error .invalidTemplate)
  else
    let s1 := { s.reset with m_wordTemplate := wordTemplate }
    if s1.m_wordTemplate.isEmpty then (s1, .ok ())
    else
      match s1.populateGuesses with
      | (s2, .error e) => (s2, .error e)
      | (s2, .ok _) =>
        match s2.populateSolutions with
        | (s3, .error e) => (s3, .error e)
        | (s3, .ok _) =>
          let kept := s3.m_potentialSolutions.filter
            (fun word => !templateRejects s3.m_wordTemplate word)
          ({ s3 with m_potentialSolutions := kept }, .ok ())

/-- The method `Solver::addHint`. -/
def Solver.addHint (s : Solver) (guess : Word) (hints : List HintType) :
    Solver × Except Error Unit :=
  if s.m_wordTemplate.isEmpty then (s, .error .templateNotSet)
  else if !s.m_rules.obj.isGuessValid guess s.m_wordTemplate then (s, .error .guessNotValid)
  else if guess.length ≠ hints.length then (s, .error .hintCountMismatch)
  else
    let s1 := { s with m_hints := HintMap.emplace s.m_hints guess hints }
    let kept := s1.m_potentialSolutions.filter
      (fun word => !(!Hint.matches word guess hints))
    ({ s1 with m_potentialSolutions := kept }, .ok ())

/-- The solver states a caller can produce: a constructed solver, and the state left by
any call of `setTemplate`, `addHint`, `reset` or `setRules`, whether it threw or not. -/
inductive Solver.Reachable : Solver → Prop where
  | create (rules : RulesPtr) : Solver.Reachable (Solver.init rules)
  | setTemplate (s : Solver) (wordTemplate : Word) :
      Solver.Reachable s → Solver.Reachable (s.setTemplate wordTemplate).1
  | addHint (s : Solver) (guess : Word) (hints : List HintType) :
      Solver.Reachable s → Solver.Reachable (s.addHint guess hints).1
  | reset (s : Solver) : Solver.Reachable s → Solver.Reachable s.reset
  | setRules (s : Solver) (rules : Option RulesPtr) :
      Solver.Reachable s → Solver.Reachable (s.setRules rules)

/-! ## The entropy solver (EntropyMaximizer.cpp) -/

/-- The counting loop of `EntropyMaximizer::computeActualEntropy`: the number
`occurences` of potential solutions whose hints for `guess` equal `hints`; an exception
of `computeHints` ends the loop. -/
def countOccurences (guess : Word) (hints : List HintType) : List Word → Except Error Nat
  | [] => .ok 0
  | solution :: rest =>
    match computeHints guess solution with
    | .error e => .error e
    | .ok h =>
      match countOccurences guess hints rest with
      | .error e => .error e
      | .ok n => .ok (if hints = h then n + 1 else n)

/-- The key order of the `std::map` of `computeExpectedEntropy`: `std::less` on hint
vectors, the lexicographic comparison of the enumeration values
(`WRONG < MISPLACED < CORRECT`). -/
def HintType.toNat : HintType → Nat
  | .WRONG => 0
  | .MISPLACED => 1
  | .CORRECT => 2

/-- The comparison `lhs < rhs` of two hint vectors (`std::lexicographical_compare`). -/
def hintsLess : List HintType → List HintType → Bool
  | _, [] => false
  | [], _ :: _ => true
  | l :: ls, r :: rs =>
    if l.toNat < r.toNat then true
    else if r.toNat < l.toNat then false
    else hintsLess ls rs

/-- The `std::map<std::vector<HintType>, size_t>` of `computeExpectedEntropy`, as the
list of its entries in key order. -/
abbrev Occurrences := List (List HintType × Nat)

/-- Whether `occurrences.at(hints)` finds the key. -/
def Occurrences.hasKey (occurrences : Occurrences) (hints : List HintType) : Bool :=
  occurrences.any (fun pair => decide (pair.1 = hints))

/-- The statement `occurrences.at(hints)++` on a map that holds the key. -/
def Occurrences.increment (occurrences : Occurrences) (hints : List HintType) : Occurrences :=
  occurrences.map (fun pair => if pair.1 = hints then (pair.1, pair.2 + 1) else pair)

/-- The statement `occurrences.emplace(hints, 1)` on a map that does not hold the key:
the entry goes before the first entry with a greater key. -/
def Occurrences.emplace (hints : List HintType) (value : Nat) : Occurrences → Occurrences
  | [] => [(hints, value)]
  | pair :: rest =>
    if hintsLess hints pair.1 then (hints, value) :: pair :: rest
    else pair :: Occurrences.emplace hints value rest

/-- The first loop of `computeExpectedEntropy`: the hints of `guess` against every
potential solution are counted in the map; an exception of `computeHints` ends the
loop. -/
def countHints (guess : Word) : List Word → Occurrences → Except Error Occurrences
  | [], occurrences => .ok occurrences
  | solution :: rest, occurrences =>
    match computeHints guess solution with
    | .error e => .error e
    | .ok hints =>
      if occurrences.hasKey hints then countHints guess rest (occurrences.increment hints)
      else countHints guess rest (Occurrences.emplace hints 1 occurrences)

section Entropy

/-! The type `F` stands for `double`, read as an ordered field, and `log2` for the
function `log2` of `<cmath>`. -/

variable {F : Type} [LinearOrderedField F]

/-- The method `EntropyMaximizer::computeExpectedEntropy`. -/
def Solver.computeExpectedEntropy (log2 : F → F) (s : Solver) (guess : Word) :
    Except Error F :=
  match countHints guess s.getPotentialSolutions [] with
  | .error e => .error e
  | .ok occurrences =>
    let n : F := (s.getPotentialSolutions.length : F)
    .ok (occurrences.foldl
      (fun entropy pair => entropy + -((pair.2 : F) / n) * log2 ((pair.2 : F) / n)) 0)

/-- The method `EntropyMaximizer::computeActualEntropy`. -/
def Solver.computeActualEntropy (log2 : F → F) (s : Solver) (guess : Word)
    (hints : List HintType) : Except Error F :=
  match countOccurences guess hints s.getPotentialSolutions with
  | .error e => .error e
  | .ok occurences =>
    if occurences = 0 then .ok (-1)
    else .ok (-log2 ((occurences : F) / (s.getPotentialSolutions.length : F)))

/-- The method `EntropyMaximizer::computeCurrentEntropy`. -/
def Solver.computeCurrentEntropy (log2 : F → F) (s : Solver) : F :=
  if s.getPotentialSolutions.isEmpty then -1
  else log2 (s.getPotentialSolutions.length : F)

/-- The inner loop of `computeNextGuesses`: the pair goes before the first entry that has
a smaller entropy, or the same entropy when the guess is a potential solution, and at the
end when there is no such entry. -/
def insertGuess (solutions : List Word) (guess : Word) (expectedEntropy : F) :
    List (Word × F) → List (Word × F)
  | [] => [(guess, expectedEntropy)]
  | it :: rest =>
    if it.2 < expectedEntropy then (guess, expectedEntropy) :: it :: rest
    else if it.2 = expectedEntropy ∧ guess ∈ solutions then
      (guess, expectedEntropy) :: it :: rest
    else it :: insertGuess solutions guess expectedEntropy rest

/-- The outer loop of `computeNextGuesses` over the potential guesses; an exception of
`computeExpectedEntropy` ends the loop. -/
def evaluateGuesses (log2 : F → F) (s : Solver) :
    List Word → List (Word × F) → Except Error (List (Word × F))
  | [], entropies => .ok entropies
  | guess :: rest, entropies =>
    match s.computeExpectedEntropy log2 guess with
    | .error e => .error e
    | .ok expectedEntropy =>
      evaluateGuesses log2 s rest
        (insertGuess s.getPotentialSolutions guess expectedEntropy entropies)

/-- The method `EntropyMaximizer::computeNextGuesses`. -/
def Solver.computeNextGuesses (log2 : F → F) (s : Solver) (n : Nat) :
    Except Error (List (Word × F)) :=
  if s.getTemplate.isEmpty then .error .emptyTemplate
  else
    match s.getPotentialSolutions with
    | [] => .ok []
    | [solution] => .ok [(solution, 0)]
    | _ =>
      match evaluateGuesses log2 s s.getPotentialGuesses [] with
      | .error e => .error e
      | .ok entropies => .ok (entropies.take (min n entropies.length))

/-- The method `EntropyMaximizer::computeNextGuess`. -/
def Solver.computeNextGuess (log2 : F → F) (s : Solver) : Except Error Word :=
  match s.computeNextGuesses log2 1 with
  | .error e => .error e
  | .ok guessEntropy =>
    match guessEntropy with
    | [] => .ok []
    | first :: _ => .ok first.1

end Entropy

/-! ## `Game::computeTemplate` (Game.cpp) -/

/-- The inner loop of `computeTemplate` for one guess: `pattern[j] = guess[j]` wherever
`hintVector[j] == CORRECT`. -/
def templateFillWord : Word → Word → List HintType → Word
  | p :: pattern, g :: guess, h :: hintVector =>
    (if h = HintType.CORRECT then g else p) :: templateFillWord pattern guess hintVector
  | pattern, _, _ => pattern

/-- The outer loop of `computeTemplate` over the pairs of a guess and its hint vector. -/
def templateFill : Word → List Word → List (List HintType) → Word
  | pattern, guess :: guesses, hintVector :: hints =>
    templateFill (templateFillWord pattern guess hintVector) guesses hints
  | pattern, _, _ => pattern

/-- The function `Game::computeTemplate(wordSize, guesses, hints)`. -/
def computeTemplate (wordSize : Nat) (guesses : List Word) (hints : List (List HintType)) :
    Except Error Word :=
  let pattern := List.replicate wordSize '.'
  if guesses.length ≠ hints.length
      ∨ guesses.any (fun guess => decide (guess.length ≠ wordSize)) = true
      ∨ hints.any (fun hintVector => decide (hintVector.length ≠ wordSize)) = true then
    .error .templateSizes
  else if guesses.any (fun guess => !guess.all islower) then
    .error .templateGuessNotLower
  else
    .ok (templateFill pattern guesses hints)

/-- The methods `MotusGameRules::getTemplate` and `WordleGameRules::getTemplate`. In the
Motus case `pattern.at(0) = word.at(0)` overwrites the first character of the pattern;
`at` throws `std::out_of_range` on an empty string. -/
def GameRules.getTemplate : GameRules → Game → Except Error Word
  | .motus _ _, game =>
    if game.getWord.isEmpty then .error .templateNoWord
    else
      match computeTemplate game.getWord.length game.getTriedGuesses
          game.getGuessesHints with
      | .error e => .error e
      | .ok pattern =>
        match game.getWord, pattern with
        | c :: _, _ :: rest => .ok (c :: rest)
        | _, _ => .error .outOfRange
  | .wordle _ _, game =>
    if game.getWord.isEmpty then .error .templateNoWord
    else computeTemplate game.getWord.length game.getTriedGuesses game.getGuessesHints

/-! ## Specification-side predicates -/

/-- What the specification asks of a potential solution with respect to the template:
the same length, and the letter of the template at every position where the template
is not a dot. -/
def Spec.carriesTemplate (wordTemplate word : Word) : Prop :=
  word.length = wordTemplate.length ∧
    ∀ i, i < wordTemplate.length → wordTemplate[i]? ≠ some '.' → word[i]? = wordTemplate[i]?

instance Spec.carriesTemplate_decidable (wordTemplate word : Word) :
    Decidable (Spec.carriesTemplate wordTemplate word) := by
  unfold Spec.carriesTemplate
  infer_instance

/-- What the specification asks of a template: every character is a dot or a letter
between a and z. -/
def Spec.validTemplate (wordTemplate : Word) : Prop :=
  ∀ c ∈ wordTemplate, c = '.' ∨ ('a' ≤ c ∧ c ≤ 'z')

/-- The hint `hints[i][j]` of the specification, when both indices are in range. -/
def Spec.hintAt (hints : List (List HintType)) (i j : Nat) : Option HintType :=
  (hints[i]?).bind (fun hintVector => hintVector[j]?)

/-- The letter `guesses[i][j]` of the specification, when both indices are in range. -/
def Spec.letterAt (guesses : List Word) (i j : Nat) : Option Char :=
  (guesses[i]?).bind (fun guess => guess[j]?)

/-- The order the specification asks of two entries of `computeNextGuesses`, `a` coming
before `b`: the score of `a` is higher, or the scores are equal and it is not the case
that only `b` is a potential solution. -/
def Spec.rankedBefore {F : Type} [LinearOrderedField F] (solutions : List Word)
    (a b : Word × F) : Prop :=
  b.2 < a.2 ∨ (b.2 = a.2 ∧ (a.1 ∈ solutions ∨ b.1 ∉ solutions))

/-- The number `k_p` of potential solutions `s` with `computeHints(guess, s) == p`. -/
def Spec.classSize (guess : Word) (solutions : List Word) (p : List HintType) : Nat :=
  solutions.countP (fun solution => decide (computeHints guess solution = .ok p))

/-- The number of positions where `word` and `solution` both hold the letter `c`. -/
def Spec.matchCount (c : Char) (word solution : Word) : Nat :=
  (word.zip solution).countP (fun p => decide (p.1 = p.2) && decide (p.1 = c))

/-- The number of positions of `word` that hold the letter `c` and whose hint satisfies
`keep`. -/
def Spec.hintCount (keep : HintType → Bool) (c : Char) (word : Word)
    (hints : List HintType) : Nat :=
  (word.zip hints).countP (fun p => decide (p.1 = c) && keep p.2)

/-- The entries with the score `x` whose word is not a potential solution. -/
def Spec.tiedOutside {F : Type} [LinearOrderedField F] (solutions : List Word) (x : F)
    (entry : Word × F) : Bool :=
  decide (entry.2 = x) && !decide (entry.1 ∈ solutions)

/-- The entries with the score `x` whose word is a potential solution. -/
def Spec.tiedInside {F : Type} [LinearOrderedField F] (solutions : List Word) (x : F)
    (entry : Word × F) : Bool :=
  decide (entry.2 = x) && decide (entry.1 ∈ solutions)

/-! ## Sample data -/

/-- Three lower-case words of five letters, sorted. -/
def sampleWords : Dictionary :=
  { m_words := ["amble".toList, "email".toList, "maree".toList] }

/-- Wordle rules over `sampleWords`, with the default of six guesses. -/
def sampleWordle : RulesPtr :=
  { addr := 1, obj := .wordle { m_wordSize := 5, m_internalDict := sampleWords } 6 }

/-- Motus rules over `sampleWords`, with the default of six guesses. -/
def sampleMotus : RulesPtr :=
  { addr := 2, obj := .motus sampleWords 6 }

/-- A solver over `sampleWordle` after `setTemplate(".....")`. -/
def sampleSolver : Solver :=
  ((Solver.init sampleWordle).setTemplate ".....".toList).1

/-- A started game over `sampleWordle` whose secret word is "email". -/
def sampleGame : Game :=
  ((Game.init sampleWordle).setWord "email".toList).1.start.1

/-- The sample solver after the hints of a winning guess: one potential solution is
left. -/
def sampleSolverOne : Solver :=
  (sampleSolver.addHint "maree".toList
    [.CORRECT, .CORRECT, .CORRECT, .CORRECT, .CORRECT]).1

/-- A game over `sampleWordle` that has not started and whose secret word is "email". -/
def samplePending : Game :=
  ((Game.init sampleWordle).setWord "email".toList).1

/-- A dictionary, as a test stub can build it, with a word that is not lower-case. -/
def upperWords : Dictionary := { m_words := ["AB".toList] }

/-- Motus rules over `upperWords`. -/
def upperMotus : RulesPtr := { addr := 3, obj := .motus upperWords 6 }

/-- A started game over `upperMotus` whose secret word is "AB". -/
def upperGame : Game :=
  ((Game.init upperMotus).setWord "AB".toList).1.start.1

/-- Wordle rules for words of two letters over a dictionary, as a test stub can build
it, whose words are not lower-case. -/
def upperWordle : RulesPtr :=
  { addr := 4,
    obj := .wordle
      { m_wordSize := 2, m_internalDict := { m_words := ["AB".toList, "AC".toList] } } 6 }

/-- A solver over `upperWordle` after `setTemplate("..")`. -/
def upperSolver : Solver :=
  ((Solver.init upperWordle).setTemplate "..".toList).1

/-! # Theorems -/

/-! ## Hint engine: `matches` against `computeHints` -/

/-- The second loop of `computeHints` leaves exactly one hint per letter. -/
theorem computeHintsMisplaced_length (word : Word) (hints : List HintType) (rem : List Char)
    (h : word.length = hints.length) :
    (computeHintsMisplaced word hints rem).length = word.length := by
  induction word generalizing hints rem with
  | nil => cases hints <;> simp [computeHintsMisplaced]
  | cons w ws ih =>
    cases hints with
    | nil => simp at h
    | cons x xs =>
      simp only [List.length_cons, add_left_inj] at h
      unfold computeHintsMisplaced
      split_ifs <;> simp [ih _ _ h]

/-- The first loop of `computeHints` leaves exactly one hint per letter. -/
theorem computeHintsCorrect_length (word solution : Word) (rem : List Char)
    (h : word.length = solution.length) :
    (computeHintsCorrect word solution rem).1.length = word.length := by
  induction word generalizing solution rem with
  | nil => cases solution <;> simp [computeHintsCorrect]
  | cons w ws ih =>
    cases solution with
    | nil => simp at h
    | cons x xs =>
      simp only [List.length_cons, add_left_inj] at h
      unfold computeHintsCorrect
      split_ifs <;> simp [ih _ _ h]

/-- On the hints that the two loops of `computeHints` produce for `guess` against
`word`, the first loop of `matches` never returns early and erases the same letters as
the first loop of `computeHints`. -/
theorem matchesCorrect_computeHints (guess word : Word) (rem rem2 : List Char)
    (h : guess.length = word.length) :
    matchesCorrect word guess
        (computeHintsMisplaced guess (computeHintsCorrect guess word rem).1 rem2) rem
      = some (computeHintsCorrect guess word rem).2 := by
  induction guess generalizing word rem rem2 with
  | nil => cases word <;> simp [computeHintsCorrect, computeHintsMisplaced, matchesCorrect]
  | cons g gs ih =>
    cases word with
    | nil => simp at h
    | cons w ws =>
      simp only [List.length_cons, add_left_inj] at h
      by_cases hgw : g = w
      · subst hgw
        simp [computeHintsCorrect, computeHintsMisplaced, matchesCorrect, ih _ _ _ h]
      · have hwg : ¬ w = g := fun e => hgw e.symm
        by_cases hmem : g ∈ rem2
        · simp [computeHintsCorrect, computeHintsMisplaced, matchesCorrect, hgw, hmem,
            ih _ _ _ h]
        · simp [computeHintsCorrect, computeHintsMisplaced, matchesCorrect, hgw, hmem,
            ih _ _ _ h]

/-- On the hints that `computeHints` produces, the second loop of `matches` succeeds
when it starts from the letters the second loop of `computeHints` started from. -/
theorem matchesOther_computeHints (guess word : Word) (rem rem2 : List Char)
    (h : guess.length = word.length) :
    matchesOther word guess
        (computeHintsMisplaced guess (computeHintsCorrect guess word rem).1 rem2) rem2
      = true := by
  induction guess generalizing word rem rem2 with
  | nil => cases word <;> simp [computeHintsCorrect, computeHintsMisplaced, matchesOther]
  | cons g gs ih =>
    cases word with
    | nil => simp at h
    | cons w ws =>
      simp only [List.length_cons, add_left_inj] at h
      by_cases hgw : g = w
      · subst hgw
        simp [computeHintsCorrect, computeHintsMisplaced, matchesOther, ih _ _ _ h]
      · have hwg : ¬ w = g := fun e => hgw e.symm
        by_cases hmem : g ∈ rem2
        · simp [computeHintsCorrect, computeHintsMisplaced, matchesOther, hgw, hwg, hmem,
            ih _ _ _ h]
        · simp [computeHintsCorrect, computeHintsMisplaced, matchesOther, hgw, hmem,
            ih _ _ _ h]

/-- Whenever `computeHints` returns, it returns one hint per letter of the word. -/
theorem computeHints_length (word solution : Word) (hints : List HintType)
    (h : computeHints word solution = .ok hints) : hints.length = word.length := by
  unfold computeHints at h
  split_ifs at h with h1 h2
  simp only [Except.ok.injEq] at h
  subst h
  have h1 : word.length = solution.length := by simpa using h1
  rw [computeHintsMisplaced_length _ _ _ (computeHintsCorrect_length _ _ _ h1).symm]

/-- On arguments of equal length made of lower-case letters `computeHints` returns. -/
theorem computeHints_ok (word solution : Word) (hlen : word.length = solution.length)
    (hw : ∀ c ∈ word, islower c = true) (hs : ∀ c ∈ solution, islower c = true) :
    computeHints word solution = .ok (computeHintsMisplaced word
      (computeHintsCorrect word solution solution).1
      (computeHintsCorrect word solution solution).2) := by
  have hw2 : word.all islower = true := by simpa using hw
  have hs2 : solution.all islower = true := by simpa using hs
  simp [computeHints, hlen, hw2, hs2]

/-- Whatever `computeHints(guess, word)` returns is accepted by `matches` for `word`. -/
theorem matches_of_computeHints (guess word : Word) (hints : List HintType)
    (h : computeHints guess word = .ok hints) : Hint.matches word guess hints = true := by
  have hl := computeHints_length guess word hints h
  unfold computeHints at h
  split_ifs at h with h1 h2
  simp only [Except.ok.injEq] at h
  have hlen : guess.length = word.length := by simpa using h1
  subst h
  unfold Hint.matches
  rw [if_neg (by simp [hl, hlen]), matchesCorrect_computeHints guess word word _ hlen]
  exact matchesOther_computeHints guess word word _ hlen

/-- C2 (hint/match duality): for lower-case strings `G` and `S` of equal length,
`computeHints(G, S)` returns a hint vector and `matches(S, G, computeHints(G, S))` is
true. -/
theorem matches_computeHints (G S : Word) (hlen : G.length = S.length)
    (hG : ∀ c ∈ G, islower c = true) (hS : ∀ c ∈ S, islower c = true) :
    ∃ hints, computeHints G S = .ok hints ∧ Hint.matches S G hints = true :=
  ⟨_, computeHints_ok G S hlen hG hS,
    matches_of_computeHints G S _ (computeHints_ok G S hlen hG hS)⟩

/-- C1 (evaluation at the failing input): `matches("amble", "maree", hints)` is true for
the hints that the game gives for the guess "maree" against the secret "email", although
`computeHints("maree", "amble")` is a different hint vector. -/
theorem matches_accepts_other_hints :
    computeHints "maree".toList "email".toList
        = .ok [.MISPLACED, .MISPLACED, .WRONG, .MISPLACED, .WRONG] ∧
      Hint.matches "amble".toList "maree".toList
        [.MISPLACED, .MISPLACED, .WRONG, .MISPLACED, .WRONG] = true ∧
      computeHints "maree".toList "amble".toList
        = .ok [.MISPLACED, .MISPLACED, .WRONG, .WRONG, .CORRECT] := by
  decide

/-- A witness of C2: the guess "maree" against the solution "email". -/
theorem matches_computeHints_witness :
    "maree".toList.length = "email".toList.length ∧
    ∃ hints, computeHints "maree".toList "email".toList = .ok hints ∧
      Hint.matches "email".toList "maree".toList hints = true :=
  ⟨by decide,
   matches_computeHints "maree".toList "email".toList (by decide) (by decide) (by decide)⟩

/-! ## Solver: `addHint` -/

/-- C3: when `addHint(guess, hints)` is accepted, the potential solutions afterwards are
the previous ones restricted, in order, to the words that `matches` the guess and hints
(so they are not more numerous), and the potential guesses and the template are
unchanged; an accepted call implies a non-empty template. -/
theorem addHint_filters_solutions (s : Solver) (guess : Word) (hints : List HintType)
    (hok : (s.addHint guess hints).2 = .ok ()) :
    s.getTemplate ≠ [] ∧
    (s.addHint guess hints).1.getPotentialSolutions
      = s.getPotentialSolutions.filter (fun word => Hint.matches word guess hints) ∧
    (s.addHint guess hints).1.getPotentialSolutions.length ≤ s.getPotentialSolutions.length ∧
    (s.addHint guess hints).1.getPotentialGuesses = s.getPotentialGuesses ∧
    (s.addHint guess hints).1.getTemplate = s.getTemplate := by
  unfold Solver.addHint at hok ⊢
  split_ifs at hok ⊢ with h1 h2 h3
  have hne : s.m_wordTemplate ≠ [] := by
    intro h
    simp [h] at h1
  simp only [Solver.getPotentialSolutions, Solver.getPotentialGuesses, Solver.getTemplate,
    Bool.not_not, and_true, true_and]
  exact ⟨hne, List.length_filter_le _ _⟩

/-- A witness of C3: the hints of "maree" against "email" on the sample solver. -/
theorem addHint_filters_solutions_witness :
    sampleSolver.getTemplate ≠ [] ∧
    (sampleSolver.addHint "maree".toList
        [.MISPLACED, .MISPLACED, .WRONG, .MISPLACED, .WRONG]).1.getPotentialSolutions
      = sampleSolver.getPotentialSolutions.filter (fun word => Hint.matches word "maree".toList
          [.MISPLACED, .MISPLACED, .WRONG, .MISPLACED, .WRONG]) ∧
    (sampleSolver.addHint "maree".toList
        [.MISPLACED, .MISPLACED, .WRONG, .MISPLACED, .WRONG]).1.getPotentialSolutions.length
      ≤ sampleSolver.getPotentialSolutions.length ∧
    (sampleSolver.addHint "maree".toList
        [.MISPLACED, .MISPLACED, .WRONG, .MISPLACED, .WRONG]).1.getPotentialGuesses
      = sampleSolver.getPotentialGuesses ∧
    (sampleSolver.addHint "maree".toList
        [.MISPLACED, .MISPLACED, .WRONG, .MISPLACED, .WRONG]).1.getTemplate
      = sampleSolver.getTemplate :=
  addHint_filters_solutions sampleSolver "maree".toList
    [.MISPLACED, .MISPLACED, .WRONG, .MISPLACED, .WRONG] (by decide)

/-- C4 (evaluation at the failing input): over the dictionary amble, email, maree with
the template ".....", one potential solution gives the hints of the guess "maree"
against "email" (the occurrence count of `computeActualEntropy`), yet two potential
solutions remain after `addHint` with these hints. -/
theorem addHint_count_differs :
    sampleSolver.getPotentialSolutions
      = ["amble".toList, "email".toList, "maree".toList] ∧
    (sampleSolver.addHint "maree".toList
        [.MISPLACED, .MISPLACED, .WRONG, .MISPLACED, .WRONG]).2 = .ok () ∧
    countOccurences "maree".toList [.MISPLACED, .MISPLACED, .WRONG, .MISPLACED, .WRONG]
        sampleSolver.getPotentialSolutions = .ok 1 ∧
    (sampleSolver.addHint "maree".toList
        [.MISPLACED, .MISPLACED, .WRONG, .MISPLACED, .WRONG]).1.getPotentialSolutions
      = ["amble".toList, "email".toList] := by
  decide

/-- C9: `addHint` throws exactly when the template is empty, or the guess is not valid
against the template, or the guess and the hints differ in length; the three checks are
made in this order, and a call that throws leaves the whole solver unchanged. -/
theorem addHint_fails_iff (s : Solver) (guess : Word) (hints : List HintType) :
    ((∃ e, (s.addHint guess hints).2 = .error e) ↔
      (s.getTemplate = [] ∨ s.m_rules.obj.isGuessValid guess s.getTemplate = false
        ∨ guess.length ≠ hints.length)) ∧
    (s.getTemplate = [] → (s.addHint guess hints).2 = .error .templateNotSet) ∧
    (s.getTemplate ≠ [] → s.m_rules.obj.isGuessValid guess s.getTemplate = false →
      (s.addHint guess hints).2 = .error .guessNotValid) ∧
    (s.getTemplate ≠ [] → s.m_rules.obj.isGuessValid guess s.getTemplate = true →
      guess.length ≠ hints.length → (s.addHint guess hints).2 = .error .hintCountMismatch) ∧
    (∀ e, (s.addHint guess hints).2 = .error e → (s.addHint guess hints).1 = s) := by
  unfold Solver.addHint Solver.getTemplate
  by_cases h1 : s.m_wordTemplate = []
  · simp [h1]
  · have h1b : s.m_wordTemplate.isEmpty = false := by
      cases h : s.m_wordTemplate with
      | nil => exact absurd h h1
      | cons a l => rfl
    by_cases h2 : s.m_rules.obj.isGuessValid guess s.m_wordTemplate = true
    · by_cases h3 : guess.length = hints.length
      · simp [h1, h1b, h2, h3]
      · simp [h1, h1b, h2, h3]
    · simp only [Bool.not_eq_true] at h2
      simp [h1, h1b, h2]

/-- A witness of C9: a single hint for a guess of five letters on the sample solver. -/
theorem addHint_fails_iff_witness :
    (sampleSolver.addHint "amble".toList [.WRONG]).2 = .error .hintCountMismatch ∧
      (sampleSolver.addHint "amble".toList [.WRONG]).1 = sampleSolver :=
  have h := addHint_fails_iff sampleSolver "amble".toList [.WRONG]
  ⟨h.2.2.2.1 (by decide) (by decide) (by decide), h.2.2.2.2 .hintCountMismatch (by decide)⟩


/-! ## Solver: `setTemplate` -/

/-- The validity test of `setTemplate` is the one of the specification. -/
theorem validTemplate_iff (t : Word) :
    t.all (fun c => decide (c = '.') || (decide (c ≥ 'a') && decide (c ≤ 'z'))) = true
      ↔ Spec.validTemplate t := by
  simp [Spec.validTemplate]

/-- What `setTemplate` does with a template that passes the validity test and is not
empty. -/
theorem setTemplate_of_valid (s : Solver) (t : Word) (hne : t ≠ [])
    (hvalid : Spec.validTemplate (t.map tolower)) :
    s.setTemplate t =
      ({ m_rules := s.m_rules, m_hints := [], m_wordTemplate := t.map tolower,
         m_potentialGuesses := s.m_rules.obj.getDictionary.getAllWords.filter
           (fun word => s.m_rules.obj.isGuessValid word (t.map tolower)),
         m_potentialSolutions := (s.m_rules.obj.getDictionary.getAllWords.filter
           (fun word => s.m_rules.obj.isSolutionValid word)).filter
           (fun word => !templateRejects (t.map tolower) word) }, .ok ()) := by
  have hv := (validTemplate_iff (t.map tolower)).2 hvalid
  have hne2 : (t.map tolower).isEmpty = false := by
    cases t with
    | nil => exact absurd rfl hne
    | cons a l => rfl
  unfold Solver.setTemplate
  simp only [hv, Bool.not_true, Bool.false_eq_true, if_false, hne2, Solver.populateGuesses,
    Solver.populateSolutions, Solver.reset]

/-- What `setTemplate` does with the empty template. -/
theorem setTemplate_nil (s : Solver) :
    s.setTemplate [] = ({ s.reset with m_wordTemplate := [] }, .ok ()) := by
  simp [Solver.setTemplate]

/-- C8: `setTemplate(t)` throws exactly when the lower-cased `t` has a character that is
neither a dot nor a letter between a and z; the exception is then the invalid-argument
one of `setTemplate`, and the solver (template, hints, potential guesses and potential
solutions) is left as it was. -/
theorem setTemplate_fails_iff (s : Solver) (t : Word) :
    ((∃ e, (s.setTemplate t).2 = .error e) ↔ ¬ Spec.validTemplate (t.map tolower)) ∧
    (∀ e, (s.setTemplate t).2 = .error e →
      e = .invalidTemplate ∧ e.isInvalidArg = true ∧ (s.setTemplate t).1 = s) := by
  by_cases hvalid : Spec.validTemplate (t.map tolower)
  · by_cases hne : t = []
    · subst hne
      simp [setTemplate_nil, Spec.validTemplate]
    · simp [setTemplate_of_valid s t hne hvalid, hvalid]
  · have hv : ¬ (t.map tolower).all
        (fun c => decide (c = '.') || (decide (c ≥ 'a') && decide (c ≤ 'z'))) = true :=
      fun h => hvalid ((validTemplate_iff _).1 h)
    unfold Solver.setTemplate
    simp only [hv, Bool.not_eq_true] at *
    simp [hv, hvalid, Error.isInvalidArg]

/-- A witness of C8 on a solver that holds a template, hints and candidates. -/
theorem setTemplate_fails_iff_witness :
    (sampleSolver.setTemplate "ab!de".toList).2 = .error .invalidTemplate ∧
      (sampleSolver.setTemplate "ab!de".toList).1 = sampleSolver :=
  ⟨by decide,
   ((setTemplate_fails_iff sampleSolver "ab!de".toList).2 .invalidTemplate (by decide)).2.2⟩

/-- The loop of the lambda of `setTemplate` finds no mismatch exactly when the word
carries the letter of the template wherever the template is not a dot. -/
theorem templateLoop_eq_false_iff (t w : Word) (h : w.length = t.length) :
    templateLoop t w = false ↔
      ∀ i, i < t.length → t[i]? ≠ some '.' → w[i]? = t[i]? := by
  induction t generalizing w with
  | nil => simp [templateLoop]
  | cons a t ih =>
    cases w with
    | nil => simp at h
    | cons b w =>
      simp only [List.length_cons, add_left_inj] at h
      unfold templateLoop
      constructor
      · intro hl i hi hdot
        by_cases hc : a ≠ '.' ∧ a ≠ b
        · simp [hc] at hl
        · rw [if_neg hc] at hl
          cases i with
          | zero =>
            simp only [List.getElem?_cons_zero, ne_eq, Option.some.injEq] at hdot ⊢
            by_contra hba
            exact hc ⟨hdot, fun e => hba e.symm⟩
          | succ j =>
            simp only [List.getElem?_cons_succ] at hdot ⊢
            exact (ih w h).1 hl j (by simpa using hi) hdot
      · intro hall
        have h0 := hall 0 (by simp)
        simp only [List.getElem?_cons_zero, ne_eq, Option.some.injEq] at h0
        have hc : ¬ (a ≠ '.' ∧ a ≠ b) := fun hc => hc.2 (h0 hc.1).symm
        rw [if_neg hc]
        refine (ih w h).2 (fun i hi hdot => ?_)
        have := hall (i + 1) (by simpa using hi)
        simp only [List.getElem?_cons_succ] at this
        exact this hdot

/-- The lambda of `setTemplate` keeps a word exactly when the word carries the template
in the sense of the specification. -/
theorem templateRejects_eq_false_iff (t w : Word) :
    templateRejects t w = false ↔ Spec.carriesTemplate t w := by
  unfold templateRejects Spec.carriesTemplate
  by_cases h : w.length = t.length
  · simp [h, templateLoop_eq_false_iff t w h]
  · simp [h]

/-- C7: for a non-empty `t` whose lower-cased characters are dots or letters,
`setTemplate(t)` succeeds; afterwards the template is `t` lower-cased, no hint is stored,
the potential guesses are the dictionary words, in order, that are valid guesses against
the template, and the potential solutions are the dictionary words, in order, that are
valid solutions, have the length of the template and carry its letter at every position
where it is not a dot. -/
theorem setTemplate_populates (s : Solver) (t : Word) (hne : t ≠ [])
    (hvalid : Spec.validTemplate (t.map tolower)) :
    (s.setTemplate t).2 = .ok () ∧
    (s.setTemplate t).1.getTemplate = t.map tolower ∧
    (s.setTemplate t).1.getHints = [] ∧
    (s.setTemplate t).1.getPotentialGuesses
      = s.m_rules.obj.getDictionary.getAllWords.filter
          (fun word => s.m_rules.obj.isGuessValid word (s.setTemplate t).1.getTemplate) ∧
    (s.setTemplate t).1.getPotentialSolutions
      = s.m_rules.obj.getDictionary.getAllWords.filter
          (fun word => s.m_rules.obj.isSolutionValid word
            && decide (Spec.carriesTemplate (s.setTemplate t).1.getTemplate word)) := by
  rw [setTemplate_of_valid s t hne hvalid]
  simp only [Solver.getTemplate, Solver.getHints, Solver.getPotentialGuesses,
    Solver.getPotentialSolutions, true_and, List.filter_filter]
  apply List.filter_congr
  intro word _
  rw [Bool.and_comm]
  congr 1
  by_cases hc : Spec.carriesTemplate (t.map tolower) word
  · simp [hc, (templateRejects_eq_false_iff _ _).2 hc]
  · have : templateRejects (t.map tolower) word = true := by
      by_contra hr
      exact hc ((templateRejects_eq_false_iff _ _).1 (by simpa using hr))
    simp [hc, this]

/-- A witness of C7: the template "A...." over the sample dictionary. -/
theorem setTemplate_populates_witness :
    "A....".toList ≠ [] ∧ Spec.validTemplate ("A....".toList.map tolower) ∧
    ((Solver.init sampleWordle).setTemplate "A....".toList).2 = .ok () ∧
    ((Solver.init sampleWordle).setTemplate "A....".toList).1.getTemplate = "a....".toList ∧
    ((Solver.init sampleWordle).setTemplate "A....".toList).1.getPotentialSolutions
      = ["amble".toList] :=
  have hv : Spec.validTemplate ("A....".toList.map tolower) := by
    unfold Spec.validTemplate
    decide
  have h := setTemplate_populates (Solver.init sampleWordle) "A....".toList (by decide) hv
  ⟨by decide, hv, h.1, h.2.1.trans (by decide), h.2.2.2.2.trans (by decide)⟩


/-! ## Solver: the stored hints -/

/-- After `emplace` a key that was absent maps to the new value. -/
theorem HintMap.find_emplace_of_none (m : HintMap) (key : Word) (value : List HintType)
    (h : HintMap.find m key = none) :
    HintMap.find (HintMap.emplace m key value) key = some value := by
  unfold HintMap.emplace
  rw [h]
  simp only [Option.isSome_none, Bool.false_eq_true, if_false]
  unfold HintMap.find at h ⊢
  simp only [Option.map_eq_none'] at h
  simp [List.find?_append, h]

/-- After `emplace` a key that was present keeps its value. -/
theorem HintMap.find_emplace_of_some (m : HintMap) (key : Word) (value old : List HintType)
    (h : HintMap.find m key = some old) :
    HintMap.find (HintMap.emplace m key value) key = some old := by
  unfold HintMap.emplace
  simp [h]

/-- The function `emplace` does not touch the other keys. -/
theorem HintMap.find_emplace_of_ne (m : HintMap) (key other : Word) (value : List HintType)
    (h : other ≠ key) :
    HintMap.find (HintMap.emplace m key value) other = HintMap.find m other := by
  unfold HintMap.emplace
  split_ifs
  · rfl
  · unfold HintMap.find
    have hk : ¬ key = other := fun e => h e.symm
    cases hf : List.find? (fun entry => decide (entry.1 = other)) m <;>
      simp [List.find?_append, hf, hk]

/-- What an accepted `addHint(guess, hints)` leaves in the stored hints: `getHints()`
afterwards maps `guess` to `hints` if it had no entry for `guess`, and to the hints it
already stored for `guess` otherwise; the entries of all other guesses are unchanged. -/
theorem addHint_stores_hints (s : Solver) (guess : Word) (hints : List HintType)
    (hok : (s.addHint guess hints).2 = .ok ()) :
    (HintMap.find s.getHints guess = none →
      HintMap.find (s.addHint guess hints).1.getHints guess = some hints) ∧
    (∀ old, HintMap.find s.getHints guess = some old →
      HintMap.find (s.addHint guess hints).1.getHints guess = some old) ∧
    (∀ other, other ≠ guess →
      HintMap.find (s.addHint guess hints).1.getHints other
        = HintMap.find s.getHints other) := by
  unfold Solver.addHint at hok ⊢
  split_ifs at hok ⊢ with h1 h2 h3
  simp only [Solver.getHints]
  exact ⟨HintMap.find_emplace_of_none _ _ _,
    fun old => HintMap.find_emplace_of_some _ _ _ old,
    fun other => HintMap.find_emplace_of_ne _ _ other _⟩

/-- A first hint for "maree" on the sample solver is stored. -/
theorem addHint_stores_hints_witness :
    (sampleSolver.addHint "maree".toList
        [.MISPLACED, .MISPLACED, .WRONG, .MISPLACED, .WRONG]).2 = .ok () ∧
    HintMap.find (sampleSolver.addHint "maree".toList
        [.MISPLACED, .MISPLACED, .WRONG, .MISPLACED, .WRONG]).1.getHints "maree".toList
      = some [.MISPLACED, .MISPLACED, .WRONG, .MISPLACED, .WRONG] :=
  ⟨by decide,
   (addHint_stores_hints sampleSolver "maree".toList
      [.MISPLACED, .MISPLACED, .WRONG, .MISPLACED, .WRONG] (by decide)).1 (by decide)⟩

/-- C10 (evaluation at the failing input): after `addHint("maree", all WRONG)`, a second
accepted `addHint("maree", hints)` with other hints leaves `getHints()` mapping "maree"
to the first hints, not to `hints`. -/
theorem addHint_keeps_first_hints :
    ((sampleSolver.addHint "maree".toList
        [.WRONG, .WRONG, .WRONG, .WRONG, .WRONG]).1.addHint "maree".toList
        [.MISPLACED, .MISPLACED, .WRONG, .MISPLACED, .WRONG]).2 = .ok () ∧
    HintMap.find ((sampleSolver.addHint "maree".toList
        [.WRONG, .WRONG, .WRONG, .WRONG, .WRONG]).1.addHint "maree".toList
        [.MISPLACED, .MISPLACED, .WRONG, .MISPLACED, .WRONG]).1.getHints "maree".toList
      ≠ some [.MISPLACED, .MISPLACED, .WRONG, .MISPLACED, .WRONG] ∧
    HintMap.find ((sampleSolver.addHint "maree".toList
        [.WRONG, .WRONG, .WRONG, .WRONG, .WRONG]).1.addHint "maree".toList
        [.MISPLACED, .MISPLACED, .WRONG, .MISPLACED, .WRONG]).1.getHints "maree".toList
      = some [.WRONG, .WRONG, .WRONG, .WRONG, .WRONG] := by
  decide

/-! ## Game: `tryGuess` -/

/-- In every reachable state a non-empty secret word is a valid solution of the current
rules, and a started game has a non-empty secret word. -/
theorem Game.Reachable.word_valid {g : Game} (hr : g.Reachable) :
    (g.m_word ≠ [] → g.m_rules.obj.isSolutionValid g.m_word = true) ∧
      (g.m_start = true → g.m_word ≠ []) := by
  induction hr with
  | create rules => simp [Game.init]
  | setWord g word _ ih =>
    unfold Game.setWord
    split_ifs with h1 h2
    · exact ih
    · exact ih
    · simp only [Bool.not_eq_true, Bool.and_eq_true, decide_eq_true_eq, not_and,
        Decidable.not_not, Bool.not_eq_eq_eq_not, Bool.not_false] at h1 h2
      refine ⟨fun _ => by simpa using h1, fun hs => ?_⟩
      have := h2 hs
      simp only [this]
      exact ih.2 hs
  | start g _ ih =>
    unfold Game.start
    split_ifs with h1 h2
    · exact ih
    · exact ih
    · refine ⟨ih.1, fun _ => ?_⟩
      intro h
      exact h2 (by simpa using h)
  | tryGuess g word _ ih =>
    unfold Game.tryGuess
    split_ifs with h1 h2 h3
    · exact ih
    · exact ih
    · exact ih
    · simp only
      split <;> exact ih
  | reset g _ ih => simp [Game.reset]
  | setRules g rules _ ih =>
    cases rules with
    | none => exact ih
    | some rules =>
      simp only [Game.setRules]
      by_cases h1 : g.m_rules.addr = rules.addr
      · rw [if_pos h1]
        exact ih
      · rw [if_neg h1]
        cases hs : g.m_start
        · cases hv : rules.obj.isSolutionValid g.m_word
          · simp [Game.hasStarted, hs, hv]
          · simp [Game.hasStarted, hs, hv]
        · cases hv : rules.obj.isSolutionValid []
          · simp [Game.hasStarted, Game.reset, hs, hv]
          · simp [Game.hasStarted, Game.reset, hs, hv]


/-- A valid guess has the length of the answer and is a word of the dictionary. -/
theorem GameRules.isGuessValid_mem (r : GameRules) (word answer : Word)
    (h : r.isGuessValid word answer = true) :
    word.length = answer.length ∧ word ∈ r.getDictionary.m_words := by
  cases r with
  | motus d m =>
    simp only [GameRules.isGuessValid] at h
    split_ifs at h with h0
    simp only [Bool.and_eq_true, decide_eq_true_eq, Dictionary.contains] at h
    exact ⟨h.1.1, h.2⟩
  | wordle d m =>
    simp only [GameRules.isGuessValid, Bool.and_eq_true, decide_eq_true_eq,
      Dictionary.contains] at h
    exact ⟨h.1.2.trans h.1.1.symm, h.2⟩

/-- A valid solution is a word of the dictionary. -/
theorem GameRules.isSolutionValid_mem (r : GameRules) (word : Word)
    (h : r.isSolutionValid word = true) : word ∈ r.getDictionary.m_words := by
  cases r with
  | motus d m =>
    simp only [GameRules.isSolutionValid, Bool.and_eq_true, Dictionary.contains,
      decide_eq_true_eq] at h
    exact h.2
  | wordle d m =>
    simp only [GameRules.isSolutionValid, Bool.and_eq_true, decide_eq_true_eq,
      Dictionary.contains] at h
    exact h.2

/-- In a reachable started game over a lower-case dictionary, `computeHints` returns for
every valid guess. -/
theorem Game.Reachable.hints_exist {g : Game} (hr : g.Reachable)
    (hd : g.m_rules.obj.getDictionary.isLowercase) (hs : g.hasStarted = true) (w : Word)
    (hv : g.m_rules.obj.isGuessValid w g.m_word = true) :
    ∃ hints, computeHints w g.m_word = .ok hints := by
  have hinv := hr.word_valid
  have hword := GameRules.isSolutionValid_mem _ _ (hinv.1 (hinv.2 hs))
  have hg := GameRules.isGuessValid_mem _ _ _ hv
  exact ⟨_, Alphadocte.computeHints_ok w g.m_word hg.1 (hd w hg.2) (hd g.m_word hword)⟩

/-- C5: in a reachable game that is started and not over, over a dictionary of
lower-case words, `tryGuess(w)` with a valid guess `w` returns `computeHints(w, secret)`,
appends `w` to the tried guesses and the hints to the hint history, leaves the secret,
the started flag and the rules unchanged, and sets the won flag exactly when every
returned hint is `CORRECT`. -/
theorem tryGuess_success (g : Game) (w : Word) (hr : g.Reachable)
    (hd : g.m_rules.obj.getDictionary.isLowercase)
    (hs : g.hasStarted = true) (ho : g.isOver = false)
    (hv : g.m_rules.obj.isGuessValid w g.m_word = true) :
    ∃ hints, computeHints w g.m_word = .ok hints ∧
      (g.tryGuess w).2 = .ok hints ∧
      (g.tryGuess w).1.m_guesses = g.m_guesses ++ [w] ∧
      (g.tryGuess w).1.m_hints = g.m_hints ++ [hints] ∧
      (g.tryGuess w).1.m_word = g.m_word ∧
      (g.tryGuess w).1.m_start = g.m_start ∧
      (g.tryGuess w).1.m_rules = g.m_rules ∧
      ((g.tryGuess w).1.isWon = true ↔ ∀ h ∈ hints, h = HintType.CORRECT) := by
  obtain ⟨hints, hh⟩ := hr.hints_exist hd hs w hv
  refine ⟨hints, hh, ?_⟩
  unfold Game.tryGuess
  simp only [hs, ho, hv, Bool.not_true, Bool.false_eq_true, if_false, hh, Game.isWon,
    decide_eq_true_eq, true_and]
  rw [List.count_eq_length]
  constructor
  · intro h x hx
    exact (h x hx).symm
  · intro h x hx
    exact (h x hx).symm

/-- The sample game is reachable. -/
theorem sampleGame_reachable : sampleGame.Reachable :=
  Game.Reachable.start _ (Game.Reachable.setWord _ _ (Game.Reachable.create _))

/-- The sample dictionary is lower-case. -/
theorem sampleGame_lowercase : sampleGame.m_rules.obj.getDictionary.isLowercase := by
  unfold Dictionary.isLowercase
  decide

/-- A witness of C5: the guess "maree" in the sample game. -/
theorem tryGuess_success_witness :
    sampleGame.hasStarted = true ∧ sampleGame.isOver = false ∧
    sampleGame.m_rules.obj.isGuessValid "maree".toList sampleGame.m_word = true ∧
    ∃ hints, computeHints "maree".toList sampleGame.m_word = .ok hints ∧
      (sampleGame.tryGuess "maree".toList).2 = .ok hints ∧
      (sampleGame.tryGuess "maree".toList).1.m_guesses
        = sampleGame.m_guesses ++ ["maree".toList] ∧
      (sampleGame.tryGuess "maree".toList).1.m_hints = sampleGame.m_hints ++ [hints] ∧
      (sampleGame.tryGuess "maree".toList).1.m_word = sampleGame.m_word ∧
      (sampleGame.tryGuess "maree".toList).1.m_start = sampleGame.m_start ∧
      (sampleGame.tryGuess "maree".toList).1.m_rules = sampleGame.m_rules ∧
      ((sampleGame.tryGuess "maree".toList).1.isWon = true
        ↔ ∀ h ∈ hints, h = HintType.CORRECT) :=
  ⟨by decide, by decide, by decide,
   tryGuess_success sampleGame "maree".toList sampleGame_reachable sampleGame_lowercase
     (by decide) (by decide) (by decide)⟩

/-- C6 (as amended): in a reachable game over a dictionary of lower-case words,
`tryGuess(w)` throws exactly when the game is not started, or is over, or `w` is not a
valid guess against the secret; the three checks are made in this order, and a call that
throws leaves the whole game (guesses, hints, flags, secret, rules) unchanged. -/
theorem tryGuess_fails_iff (g : Game) (w : Word) (hr : g.Reachable)
    (hd : g.m_rules.obj.getDictionary.isLowercase) :
    ((∃ e, (g.tryGuess w).2 = .error e) ↔
      (g.hasStarted = false ∨ g.isOver = true
        ∨ g.m_rules.obj.isGuessValid w g.m_word = false)) ∧
    (g.hasStarted = false → (g.tryGuess w).2 = .error .gameNotStarted) ∧
    (g.hasStarted = true → g.isOver = true → (g.tryGuess w).2 = .error .gameOver) ∧
    (g.hasStarted = true → g.isOver = false →
      g.m_rules.obj.isGuessValid w g.m_word = false →
      (g.tryGuess w).2 = .error .invalidGuess) ∧
    (∀ e, (g.tryGuess w).2 = .error e → (g.tryGuess w).1 = g) := by
  cases hs : g.hasStarted
  · simp [Game.tryGuess, hs]
  · cases ho : g.isOver
    · cases hv : g.m_rules.obj.isGuessValid w g.m_word
      · simp [Game.tryGuess, hs, ho, hv]
      · obtain ⟨hints, hh⟩ := hr.hints_exist hd hs w hv
        simp [Game.tryGuess, hs, ho, hv, hh]
    · simp [Game.tryGuess, hs, ho]

/-- A witness of C6 (as amended): a guess outside the dictionary in the sample game. -/
theorem tryGuess_fails_iff_witness :
    (sampleGame.tryGuess "zzzzz".toList).2 = .error .invalidGuess ∧
      (sampleGame.tryGuess "zzzzz".toList).1 = sampleGame :=
  have h := tryGuess_fails_iff sampleGame "zzzzz".toList sampleGame_reachable
    sampleGame_lowercase
  ⟨h.2.2.2.1 (by decide) (by decide) (by decide), h.2.2.2.2 .invalidGuess (by decide)⟩

/-- The game `upperGame` is reachable. -/
theorem upperGame_reachable : upperGame.Reachable :=
  Game.Reachable.start _ (Game.Reachable.setWord _ _ (Game.Reachable.create _))

/-- C6 (counterexample): over a dictionary that holds the word "AB", the reachable game
`upperGame` is started and not over and "AB" is a valid guess, yet `tryGuess("AB")`
throws (from `computeHints`), and it leaves the guess in the tried guesses. -/
theorem tryGuess_fails_on_valid_guess :
    upperGame.Reachable ∧
    upperGame.hasStarted = true ∧ upperGame.isOver = false ∧
    upperGame.m_rules.obj.isGuessValid "AB".toList upperGame.m_word = true ∧
    (upperGame.tryGuess "AB".toList).2 = .error .hintsNotLower ∧
    upperGame.m_guesses = [] ∧
    (upperGame.tryGuess "AB".toList).1.m_guesses = ["AB".toList] :=
  ⟨upperGame_reachable, by decide, by decide, by decide, by decide, by decide, by decide⟩

/-! ## `computeHints`: failures, length and the `CORRECT` positions -/

/-- The test `std::all_of(..., islower)` fails exactly when some character lies outside
the range from a to z. -/
theorem all_islower_eq_false_iff (word : Word) :
    word.all islower = false ↔ ∃ c ∈ word, ¬ ('a' ≤ c ∧ c ≤ 'z') := by
  induction word with
  | nil => simp
  | cons a l ih =>
    simp only [List.all_cons, Bool.and_eq_false_iff, ih, List.mem_cons, exists_eq_or_imp]
    simp [islower]

/-- C18: `computeHints(word, solution)` throws exactly when the two lengths differ or one
of the strings has a character that is not a lower-case letter; what it throws is an
invalid-argument exception; otherwise it returns a hint vector with exactly `len(word)`
entries. -/
theorem computeHints_fails_iff (word solution : Word) :
    ((∃ e, computeHints word solution = .error e) ↔
      (word.length ≠ solution.length ∨ (∃ c ∈ word, ¬ ('a' ≤ c ∧ c ≤ 'z'))
        ∨ (∃ c ∈ solution, ¬ ('a' ≤ c ∧ c ≤ 'z')))) ∧
    (∀ e, computeHints word solution = .error e → e.isInvalidArg = true) ∧
    (¬ (word.length ≠ solution.length ∨ (∃ c ∈ word, ¬ ('a' ≤ c ∧ c ≤ 'z'))
        ∨ (∃ c ∈ solution, ¬ ('a' ≤ c ∧ c ≤ 'z'))) →
      ∃ hints, computeHints word solution = .ok hints ∧ hints.length = word.length) := by
  by_cases hlen : word.length = solution.length
  · cases hw : word.all islower
    · have hw2 := (all_islower_eq_false_iff word).1 hw
      have hval : computeHints word solution = .error .hintsNotLower := by
        simp [computeHints, hlen, hw]
      rw [hval]
      refine ⟨⟨fun _ => Or.inr (Or.inl hw2), fun _ => ⟨_, rfl⟩⟩, ?_, ?_⟩
      · intro e he
        cases he
        rfl
      · intro hn
        exact absurd (Or.inr (Or.inl hw2)) hn
    · cases hs : solution.all islower
      · have hs2 := (all_islower_eq_false_iff solution).1 hs
        have hval : computeHints word solution = .error .hintsNotLower := by
          simp [computeHints, hlen, hw, hs]
        rw [hval]
        refine ⟨⟨fun _ => Or.inr (Or.inr hs2), fun _ => ⟨_, rfl⟩⟩, ?_, ?_⟩
        · intro e he
          cases he
          rfl
        · intro hn
          exact absurd (Or.inr (Or.inr hs2)) hn
      · have hw2 : ¬ ∃ c ∈ word, ¬ ('a' ≤ c ∧ c ≤ 'z') := by
          rw [← all_islower_eq_false_iff, hw]
          simp
        have hs2 : ¬ ∃ c ∈ solution, ¬ ('a' ≤ c ∧ c ≤ 'z') := by
          rw [← all_islower_eq_false_iff, hs]
          simp
        have hl := computeHintsMisplaced_length word
          (computeHintsCorrect word solution solution).1
          (computeHintsCorrect word solution solution).2
          (computeHintsCorrect_length _ _ _ hlen).symm
        have hval : computeHints word solution = .ok (computeHintsMisplaced word
            (computeHintsCorrect word solution solution).1
            (computeHintsCorrect word solution solution).2) := by
          simp [computeHints, hlen, hw, hs]
        rw [hval]
        refine ⟨⟨?_, ?_⟩, ?_, ?_⟩
        · rintro ⟨e, he⟩
          cases he
        · rintro (h | h | h)
          · exact absurd hlen h
          · exact absurd h hw2
          · exact absurd h hs2
        · intro e he
          cases he
        · intro _
          exact ⟨_, rfl, hl⟩
  · have hval : computeHints word solution = .error .hintsSizeMismatch := by
      simp [computeHints, hlen]
    rw [hval]
    refine ⟨⟨fun _ => Or.inl hlen, fun _ => ⟨_, rfl⟩⟩, ?_, ?_⟩
    · intro e he
      cases he
      rfl
    · intro hn
      exact absurd (Or.inl hlen) hn

/-- A witness of C18: a length mismatch, an upper-case letter, and a valid call. -/
theorem computeHints_fails_iff_witness :
    computeHints "abc".toList "de".toList = .error .hintsSizeMismatch ∧
    computeHints "abcde".toList "Abcde".toList = .error .hintsNotLower ∧
    ∃ hints, computeHints "marie".toList "tarie".toList = .ok hints ∧
      hints.length = "marie".toList.length :=
  ⟨by decide, by decide,
   (computeHints_fails_iff "marie".toList "tarie".toList).2.2 (by decide)⟩

/-- After the first loop of `computeHints` a position is `CORRECT` exactly when the
two words carry the same letter there. -/
theorem computeHintsCorrect_getElem (word solution : Word) (rem : List Char)
    (h : word.length = solution.length) (i : Nat) :
    (computeHintsCorrect word solution rem).1[i]? = some HintType.CORRECT ↔
      (i < word.length ∧ word[i]? = solution[i]?) := by
  induction word generalizing solution rem i with
  | nil => cases solution <;> simp [computeHintsCorrect]
  | cons w ws ih =>
    cases solution with
    | nil => simp at h
    | cons x xs =>
      simp only [List.length_cons, add_left_inj] at h
      cases i with
      | zero =>
        by_cases hwx : w = x <;> simp [computeHintsCorrect, hwx]
      | succ j =>
        by_cases hwx : w = x <;> simp [computeHintsCorrect, hwx, ih xs _ h j]

/-- The second loop of `computeHints` neither adds nor removes a `CORRECT` hint. -/
theorem computeHintsMisplaced_getElem (word : Word) (hints : List HintType)
    (rem : List Char) (h : word.length = hints.length) (i : Nat) :
    (computeHintsMisplaced word hints rem)[i]? = some HintType.CORRECT ↔
      hints[i]? = some HintType.CORRECT := by
  induction word generalizing hints rem i with
  | nil =>
    cases hints with
    | nil => simp [computeHintsMisplaced]
    | cons x xs => simp at h
  | cons w ws ih =>
    cases hints with
    | nil => simp at h
    | cons x xs =>
      simp only [List.length_cons, add_left_inj] at h
      unfold computeHintsMisplaced
      cases i with
      | zero => split_ifs <;> simp_all
      | succ j => split_ifs <;> simp [ih xs _ h j]

/-- In the result of `computeHints(word, solution)` a position is `CORRECT` exactly when
the two words carry the same letter there. -/
theorem computeHints_correct_iff (word solution : Word) (hints : List HintType)
    (h : computeHints word solution = .ok hints) (i : Nat) :
    hints[i]? = some HintType.CORRECT ↔ (i < word.length ∧ word[i]? = solution[i]?) := by
  unfold computeHints at h
  split_ifs at h with h1 h2
  simp only [Except.ok.injEq] at h
  have hlen : word.length = solution.length := by simpa using h1
  subst h
  rw [computeHintsMisplaced_getElem _ _ _ (computeHintsCorrect_length _ _ _ hlen).symm,
    computeHintsCorrect_getElem _ _ _ hlen]

/-- C19: for lower-case strings `a` and `b` of equal length both `computeHints(a, b)`
and `computeHints(b, a)` return, and a position is `CORRECT` in the one exactly when it
is `CORRECT` in the other. -/
theorem computeHints_correct_symm (a b : Word) (hlen : a.length = b.length)
    (ha : ∀ c ∈ a, islower c = true) (hb : ∀ c ∈ b, islower c = true) :
    ∃ hab hba : List HintType, computeHints a b = .ok hab ∧ computeHints b a = .ok hba ∧
      ∀ i : Nat, hab[i]? = some HintType.CORRECT ↔ hba[i]? = some HintType.CORRECT := by
  refine ⟨_, _, computeHints_ok a b hlen ha hb, computeHints_ok b a hlen.symm hb ha, ?_⟩
  intro i
  rw [computeHints_correct_iff a b _ (computeHints_ok a b hlen ha hb),
    computeHints_correct_iff b a _ (computeHints_ok b a hlen.symm hb ha), hlen]
  constructor
  · rintro ⟨h1, h2⟩
    exact ⟨h1, h2.symm⟩
  · rintro ⟨h1, h2⟩
    exact ⟨h1, h2.symm⟩

/-- A witness of C19: the words "email" and "maree". -/
theorem computeHints_correct_symm_witness :
    "clees".toList.length = "maree".toList.length ∧
    ∃ hab hba : List HintType, computeHints "clees".toList "maree".toList = .ok hab ∧
      computeHints "maree".toList "clees".toList = .ok hba ∧
      ∀ i : Nat, hab[i]? = some HintType.CORRECT ↔ hba[i]? = some HintType.CORRECT :=
  ⟨by decide,
   computeHints_correct_symm "clees".toList "maree".toList (by decide) (by decide)
     (by decide)⟩


/-! ## `computeTemplate` -/

/-- The inner loop of `computeTemplate` keeps the length of the pattern. -/
theorem templateFillWord_length (pattern guess : Word) (hintVector : List HintType) :
    (templateFillWord pattern guess hintVector).length = pattern.length := by
  induction pattern generalizing guess hintVector with
  | nil => simp [templateFillWord]
  | cons p ps ih =>
    cases guess with
    | nil => simp [templateFillWord]
    | cons g gs =>
      cases hintVector with
      | nil => simp [templateFillWord]
      | cons h hs => simp [templateFillWord, ih]

/-- The inner loop of `computeTemplate` writes the letter of the guess where the hint is
`CORRECT` and keeps the pattern elsewhere. -/
theorem templateFillWord_getElem (pattern guess : Word) (hintVector : List HintType)
    (hg : guess.length = pattern.length) (hh : hintVector.length = pattern.length)
    (j : Nat) :
    (templateFillWord pattern guess hintVector)[j]? =
      if hintVector[j]? = some HintType.CORRECT then guess[j]? else pattern[j]? := by
  induction pattern generalizing guess hintVector j with
  | nil =>
    cases guess with
    | nil => simp [templateFillWord]
    | cons g gs => simp at hg
  | cons p ps ih =>
    cases guess with
    | nil => simp at hg
    | cons g gs =>
      cases hintVector with
      | nil => simp at hh
      | cons h hs =>
        simp only [List.length_cons, add_left_inj] at hg hh
        cases j with
        | zero =>
          by_cases hc : h = HintType.CORRECT <;> simp [templateFillWord, hc]
        | succ k =>
          simp [templateFillWord, ih gs hs hg hh k]

/-- The outer loop of `computeTemplate`: the length of the pattern is kept; a position
where no hint vector is `CORRECT` keeps the character of the pattern, and a position
where some hint vector is `CORRECT` holds the letter of such a guess. -/
theorem templateFill_spec (pattern : Word) (guesses : List Word)
    (hints : List (List HintType)) (hlen : guesses.length = hints.length)
    (hg : ∀ guess ∈ guesses, guess.length = pattern.length)
    (hh : ∀ hintVector ∈ hints, hintVector.length = pattern.length) :
    (templateFill pattern guesses hints).length = pattern.length ∧
    ∀ j : Nat,
      ((∀ i, Spec.hintAt hints i j ≠ some HintType.CORRECT) →
        (templateFill pattern guesses hints)[j]? = pattern[j]?) ∧
      ((∃ i, Spec.hintAt hints i j = some HintType.CORRECT) →
        ∃ i, Spec.hintAt hints i j = some HintType.CORRECT ∧
          (templateFill pattern guesses hints)[j]? = Spec.letterAt guesses i j) := by
  induction guesses generalizing pattern hints with
  | nil =>
    cases hints with
    | nil => simp [templateFill, Spec.hintAt]
    | cons h hs => simp at hlen
  | cons g gs ih =>
    cases hints with
    | nil => simp at hlen
    | cons h hs =>
      simp only [List.length_cons, add_left_inj] at hlen
      have hg0 : g.length = pattern.length := hg g (by simp)
      have hh0 : h.length = pattern.length := hh h (by simp)
      have hl := templateFillWord_length pattern g h
      have ih2 := ih (templateFillWord pattern g h) hs hlen
        (fun guess hm => (hg guess (by simp [hm])).trans hl.symm)
        (fun hv hm => (hh hv (by simp [hm])).trans hl.symm)
      simp only [templateFill]
      refine ⟨ih2.1.trans hl, fun j => ⟨?_, ?_⟩⟩
      · intro hno
        have h0 := hno 0
        simp only [Spec.hintAt, List.getElem?_cons_zero, Option.some_bind] at h0
        rw [(ih2.2 j).1 (fun i => by simpa [Spec.hintAt] using hno (i + 1)),
          templateFillWord_getElem pattern g h hg0 hh0 j, if_neg h0]
      · rintro ⟨i, hi⟩
        by_cases hlater : ∃ i, Spec.hintAt hs i j = some HintType.CORRECT
        · obtain ⟨k, hk, hk2⟩ := (ih2.2 j).2 hlater
          exact ⟨k + 1, by simpa [Spec.hintAt] using hk, by simpa [Spec.letterAt] using hk2⟩
        · have hno : ∀ i, Spec.hintAt hs i j ≠ some HintType.CORRECT :=
            fun i hi => hlater ⟨i, hi⟩
          have h0 : h[j]? = some HintType.CORRECT := by
            cases i with
            | zero => simpa [Spec.hintAt] using hi
            | succ k => exact absurd (by simpa [Spec.hintAt] using hi) (hno k)
          refine ⟨0, by simpa [Spec.hintAt] using h0, ?_⟩
          rw [(ih2.2 j).1 hno, templateFillWord_getElem pattern g h hg0 hh0 j, if_pos h0]
          simp [Spec.letterAt]

/-- C20: for valid arguments `computeTemplate(size, guesses, hints)` returns a string of
length `size`; its character at a position `j` is a dot when no hint vector is `CORRECT`
at `j`, and otherwise it is the letter `guesses[i][j]` of some pair `i` whose hint at `j`
is `CORRECT`. -/
theorem computeTemplate_spec (size : Nat) (guesses : List Word)
    (hints : List (List HintType)) (hlen : guesses.length = hints.length)
    (hg : ∀ guess ∈ guesses, guess.length = size)
    (hh : ∀ hintVector ∈ hints, hintVector.length = size)
    (hlow : ∀ guess ∈ guesses, ∀ c ∈ guess, islower c = true) :
    ∃ t : Word, computeTemplate size guesses hints = .ok t ∧ t.length = size ∧
      ∀ j : Nat, j < size →
        ((∀ i, Spec.hintAt hints i j ≠ some HintType.CORRECT) → t[j]? = some '.') ∧
        ((∃ i, Spec.hintAt hints i j = some HintType.CORRECT) →
          ∃ i, Spec.hintAt hints i j = some HintType.CORRECT ∧
            t[j]? = Spec.letterAt guesses i j) := by
  have h1 : guesses.any (fun guess => decide (guess.length ≠ size)) = false := by
    simpa using hg
  have h2 : hints.any (fun hintVector => decide (hintVector.length ≠ size)) = false := by
    simpa using hh
  have h3 : guesses.any (fun guess => !guess.all islower) = false := by
    simpa using hlow
  have hval : computeTemplate size guesses hints
      = .ok (templateFill (List.replicate size '.') guesses hints) := by
    simp only [computeTemplate]
    rw [if_neg (by rw [h1, h2]; simp [hlen]), if_neg (by rw [h3]; simp)]
  have hspec := templateFill_spec (List.replicate size '.') guesses hints hlen
    (by simpa using hg) (by simpa using hh)
  refine ⟨_, hval, by simpa using hspec.1, fun j hj => ⟨fun hno => ?_, (hspec.2 j).2⟩⟩
  rw [(hspec.2 j).1 hno]
  simp [List.getElem?_replicate, hj]

/-- A witness of C20: two guesses with one `CORRECT` hint each. -/
theorem computeTemplate_spec_witness :
    ∃ t : Word, computeTemplate 5 ["temps".toList, "macha".toList]
        [[.CORRECT, .WRONG, .WRONG, .WRONG, .WRONG],
         [.WRONG, .CORRECT, .WRONG, .WRONG, .WRONG]] = .ok t ∧ t.length = 5 ∧
      ∀ j : Nat, j < 5 →
        ((∀ i, Spec.hintAt [[.CORRECT, .WRONG, .WRONG, .WRONG, .WRONG],
            [.WRONG, .CORRECT, .WRONG, .WRONG, .WRONG]] i j ≠ some HintType.CORRECT) →
          t[j]? = some '.') ∧
        ((∃ i, Spec.hintAt [[.CORRECT, .WRONG, .WRONG, .WRONG, .WRONG],
            [.WRONG, .CORRECT, .WRONG, .WRONG, .WRONG]] i j = some HintType.CORRECT) →
          ∃ i, Spec.hintAt [[.CORRECT, .WRONG, .WRONG, .WRONG, .WRONG],
              [.WRONG, .CORRECT, .WRONG, .WRONG, .WRONG]] i j = some HintType.CORRECT ∧
            t[j]? = Spec.letterAt ["temps".toList, "macha".toList] i j) :=
  computeTemplate_spec 5 ["temps".toList, "macha".toList]
    [[.CORRECT, .WRONG, .WRONG, .WRONG, .WRONG], [.WRONG, .CORRECT, .WRONG, .WRONG, .WRONG]]
    (by decide) (by decide) (by decide) (by decide)


/-! ## Entropy solver: `computeNextGuesses` -/

/-- The inner loop of `computeNextGuesses` adds the pair and keeps the other entries. -/
theorem insertGuess_perm {F : Type} [LinearOrderedField F] (solutions : List Word)
    (guess : Word) (e : F) (l : List (Word × F)) :
    List.Perm (insertGuess solutions guess e l) ((guess, e) :: l) := by
  induction l with
  | nil => simp [insertGuess]
  | cons it rest ih =>
    unfold insertGuess
    split_ifs
    · exact List.Perm.refl _
    · exact List.Perm.refl _
    · exact (List.Perm.cons it ih).trans (List.Perm.swap _ _ _)

/-- The inner loop of `computeNextGuesses` keeps the list ranked. -/
theorem insertGuess_ranked {F : Type} [LinearOrderedField F] (solutions : List Word)
    (guess : Word) (e : F) (l : List (Word × F))
    (hl : l.Pairwise (Spec.rankedBefore solutions)) :
    (insertGuess solutions guess e l).Pairwise (Spec.rankedBefore solutions) := by
  induction l with
  | nil => simp [insertGuess]
  | cons it rest ih =>
    have hrest := (List.pairwise_cons.1 hl).2
    have hit := (List.pairwise_cons.1 hl).1
    have hle : ∀ x ∈ it :: rest, x.2 ≤ it.2 := by
      intro x hx
      rcases List.mem_cons.1 hx with rfl | hx
      · exact le_refl _
      · rcases hit x hx with h | h
        · exact le_of_lt h
        · exact le_of_eq h.1
    unfold insertGuess
    split_ifs with h1 h2
    · refine List.pairwise_cons.2 ⟨fun x hx => Or.inl ?_, hl⟩
      exact lt_of_le_of_lt (hle x hx) h1
    · refine List.pairwise_cons.2 ⟨fun x hx => ?_, hl⟩
      rcases lt_or_eq_of_le (hle x hx) with h | h
      · exact Or.inl (h2.1 ▸ h)
      · exact Or.inr ⟨h.trans h2.1, Or.inl h2.2⟩
    · refine List.pairwise_cons.2 ⟨fun x hx => ?_, ih hrest⟩
      rcases List.mem_cons.1 ((insertGuess_perm solutions guess e rest).mem_iff.1 hx)
        with rfl | hx
      · rcases lt_or_eq_of_le (not_lt.1 h1) with h | h
        · exact Or.inl h
        · refine Or.inr ⟨h, Or.inr fun hmem => h2 ⟨h.symm, hmem⟩⟩
      · exact hit x hx

/-- The outer loop of `computeNextGuesses` keeps the list ranked. -/
theorem evaluateGuesses_ranked {F : Type} [LinearOrderedField F] (log2 : F → F)
    (s : Solver) (guesses : List Word) (acc l : List (Word × F))
    (hacc : acc.Pairwise (Spec.rankedBefore s.getPotentialSolutions))
    (h : evaluateGuesses log2 s guesses acc = .ok l) :
    l.Pairwise (Spec.rankedBefore s.getPotentialSolutions) := by
  induction guesses generalizing acc with
  | nil =>
    simp only [evaluateGuesses, Except.ok.injEq] at h
    exact h ▸ hacc
  | cons g gs ih =>
    unfold evaluateGuesses at h
    split at h
    · cases h
    · exact ih _ (insertGuess_ranked _ _ _ _ hacc) h

/-- What `computeNextGuesses` returns when at least two potential solutions are left:
the first `n` entries of the list that the outer loop builds. -/
theorem computeNextGuesses_eq_take {F : Type} [LinearOrderedField F] (log2 : F → F)
    (s : Solver) (n : Nat) (l : List (Word × F))
    (h2 : 2 ≤ s.getPotentialSolutions.length)
    (h : s.computeNextGuesses log2 n = .ok l) :
    ∃ entropies, evaluateGuesses log2 s s.getPotentialGuesses [] = .ok entropies ∧
      l = entropies.take n := by
  unfold Solver.computeNextGuesses at h
  split_ifs at h with ht
  split at h
  · rename_i heq
    simp [heq] at h2
  · rename_i heq
    simp [heq] at h2
  · split at h
    · cases h
    · rename_i entropies heq
      simp only [Except.ok.injEq] at h
      refine ⟨entropies, heq, ?_⟩
      rw [← h, List.take_eq_take]
      simp

/-- C11: when at least two potential solutions are left, the list returned by
`computeNextGuesses(n)` is ordered by non-increasing score, and among entries of equal
score no word that is not a potential solution comes before a word that is one. -/
theorem computeNextGuesses_sorted {F : Type} [LinearOrderedField F] (log2 : F → F)
    (s : Solver) (n : Nat) (l : List (Word × F))
    (h2 : 2 ≤ s.getPotentialSolutions.length)
    (h : s.computeNextGuesses log2 n = .ok l) :
    l.Pairwise (fun a b => b.2 ≤ a.2) ∧
    l.Pairwise (fun a b => a.2 = b.2 →
      ¬ (a.1 ∉ s.getPotentialSolutions ∧ b.1 ∈ s.getPotentialSolutions)) := by
  obtain ⟨entropies, he, rfl⟩ := computeNextGuesses_eq_take log2 s n l h2 h
  have hr := (evaluateGuesses_ranked log2 s _ [] entropies List.Pairwise.nil he).take
    (n := n)
  constructor
  · refine hr.imp ?_
    rintro a b (hab | hab)
    · exact le_of_lt hab
    · exact le_of_eq hab.1
  · refine hr.imp ?_
    rintro a b (hab | hab) heq
    · exact absurd heq.symm (ne_of_lt hab)
    · rintro ⟨h1, h2⟩
      rcases hab.2 with h | h
      · exact h1 h
      · exact h h2

/-- C12: `computeNextGuesses(n)` throws when the template is empty; with a non-empty
template it returns the empty list when no potential solution is left, and the single
pair of the solution and the score 0 when exactly one is left. -/
theorem computeNextGuesses_special {F : Type} [LinearOrderedField F] (log2 : F → F)
    (s : Solver) (n : Nat) :
    (s.getTemplate = [] → s.computeNextGuesses log2 n = .error .emptyTemplate) ∧
    (s.getTemplate ≠ [] → s.getPotentialSolutions = [] →
      s.computeNextGuesses log2 n = .ok []) ∧
    (s.getTemplate ≠ [] → ∀ solution, s.getPotentialSolutions = [solution] →
      s.computeNextGuesses log2 n = .ok [(solution, 0)]) := by
  refine ⟨fun h => ?_, fun h hs => ?_, fun h solution hs => ?_⟩
  · simp [Solver.computeNextGuesses, h]
  · have he : s.getTemplate.isEmpty = false := by
      cases ht : s.getTemplate with
      | nil => exact absurd ht h
      | cons a l => rfl
    simp [Solver.computeNextGuesses, he, hs]
  · have he : s.getTemplate.isEmpty = false := by
      cases ht : s.getTemplate with
      | nil => exact absurd ht h
      | cons a l => rfl
    simp [Solver.computeNextGuesses, he, hs]

/-- A witness of C12 on the sample solver with one potential solution left. -/
theorem computeNextGuesses_special_witness :
    sampleSolverOne.getTemplate ≠ [] ∧
    sampleSolverOne.getPotentialSolutions = ["maree".toList] ∧
    sampleSolverOne.computeNextGuesses (fun x : ℚ => x) 3 = .ok [("maree".toList, 0)] :=
  ⟨by decide, by decide,
   (computeNextGuesses_special (fun x : ℚ => x) sampleSolverOne 3).2.2 (by decide) _
     (by decide)⟩

/-- C13 (evaluation at the failing input): with exactly one potential solution left,
`computeNextGuesses(0)` returns one entry. -/
theorem computeNextGuesses_zero_returns_one :
    sampleSolverOne.getTemplate = ".....".toList ∧
    sampleSolverOne.getPotentialSolutions = ["maree".toList] ∧
    ∀ log2 : ℚ → ℚ,
      sampleSolverOne.computeNextGuesses log2 0 = .ok [("maree".toList, 0)] := by
  have h1 : sampleSolverOne.getTemplate = ".....".toList := by decide
  have h2 : sampleSolverOne.getPotentialSolutions = ["maree".toList] := by decide
  refine ⟨h1, h2, fun log2 => ?_⟩
  unfold Solver.computeNextGuesses
  rw [h1, h2]
  rfl


/-- The three shapes of `computeNextGuesses` as a function of `n`: it always throws the
same exception, or always returns the same list (no or one potential solution), or
returns the first `n` entries of one list. -/
theorem computeNextGuesses_shape {F : Type} [LinearOrderedField F] (log2 : F → F)
    (s : Solver) :
    (∃ e, ∀ n, s.computeNextGuesses log2 n = .error e) ∨
    (∃ l, ∀ n, s.computeNextGuesses log2 n = .ok l) ∨
    (∃ entropies : List (Word × F), ∀ n,
      s.computeNextGuesses log2 n = .ok (entropies.take n)) := by
  unfold Solver.computeNextGuesses
  cases ht : s.getTemplate.isEmpty
  · rcases hs : s.getPotentialSolutions with _ | ⟨a, _ | ⟨b, t⟩⟩
    · exact Or.inr (Or.inl ⟨[], fun n => by simp⟩)
    · exact Or.inr (Or.inl ⟨[(a, 0)], fun n => by simp⟩)
    · cases he : evaluateGuesses log2 s s.getPotentialGuesses [] with
      | error e => exact Or.inl ⟨e, fun n => by simp⟩
      | ok entropies =>
        refine Or.inr (Or.inr ⟨entropies, fun n => ?_⟩)
        simp only [Bool.false_eq_true, if_false, Except.ok.injEq]
        rw [List.take_eq_take]
        simp
  · exact Or.inl ⟨.emptyTemplate, fun n => by simp⟩

/-- C14: whenever `computeNextGuesses(m)` returns, `computeNextGuesses(k)` returns a
prefix of it for every `k <= m`, and for `m >= 1` the method `computeNextGuess()`
returns the word of its first entry, or the empty string when it is empty; whenever
`computeNextGuesses(m)` throws, `computeNextGuesses(k)` throws the same exception. -/
theorem computeNextGuesses_initial_segment {F : Type} [LinearOrderedField F] (log2 : F → F)
    (s : Solver) :
    (∀ k m, k ≤ m → ∀ lm, s.computeNextGuesses log2 m = .ok lm →
      ∃ lk, s.computeNextGuesses log2 k = .ok lk ∧ lk <+: lm) ∧
    (∀ k m e, s.computeNextGuesses log2 m = .error e →
      s.computeNextGuesses log2 k = .error e) ∧
    (∀ m, 1 ≤ m → ∀ lm, s.computeNextGuesses log2 m = .ok lm →
      s.computeNextGuess log2 = .ok ((lm.head?.map Prod.fst).getD [])) := by
  rcases computeNextGuesses_shape log2 s with ⟨e, h⟩ | ⟨l, h⟩ | ⟨entropies, h⟩
  · refine ⟨fun k m _ lm hm => ?_, fun k m e2 hm => ?_, fun m _ lm hm => ?_⟩
    · rw [h m] at hm
      cases hm
    · rw [h m] at hm
      cases hm
      exact h k
    · rw [h m] at hm
      cases hm
  · refine ⟨fun k m _ lm hm => ?_, fun k m e2 hm => ?_, fun m _ lm hm => ?_⟩
    · rw [h m] at hm
      cases hm
      exact ⟨l, h k, List.prefix_refl _⟩
    · rw [h m] at hm
      cases hm
    · rw [h m] at hm
      cases hm
      unfold Solver.computeNextGuess
      rw [h 1]
      cases l <;> rfl
  · refine ⟨fun k m hkm lm hm => ?_, fun k m e2 hm => ?_, fun m hm1 lm hm => ?_⟩
    · rw [h m] at hm
      cases hm
      exact ⟨_, h k, List.take_prefix_take_left _ hkm⟩
    · rw [h m] at hm
      cases hm
    · rw [h m] at hm
      cases hm
      unfold Solver.computeNextGuess
      rw [h 1]
      cases entropies with
      | nil => simp
      | cons a l =>
        obtain ⟨j, rfl⟩ : ∃ j, m = j + 1 := ⟨m - 1, by omega⟩
        simp

/-! ## Entropy solver: when the computations return -/

/-- The counting loop of `computeExpectedEntropy` returns when `computeHints` returns
for every potential solution. -/
theorem countHints_ok (guess : Word) (solutions : List Word) (acc : Occurrences)
    (h : ∀ solution ∈ solutions, ∃ hints, computeHints guess solution = .ok hints) :
    ∃ occurrences, countHints guess solutions acc = .ok occurrences := by
  induction solutions generalizing acc with
  | nil => exact ⟨acc, rfl⟩
  | cons a l ih =>
    obtain ⟨hints, hh⟩ := h a (by simp)
    have ih2 := fun acc => ih acc (fun solution hm => h solution (by simp [hm]))
    unfold countHints
    rw [hh]
    simp only
    split_ifs
    · exact ih2 _
    · exact ih2 _

/-- The method `computeExpectedEntropy` returns when `computeHints` returns for every
potential solution. -/
theorem computeExpectedEntropy_ok {F : Type} [LinearOrderedField F] (log2 : F → F)
    (s : Solver) (guess : Word)
    (h : ∀ solution ∈ s.getPotentialSolutions,
      ∃ hints, computeHints guess solution = .ok hints) :
    ∃ entropy, s.computeExpectedEntropy log2 guess = .ok entropy := by
  obtain ⟨occurrences, ho⟩ := countHints_ok guess s.getPotentialSolutions [] h
  unfold Solver.computeExpectedEntropy
  rw [ho]
  exact ⟨_, rfl⟩

/-- The outer loop of `computeNextGuesses` returns when `computeHints` returns for every
pair of a guess and a potential solution. -/
theorem evaluateGuesses_ok {F : Type} [LinearOrderedField F] (log2 : F → F)
    (s : Solver) (guesses : List Word) (acc : List (Word × F))
    (h : ∀ guess ∈ guesses, ∀ solution ∈ s.getPotentialSolutions,
      ∃ hints, computeHints guess solution = .ok hints) :
    ∃ entropies, evaluateGuesses log2 s guesses acc = .ok entropies := by
  induction guesses generalizing acc with
  | nil => exact ⟨acc, rfl⟩
  | cons g gs ih =>
    obtain ⟨e, he⟩ := computeExpectedEntropy_ok log2 s g (h g (by simp))
    unfold evaluateGuesses
    rw [he]
    exact ih _ (fun guess hm => h guess (by simp [hm]))

/-- The method `computeNextGuesses` returns when the template is not empty and
`computeHints` returns for every pair of a potential guess and a potential solution. -/
theorem computeNextGuesses_ok {F : Type} [LinearOrderedField F] (log2 : F → F)
    (s : Solver) (n : Nat) (ht : s.getTemplate ≠ [])
    (h : ∀ guess ∈ s.getPotentialGuesses, ∀ solution ∈ s.getPotentialSolutions,
      ∃ hints, computeHints guess solution = .ok hints) :
    ∃ l, s.computeNextGuesses log2 n = .ok l := by
  rcases computeNextGuesses_shape log2 s with ⟨e, he⟩ | ⟨l, hl⟩ | ⟨entropies, hl⟩
  · exfalso
    have hn := he n
    have hte : s.getTemplate.isEmpty = false := by
      cases hx : s.getTemplate with
      | nil => exact absurd hx ht
      | cons a l => rfl
    obtain ⟨entropies, hev⟩ := evaluateGuesses_ok log2 s s.getPotentialGuesses [] h
    unfold Solver.computeNextGuesses at hn
    rw [hte, hev] at hn
    simp only [Bool.false_eq_true, if_false] at hn
    split at hn <;> cases hn
  · exact ⟨l, hl n⟩
  · exact ⟨_, hl n⟩

/-- On the sample solver `computeHints` returns for every pair of a potential guess and
a potential solution. -/
theorem sampleSolver_hints_ok :
    ∀ guess ∈ sampleSolver.getPotentialGuesses,
      ∀ solution ∈ sampleSolver.getPotentialSolutions,
        ∃ hints, computeHints guess solution = .ok hints := by
  intro guess hg solution hs
  have hall : ∀ guess ∈ sampleSolver.getPotentialGuesses,
      ∀ solution ∈ sampleSolver.getPotentialSolutions,
        (computeHints guess solution).toBool = true := by decide
  have := hall guess hg solution hs
  cases hc : computeHints guess solution with
  | error e => simp [hc, Except.toBool] at this
  | ok hints => exact ⟨hints, rfl⟩

/-- A witness of C11: the two best guesses on the sample solver. -/
theorem computeNextGuesses_sorted_witness :
    2 ≤ sampleSolver.getPotentialSolutions.length ∧
    ∃ l, sampleSolver.computeNextGuesses (fun x : ℚ => x) 2 = .ok l ∧
      l.Pairwise (fun a b => b.2 ≤ a.2) ∧
      l.Pairwise (fun a b => a.2 = b.2 →
        ¬ (a.1 ∉ sampleSolver.getPotentialSolutions
          ∧ b.1 ∈ sampleSolver.getPotentialSolutions)) :=
  ⟨by decide,
   (computeNextGuesses_ok (fun x : ℚ => x) sampleSolver 2 (by decide)
      sampleSolver_hints_ok).elim
     (fun l hl => ⟨l, hl,
       computeNextGuesses_sorted (fun x : ℚ => x) sampleSolver 2 l (by decide) hl⟩)⟩

/-- A witness of C14: one and three guesses on the sample solver. -/
theorem computeNextGuesses_initial_segment_witness :
    ∃ lm, sampleSolver.computeNextGuesses (fun x : ℚ => x) 3 = .ok lm ∧
      (∃ lk, sampleSolver.computeNextGuesses (fun x : ℚ => x) 1 = .ok lk ∧ lk <+: lm) ∧
      sampleSolver.computeNextGuess (fun x : ℚ => x) = .ok ((lm.head?.map Prod.fst).getD []) :=
  (computeNextGuesses_ok (fun x : ℚ => x) sampleSolver 3 (by decide)
      sampleSolver_hints_ok).elim
    (fun lm hm => ⟨lm, hm,
      (computeNextGuesses_initial_segment (fun x : ℚ => x) sampleSolver).1 1 3 (by decide) lm hm,
      (computeNextGuesses_initial_segment (fun x : ℚ => x) sampleSolver).2.2 3 (by decide) lm hm⟩)


/-! ## Entropy solver: the entropies -/

/-- The counting loop of `computeActualEntropy` returns the number of potential
solutions whose hints are `hints`, when `computeHints` returns for each of them. -/
theorem countOccurences_eq (guess : Word) (hints : List HintType) (solutions : List Word)
    (hdef : ∀ solution ∈ solutions, ∃ h, computeHints guess solution = .ok h) :
    countOccurences guess hints solutions = .ok (Spec.classSize guess solutions hints) := by
  unfold Spec.classSize
  induction solutions with
  | nil => rfl
  | cons a l ih =>
    obtain ⟨h, hh⟩ := hdef a (by simp)
    have ih2 := ih (fun solution hm => hdef solution (by simp [hm]))
    unfold countOccurences
    rw [hh, ih2, List.countP_cons]
    by_cases he : hints = h
    · subst he
      simp [hh]
    · have he2 : ¬ h = hints := fun e => he e.symm
      simp [he, he2, hh]

/-- The class size of a hint vector is positive exactly when some potential solution
has these hints. -/
theorem Spec.classSize_pos_iff (guess : Word) (solutions : List Word)
    (hints : List HintType) :
    0 < Spec.classSize guess solutions hints ↔
      ∃ solution ∈ solutions, computeHints guess solution = .ok hints := by
  unfold Spec.classSize
  rw [List.countP_pos_iff]
  simp

/-- When `computeHints(guess, s)` returns for every potential solution `s`,
`computeActualEntropy(guess, hints)`, read over the real numbers, returns a value that is
negative exactly when no potential solution has the hints `hints`; otherwise the value
is `-log2(k/n)`, which is not negative, where `k` is the number of potential solutions
with these hints and `n` the number of potential solutions. -/
theorem computeActualEntropy_formula (s : Solver) (guess : Word) (hints : List HintType)
    (hdef : ∀ solution ∈ s.getPotentialSolutions,
      ∃ h, computeHints guess solution = .ok h) :
    ∃ v : ℝ, s.computeActualEntropy (Real.logb 2) guess hints = .ok v ∧
      (v < 0 ↔ ∀ solution ∈ s.getPotentialSolutions,
        computeHints guess solution ≠ .ok hints) ∧
      ((∃ solution ∈ s.getPotentialSolutions, computeHints guess solution = .ok hints) →
        v = -Real.logb 2 ((Spec.classSize guess s.getPotentialSolutions hints : ℝ)
              / (s.getPotentialSolutions.length : ℝ)) ∧ 0 ≤ v) := by
  have hc := countOccurences_eq guess hints s.getPotentialSolutions hdef
  have hpos := Spec.classSize_pos_iff guess s.getPotentialSolutions hints
  have hle : Spec.classSize guess s.getPotentialSolutions hints
      ≤ s.getPotentialSolutions.length := List.countP_le_length _
  by_cases hk : Spec.classSize guess s.getPotentialSolutions hints = 0
  · refine ⟨-1, by simp [Solver.computeActualEntropy, hc, hk], ?_, ?_⟩
    · have hnone : ¬ ∃ solution ∈ s.getPotentialSolutions,
          computeHints guess solution = .ok hints := by
        rw [← hpos, hk]
        exact lt_irrefl 0
      constructor
      · intro _ solution hm he
        exact hnone ⟨solution, hm, he⟩
      · intro _
        norm_num
    · intro hex
      rw [← hpos, hk] at hex
      exact absurd hex (lt_irrefl 0)
  · have hkpos : 0 < Spec.classSize guess s.getPotentialSolutions hints :=
      Nat.pos_of_ne_zero hk
    have hnonneg : 0 ≤ -Real.logb 2
        ((Spec.classSize guess s.getPotentialSolutions hints : ℝ)
          / (s.getPotentialSolutions.length : ℝ)) := by
      have hn : (0 : ℝ) < (s.getPotentialSolutions.length : ℝ) := by
        exact_mod_cast lt_of_lt_of_le hkpos hle
      have h1 : (Spec.classSize guess s.getPotentialSolutions hints : ℝ)
          / (s.getPotentialSolutions.length : ℝ) ≤ 1 := by
        rw [div_le_one hn]
        exact_mod_cast hle
      have h0 : (0 : ℝ) ≤ (Spec.classSize guess s.getPotentialSolutions hints : ℝ)
          / (s.getPotentialSolutions.length : ℝ) := by
        positivity
      have := Real.logb_nonpos (by norm_num : (1 : ℝ) < 2) h0 h1
      linarith
    refine ⟨_, by simp [Solver.computeActualEntropy, hc, hk], ?_, fun _ => ⟨rfl, hnonneg⟩⟩
    constructor
    · intro hv
      exact absurd hv (not_lt.2 hnonneg)
    · intro hall
      obtain ⟨solution, hm, he⟩ := hpos.1 hkpos
      exact absurd he (hall solution hm)

/-- C17: `computeCurrentEntropy()`, read over the real numbers, is negative exactly when
no potential solution is left; otherwise it is `log2` of the number of potential
solutions, and it is 0 exactly when one potential solution is left. -/
theorem computeCurrentEntropy_spec (s : Solver) :
    (s.computeCurrentEntropy (Real.logb 2) < 0 ↔ s.getPotentialSolutions = []) ∧
    (s.getPotentialSolutions ≠ [] →
      s.computeCurrentEntropy (Real.logb 2)
        = Real.logb 2 (s.getPotentialSolutions.length : ℝ)) ∧
    (s.computeCurrentEntropy (Real.logb 2) = 0 ↔ s.getPotentialSolutions.length = 1) := by
  unfold Solver.computeCurrentEntropy
  cases hs : s.getPotentialSolutions with
  | nil => simp
  | cons a l =>
    have h1 : (1 : ℝ) ≤ ((a :: l).length : ℝ) := by
      simp
    have hnn := Real.logb_nonneg (by norm_num : (1 : ℝ) < 2) h1
    refine ⟨?_, fun _ => by simp, ?_⟩
    · simp only [List.isEmpty_cons, Bool.false_eq_true, if_false, reduceCtorEq, iff_false,
        not_lt]
      exact hnn
    · simp only [List.isEmpty_cons, Bool.false_eq_true, if_false, Real.logb_eq_zero]
      constructor
      · rintro (h | h | h | h | h | h)
        · norm_num at h
        · norm_num at h
        · norm_num at h
        · linarith
        · exact_mod_cast h
        · linarith
      · intro h
        right; right; right; right; left
        exact_mod_cast h

/-- A witness of C17: the sample solver holds three potential solutions. -/
theorem computeCurrentEntropy_spec_witness :
    sampleSolver.getPotentialSolutions ≠ [] ∧
    sampleSolver.computeCurrentEntropy (Real.logb 2)
      = Real.logb 2 (sampleSolver.getPotentialSolutions.length : ℝ) :=
  ⟨by decide, (computeCurrentEntropy_spec sampleSolver).2.1 (by decide)⟩

/-! ## Game: `setWord`, `start`, `isOver`, `setRules` -/

/-- C23: `setWord(w)` throws exactly when `w` is not a valid solution, or the game is
started and `w` differs from the secret word; a call that throws leaves the game
unchanged; a call that returns sets the secret word to `w` and changes nothing else;
and setting the current secret word on a started game changes nothing. -/
theorem setWord_spec (g : Game) (w : Word) :
    ((∃ e, (g.setWord w).2 = .error e) ↔
      (g.m_rules.obj.isSolutionValid w = false ∨ (g.hasStarted = true ∧ w ≠ g.getWord))) ∧
    (∀ e, (g.setWord w).2 = .error e → (g.setWord w).1 = g) ∧
    ((g.setWord w).2 = .ok () → (g.setWord w).1 = { g with m_word := w }) ∧
    (g.hasStarted = true → w = g.getWord → (g.setWord w).1 = g) := by
  obtain ⟨word, rules, guesses, hints, start, win⟩ := g
  simp only [Game.setWord, Game.hasStarted, Game.getWord]
  cases hv : rules.obj.isSolutionValid w
  · simp
  · cases start
    · simp
    · by_cases hw : w = word
      · subst hw
        simp
      · simp [hw]

/-- A witness of C23: another word on the started sample game, and a word on the game
that has not started. -/
theorem setWord_spec_witness :
    (sampleGame.setWord "maree".toList).2 = .error .wordChangeWhilePlaying ∧
    (sampleGame.setWord "maree".toList).1 = sampleGame ∧
    (samplePending.setWord "maree".toList).1
      = { samplePending with m_word := "maree".toList } :=
  ⟨by decide,
   (setWord_spec sampleGame "maree".toList).2.1 .wordChangeWhilePlaying (by decide),
   (setWord_spec samplePending "maree".toList).2.2.1 (by decide)⟩

/-- C24: `start()` throws exactly when the game is already started or the secret word is
empty; a call that returns sets the started flag and changes nothing else; a call that
throws changes nothing. -/
theorem start_spec (g : Game) :
    ((∃ e, g.start.2 = .error e) ↔ (g.hasStarted = true ∨ g.getWord = [])) ∧
    (g.start.2 = .ok () → g.start.1 = { g with m_start := true }) ∧
    (∀ e, g.start.2 = .error e → g.start.1 = g) := by
  unfold Game.start Game.hasStarted Game.getWord
  cases hs : g.m_start
  · cases hw : g.m_word with
    | nil => simp
    | cons a l => simp
  · simp

/-- A witness of C24: starting the pending sample game, and starting it twice. -/
theorem start_spec_witness :
    samplePending.start.1 = { samplePending with m_start := true } ∧
    sampleGame.start.2 = .error .alreadyStarted ∧ sampleGame.start.1 = sampleGame :=
  ⟨(start_spec samplePending).2.1 (by decide), by decide,
   (start_spec sampleGame).2.2 .alreadyStarted (by decide)⟩

/-- C25: `isOver()` is true exactly when the game is won, or the maximum number of
guesses of the rules is not 0 and at least that many guesses were tried; with a maximum
of 0 a game that is not won is not over. -/
theorem isOver_iff (g : Game) :
    (g.isOver = true ↔
      (g.isWon = true ∨ (g.m_rules.obj.getMaxGuesses ≠ 0
        ∧ g.m_rules.obj.getMaxGuesses ≤ g.getTriedGuesses.length))) ∧
    (g.m_rules.obj.getMaxGuesses = 0 → g.isWon = false → g.isOver = false) := by
  unfold Game.isOver Game.isWon Game.getTriedGuesses
  constructor
  · simp
  · intro h0 hw
    simp [h0, hw]

/-- A witness of C25: the sample game with the maximum number of guesses set to 0. -/
theorem isOver_iff_witness :
    Game.isOver { sampleGame with
      m_rules := { addr := 1, obj := .wordle { m_wordSize := 5, m_internalDict := sampleWords } 0 },
      m_guesses := ["maree".toList, "maree".toList] } = false :=
  (isOver_iff _).2 (by decide) (by decide)

/-- C26 (as amended): `setRules(r)` changes nothing when `r` is null or is the current
rules instance; otherwise it resets the game as `reset()` does only if the game has
started, then installs `r` as the rules, and clears the secret word if it is not a valid
solution under `r`. -/
theorem setRules_spec (g : Game) :
    g.setRules none = g ∧
    (∀ r : RulesPtr, r.addr = g.m_rules.addr → g.setRules (some r) = g) ∧
    (∀ r : RulesPtr, r.addr ≠ g.m_rules.addr → g.hasStarted = true →
      g.setRules (some r) = { g.reset with m_rules := r }) ∧
    (∀ r : RulesPtr, r.addr ≠ g.m_rules.addr → g.hasStarted = false →
      g.setRules (some r) = { g with
        m_rules := r,
        m_word := if r.obj.isSolutionValid g.getWord then g.getWord else [] }) := by
  refine ⟨rfl, fun r hr => ?_, fun r hr hs => ?_, fun r hr hs => ?_⟩
  · simp [Game.setRules, hr]
  · have hne : ¬ g.m_rules.addr = r.addr := fun e => hr e.symm
    cases hv : r.obj.isSolutionValid [] <;> simp [Game.setRules, hne, hs, Game.reset, hv]
  · have hne : ¬ g.m_rules.addr = r.addr := fun e => hr e.symm
    cases hv : r.obj.isSolutionValid g.m_word <;>
      simp [Game.setRules, hne, hs, Game.getWord, hv]

/-- A witness of C26 (as amended): new rules on the started sample game. -/
theorem setRules_spec_witness :
    sampleGame.setRules (some sampleMotus) = { sampleGame.reset with m_rules := sampleMotus } :=
  (setRules_spec sampleGame).2.2.1 sampleMotus (by decide) (by decide)

/-- C26 (counterexample): on a game that has not started and whose secret word is
"email", `setRules` with other rules under which "email" is a valid solution keeps the
secret word, whereas `reset()` clears it. -/
theorem setRules_keeps_word :
    samplePending.Reachable ∧
    samplePending.hasStarted = false ∧
    sampleMotus.addr ≠ samplePending.m_rules.addr ∧
    samplePending.getWord = "email".toList ∧
    samplePending.reset.getWord = [] ∧
    (samplePending.setRules (some sampleMotus)).getWord = "email".toList :=
  ⟨Game.Reachable.setWord _ _ (Game.Reachable.create _), by decide, by decide, by decide,
    by decide, by decide⟩

/-! ## Game rules: `isGuessValid` -/

/-- The evaluation of `isGuessValid` never reads outside a string, and its result is the
value of `isGuessValid`. -/
theorem GameRules.isGuessValidEval_eq (r : GameRules) (w s : Word) :
    r.isGuessValidEval w s = some (r.isGuessValid w s) := by
  cases r with
  | motus d m =>
    cases s with
    | nil => simp [GameRules.isGuessValidEval, GameRules.isGuessValid]
    | cons a l =>
      cases w with
      | nil => simp [GameRules.isGuessValidEval, GameRules.isGuessValid]
      | cons b k =>
        by_cases hl : k.length = l.length <;> by_cases hab : b = a <;>
          simp [GameRules.isGuessValidEval, GameRules.isGuessValid, stringViewAt, hl, hab]
  | wordle fd m =>
    by_cases h1 : s.length = fd.getWordSize <;> by_cases h2 : w.length = fd.getWordSize <;>
      simp [GameRules.isGuessValidEval, GameRules.isGuessValid, h1, h2]

/-- C27: under Motus rules the evaluation of `isGuessValid(w, s)` never reads `w[0]` or
`s[0]` outside the string: it always produces the value of `isGuessValid(w, s)`, which is
true exactly when `s` is not empty, `w` has the length of `s`, both start with the same
letter and the dictionary contains `w`; an empty `w` or an empty `s` gives false. Under
Wordle rules with word size `n` it is true exactly when `s` and `w` have length `n` and
the dictionary contains `w`. -/
theorem isGuessValid_iff (d : Dictionary) (fd : FixedSizeDictionary) (m : Nat)
    (w s : Word) :
    (GameRules.motus d m).isGuessValidEval w s
      = some ((GameRules.motus d m).isGuessValid w s) ∧
    ((GameRules.motus d m).isGuessValidEval w s = some true ↔
      (s ≠ [] ∧ w.length = s.length ∧ (∃ c, w[0]? = some c ∧ s[0]? = some c)
        ∧ d.contains w = true)) ∧
    ((w = [] ∨ s = []) → (GameRules.motus d m).isGuessValidEval w s = some false) ∧
    (GameRules.wordle fd m).isGuessValidEval w s
      = some ((GameRules.wordle fd m).isGuessValid w s) ∧
    ((GameRules.wordle fd m).isGuessValidEval w s = some true ↔
      (s.length = fd.getWordSize ∧ w.length = fd.getWordSize
        ∧ fd.toDictionary.contains w = true)) := by
  rw [GameRules.isGuessValidEval_eq, GameRules.isGuessValidEval_eq]
  simp only [Option.some.injEq, true_and]
  refine ⟨?_, ?_, ?_⟩
  · cases s with
    | nil => simp [GameRules.isGuessValid]
    | cons a l =>
      cases w with
      | nil => simp [GameRules.isGuessValid]
      | cons b k =>
        simp only [GameRules.isGuessValid, List.isEmpty_cons, Bool.false_eq_true, if_false,
          List.head?_cons, Option.some.injEq, Bool.and_eq_true, decide_eq_true_eq, ne_eq,
          reduceCtorEq, not_false_eq_true, true_and, List.getElem?_cons_zero, and_assoc]
        constructor
        · rintro ⟨h1, h2, h3⟩
          exact ⟨h1, ⟨b, rfl, h2.symm⟩, h3⟩
        · rintro ⟨h1, ⟨c, h2, h3⟩, h4⟩
          exact ⟨h1, h2.trans h3.symm, h4⟩
  · rintro (h | h)
    · subst h
      cases s <;> simp [GameRules.isGuessValid]
    · subst h
      simp [GameRules.isGuessValid]
  · simp [GameRules.isGuessValid, and_assoc]

/-- A witness of C27 on the sample dictionary: the evaluation on an empty guess gives
false without reading a letter, and "email" is a valid guess for both rules. -/
theorem isGuessValid_iff_witness :
    sampleMotus.obj.isGuessValidEval "email".toList "e....".toList = some true ∧
    sampleWordle.obj.isGuessValidEval "email".toList ".....".toList = some true ∧
    sampleMotus.obj.isGuessValidEval [] "e....".toList = some false :=
  ⟨by decide, by decide,
   (isGuessValid_iff sampleWords { m_wordSize := 5, m_internalDict := sampleWords } 6 []
      "e....".toList).2.2.1 (Or.inl rfl)⟩

/-! ## Solver: `setTemplate` twice, and the order of the candidates -/

/-- The function `tolower` leaves a dot and the letters from a to z unchanged. -/
theorem tolower_of_valid (c : Char) (h : c = '.' ∨ ('a' ≤ c ∧ c ≤ 'z')) :
    tolower c = c := by
  unfold tolower
  rw [if_neg]
  rintro ⟨h1, h2⟩
  rcases h with rfl | ⟨h3, _⟩
  · exact absurd h1 (by decide)
  · exact absurd (le_trans h3 h2) (by decide)

/-- A valid lower-cased template is its own lower-casing. -/
theorem map_tolower_of_valid (t : Word) (h : Spec.validTemplate t) : t.map tolower = t := by
  induction t with
  | nil => rfl
  | cons a l ih =>
    rw [List.map_cons, tolower_of_valid a (h a (by simp)),
      ih (fun c hc => h c (by simp [hc]))]

/-- C29: for a template `t` whose lower-cased characters are dots or letters, calling
`setTemplate(t)` and then `setTemplate` with the template the solver holds leaves the
solver as `setTemplate(t)` alone does: the same template, potential guesses and
potential solutions (and the same stored hints and result). -/
theorem setTemplate_idempotent (s : Solver) (t : Word)
    (hvalid : Spec.validTemplate (t.map tolower)) :
    (s.setTemplate t).1.setTemplate (s.setTemplate t).1.getTemplate = s.setTemplate t ∧
    ((s.setTemplate t).1.setTemplate (s.setTemplate t).1.getTemplate).1.getTemplate
      = (s.setTemplate t).1.getTemplate ∧
    ((s.setTemplate t).1.setTemplate (s.setTemplate t).1.getTemplate).1.getPotentialGuesses
      = (s.setTemplate t).1.getPotentialGuesses ∧
    ((s.setTemplate t).1.setTemplate (s.setTemplate t).1.getTemplate).1.getPotentialSolutions
      = (s.setTemplate t).1.getPotentialSolutions := by
  have hmain : (s.setTemplate t).1.setTemplate (s.setTemplate t).1.getTemplate
      = s.setTemplate t := by
    by_cases hne : t = []
    · subst hne
      rw [setTemplate_nil]
      simp only [Solver.getTemplate]
      rw [setTemplate_nil]
      rfl
    · have hne2 : t.map tolower ≠ [] := by
        cases t with
        | nil => exact absurd rfl hne
        | cons a l => simp
      have hv2 : Spec.validTemplate ((t.map tolower).map tolower) := by
        rw [map_tolower_of_valid _ hvalid]
        exact hvalid
      rw [setTemplate_of_valid s t hne hvalid]
      simp only [Solver.getTemplate]
      rw [setTemplate_of_valid _ (t.map tolower) hne2 hv2, map_tolower_of_valid _ hvalid]
  rw [hmain]
  exact ⟨rfl, rfl, rfl, rfl⟩

/-- A witness of C29: the template "A...." on the sample solver. -/
theorem setTemplate_idempotent_witness :
    Spec.validTemplate ("A....".toList.map tolower) ∧
    (sampleSolver.setTemplate "A....".toList).1.setTemplate
        (sampleSolver.setTemplate "A....".toList).1.getTemplate
      = sampleSolver.setTemplate "A....".toList :=
  have hv : Spec.validTemplate ("A....".toList.map tolower) := by
    unfold Spec.validTemplate
    decide
  ⟨hv, (setTemplate_idempotent sampleSolver "A....".toList hv).1⟩

/-- In every reachable solver state the potential guesses and the potential solutions are
sublists of the word list of the dictionary of the current rules. -/
theorem Solver.Reachable.sublist {s : Solver} (hr : s.Reachable) :
    List.Sublist s.m_potentialGuesses s.m_rules.obj.getDictionary.getAllWords ∧
      List.Sublist s.m_potentialSolutions s.m_rules.obj.getDictionary.getAllWords := by
  induction hr with
  | create rules => simp [Solver.init]
  | setTemplate s t _ ih =>
    by_cases hvalid : Spec.validTemplate (t.map tolower)
    · by_cases hne : t = []
      · subst hne
        rw [setTemplate_nil]
        simp [Solver.reset]
      · rw [setTemplate_of_valid s t hne hvalid]
        exact ⟨List.filter_sublist _, (List.filter_sublist _).trans (List.filter_sublist _)⟩
    · have hv : ¬ (t.map tolower).all
          (fun c => decide (c = '.') || (decide (c ≥ 'a') && decide (c ≤ 'z'))) = true :=
        fun h => hvalid ((validTemplate_iff _).1 h)
      unfold Solver.setTemplate
      simp only [hv, Bool.not_eq_true] at *
      simpa [hv] using ih
  | addHint s guess hints _ ih =>
    unfold Solver.addHint
    split_ifs
    · exact ih
    · exact ih
    · exact ih
    · exact ⟨ih.1, (List.filter_sublist _).trans ih.2⟩
  | reset s _ ih => simp [Solver.reset]
  | setRules s rules _ ih =>
    cases rules with
    | none => exact ih
    | some rules =>
      simp only [Solver.setRules]
      split_ifs
      · exact ih
      · simp [Solver.reset]

/-- C28: in every reachable solver state, when the word list of the dictionary of the
current rules is sorted by an order `R` (every word stands in the relation `R` to every
later word), so are the potential guesses and the potential solutions. -/
theorem candidates_sorted (R : Word → Word → Prop) (s : Solver) (hr : s.Reachable)
    (hsorted : s.m_rules.obj.getDictionary.getAllWords.Pairwise R) :
    s.getPotentialGuesses.Pairwise R ∧ s.getPotentialSolutions.Pairwise R :=
  ⟨hsorted.sublist hr.sublist.1, hsorted.sublist hr.sublist.2⟩

/-- The sample solver is reachable. -/
theorem sampleSolver_reachable : sampleSolver.Reachable :=
  Solver.Reachable.setTemplate _ _ (Solver.Reachable.create _)

/-- A witness of C28: the sample dictionary is sorted in the lexicographic order. -/
theorem candidates_sorted_witness :
    sampleSolver.m_rules.obj.getDictionary.getAllWords.Pairwise (fun a b => a < b) ∧
    sampleSolver.getPotentialGuesses.Pairwise (fun a b => a < b) ∧
    sampleSolver.getPotentialSolutions.Pairwise (fun a b => a < b) :=
  have h : sampleSolver.m_rules.obj.getDictionary.getAllWords.Pairwise
      (fun a b => a < b) := by decide
  ⟨h, candidates_sorted (fun a b => a < b) sampleSolver sampleSolver_reachable h⟩

/-! ## `computeHints`: repeated letters -/

/-- The first loop of `computeHints` leaves only `WRONG` and `CORRECT` hints. -/
theorem computeHintsCorrect_no_misplaced (word solution : Word) (rem : List Char) :
    ∀ h ∈ (computeHintsCorrect word solution rem).1, h ≠ HintType.MISPLACED := by
  induction word generalizing solution rem with
  | nil => simp [computeHintsCorrect]
  | cons w ws ih =>
    cases solution with
    | nil => simp [computeHintsCorrect]
    | cons x xs =>
      unfold computeHintsCorrect
      split_ifs
      · intro h hm
        rcases List.mem_cons.1 hm with rfl | hm
        · decide
        · exact ih _ _ h hm
      · intro h hm
        rcases List.mem_cons.1 hm with rfl | hm
        · decide
        · exact ih _ _ h hm

/-- In the second loop of `computeHints`, started on hints without `MISPLACED`, a
position that becomes `MISPLACED` carries a letter that was among the remaining letters
at the start. -/
theorem computeHintsMisplaced_mem (word : Word) (hints : List HintType) (rem : List Char)
    (hno : ∀ h ∈ hints, h ≠ HintType.MISPLACED) (j : Nat) (c : Char)
    (hc : word[j]? = some c)
    (hj : (computeHintsMisplaced word hints rem)[j]? = some HintType.MISPLACED) :
    c ∈ rem := by
  induction word generalizing hints rem j with
  | nil => simp at hc
  | cons w ws ih =>
    cases hints with
    | nil => simp [computeHintsMisplaced] at hj
    | cons x xs =>
      have hx : x ≠ HintType.MISPLACED := hno x (by simp)
      have hxs : ∀ h ∈ xs, h ≠ HintType.MISPLACED := fun h hm => hno h (by simp [hm])
      unfold computeHintsMisplaced at hj
      cases j with
      | zero =>
        simp only [List.getElem?_cons_zero, Option.some.injEq] at hc
        subst hc
        split_ifs at hj with h1 h2
        · exact h2
        · simp only [List.getElem?_cons_zero, Option.some.injEq] at hj
          exact absurd hj hx
        · simp only [List.getElem?_cons_zero, Option.some.injEq] at hj
          exact absurd hj hx
      | succ k =>
        simp only [List.getElem?_cons_succ] at hc
        split_ifs at hj with h1 h2
        · simp only [List.getElem?_cons_succ] at hj
          exact List.mem_of_mem_erase (ih xs _ hxs k hc hj)
        · simp only [List.getElem?_cons_succ] at hj
          exact ih xs _ hxs k hc hj
        · simp only [List.getElem?_cons_succ] at hj
          exact ih xs _ hxs k hc hj

/-- In the second loop of `computeHints`, started on hints without `MISPLACED`: of two
positions with the same letter that are not `CORRECT`, the earlier one is `MISPLACED`
whenever the later one is. -/
theorem computeHintsMisplaced_order (word : Word) (hints : List HintType) (rem : List Char)
    (hno : ∀ h ∈ hints, h ≠ HintType.MISPLACED) (hlen : word.length = hints.length)
    (i j : Nat) (c : Char) (hij : i < j) (hi : word[i]? = some c) (hj : word[j]? = some c)
    (hci : hints[i]? ≠ some HintType.CORRECT)
    (hmj : (computeHintsMisplaced word hints rem)[j]? = some HintType.MISPLACED) :
    (computeHintsMisplaced word hints rem)[i]? = some HintType.MISPLACED := by
  induction word generalizing hints rem i j with
  | nil => simp at hi
  | cons w ws ih =>
    cases hints with
    | nil => simp at hlen
    | cons x xs =>
      simp only [List.length_cons, add_left_inj] at hlen
      have hxs : ∀ h ∈ xs, h ≠ HintType.MISPLACED := fun h hm => hno h (by simp [hm])
      obtain ⟨k, rfl⟩ : ∃ k, j = k + 1 := ⟨j - 1, by omega⟩
      simp only [List.getElem?_cons_succ] at hj
      unfold computeHintsMisplaced at hmj ⊢
      cases i with
      | zero =>
        simp only [List.getElem?_cons_zero, Option.some.injEq] at hi
        subst hi
        simp only [List.getElem?_cons_zero, ne_eq, Option.some.injEq] at hci
        rw [if_pos hci] at hmj ⊢
        by_cases hmem : w ∈ rem
        · rw [if_pos hmem]
          simp
        · rw [if_neg hmem] at hmj
          simp only [List.getElem?_cons_succ] at hmj
          exact absurd (computeHintsMisplaced_mem ws xs rem hxs k w hj hmj) hmem
      | succ m =>
        simp only [List.getElem?_cons_succ] at hi hci
        have hmk : m < k := by omega
        split_ifs at hmj ⊢ with h1 h2
        · simp only [List.getElem?_cons_succ] at hmj ⊢
          exact ih xs _ hxs hlen m k hmk hi hj hci hmj
        · simp only [List.getElem?_cons_succ] at hmj ⊢
          exact ih xs _ hxs hlen m k hmk hi hj hci hmj
        · simp only [List.getElem?_cons_succ] at hmj ⊢
          exact ih xs _ hxs hlen m k hmk hi hj hci hmj

/-- C30: for lower-case `word` and `solution` of equal length, `computeHints` returns
hints in which, for two positions `i < j` with the same letter of `word` that are both
not `CORRECT`, position `i` is `MISPLACED` whenever position `j` is. -/
theorem computeHints_misplaced_first (word solution : Word)
    (hlen : word.length = solution.length)
    (hw : ∀ c ∈ word, islower c = true) (hs : ∀ c ∈ solution, islower c = true) :
    ∃ hints : List HintType, computeHints word solution = .ok hints ∧
      ∀ (i j : Nat) (c : Char), i < j → word[i]? = some c → word[j]? = some c →
        hints[i]? ≠ some HintType.CORRECT → hints[j]? ≠ some HintType.CORRECT →
        hints[j]? = some HintType.MISPLACED → hints[i]? = some HintType.MISPLACED := by
  refine ⟨_, computeHints_ok word solution hlen hw hs, ?_⟩
  intro i j c hij hi hj hci _ hmj
  have hl := computeHintsCorrect_length word solution solution hlen
  refine computeHintsMisplaced_order word _ _
    (computeHintsCorrect_no_misplaced word solution solution) hl.symm i j c hij hi hj ?_ hmj
  intro h
  exact hci ((computeHintsMisplaced_getElem _ _ _ hl.symm i).2 h)

/-- A witness of C30: the guess "maree" against "email", whose two letters e get
`MISPLACED` and then `WRONG`. -/
theorem computeHints_misplaced_first_witness :
    computeHints "maree".toList "email".toList
      = .ok [.MISPLACED, .MISPLACED, .WRONG, .MISPLACED, .WRONG] ∧
    ∃ hints : List HintType, computeHints "maree".toList "email".toList = .ok hints ∧
      ∀ (i j : Nat) (c : Char), i < j → "maree".toList[i]? = some c →
        "maree".toList[j]? = some c →
        hints[i]? ≠ some HintType.CORRECT → hints[j]? ≠ some HintType.CORRECT →
        hints[j]? = some HintType.MISPLACED → hints[i]? = some HintType.MISPLACED :=
  ⟨by decide,
   computeHints_misplaced_first "maree".toList "email".toList (by decide) (by decide)
     (by decide)⟩

/-! ## Templates of a game: `getTemplate` -/

/-- When `computeTemplate` returns, its arguments passed both checks and the result is
what the two loops build from the pattern of dots. -/
theorem computeTemplate_ok_inv (size : Nat) (guesses : List Word)
    (hints : List (List HintType)) (t : Word)
    (h : computeTemplate size guesses hints = .ok t) :
    guesses.length = hints.length ∧ (∀ guess ∈ guesses, guess.length = size) ∧
    (∀ hintVector ∈ hints, hintVector.length = size) ∧
    (∀ guess ∈ guesses, ∀ c ∈ guess, islower c = true) ∧
    t = templateFill (List.replicate size '.') guesses hints := by
  unfold computeTemplate at h
  split_ifs at h with h1 h2
  simp only [Except.ok.injEq] at h
  simp only [ne_eq, List.any_eq_true, decide_eq_true_eq, not_or, Decidable.not_not,
    not_exists, not_and] at h1
  simp only [List.any_eq_true, Bool.not_eq_eq_eq_not, Bool.not_true, not_exists, not_and,
    Bool.not_eq_false, List.all_eq_true] at h2
  exact ⟨h1.1, h1.2.1, h1.2.2, h2, h.symm⟩

/-- On arguments that pass both checks `computeTemplate` returns what the two loops build
from the pattern of dots. -/
theorem computeTemplate_eq (size : Nat) (guesses : List Word)
    (hints : List (List HintType)) (hlen : guesses.length = hints.length)
    (hg : ∀ guess ∈ guesses, guess.length = size)
    (hh : ∀ hintVector ∈ hints, hintVector.length = size)
    (hlow : ∀ guess ∈ guesses, ∀ c ∈ guess, islower c = true) :
    computeTemplate size guesses hints
      = .ok (templateFill (List.replicate size '.') guesses hints) := by
  have h1 : guesses.any (fun guess => decide (guess.length ≠ size)) = false := by
    simpa using hg
  have h2 : hints.any (fun hintVector => decide (hintVector.length ≠ size)) = false := by
    simpa using hh
  have h3 : guesses.any (fun guess => !guess.all islower) = false := by
    simpa using hlow
  simp only [computeTemplate]
  rw [if_neg (by rw [h1, h2]; simp [hlen]), if_neg (by rw [h3]; simp)]

/-- The outer loop of `computeTemplate` on one more pair of a guess and a hint vector. -/
theorem templateFill_append (pattern : Word) (guesses : List Word)
    (hints : List (List HintType)) (w : Word) (h : List HintType)
    (hlen : guesses.length = hints.length) :
    templateFill pattern (guesses ++ [w]) (hints ++ [h])
      = templateFillWord (templateFill pattern guesses hints) w h := by
  induction guesses generalizing pattern hints with
  | nil =>
    cases hints with
    | nil => simp [templateFill]
    | cons x xs => simp at hlen
  | cons g gs ih =>
    cases hints with
    | nil => simp at hlen
    | cons x xs =>
      simp only [List.length_cons, add_left_inj] at hlen
      simp only [List.cons_append, templateFill]
      exact ih _ _ hlen

/-- What a returned hint vector tells about the arguments of `computeHints`. -/
theorem computeHints_ok_inv (word solution : Word) (hints : List HintType)
    (h : computeHints word solution = .ok hints) :
    word.length = solution.length ∧ (∀ c ∈ word, islower c = true) ∧
      hints.length = word.length := by
  have hl := computeHints_length word solution hints h
  unfold computeHints at h
  split_ifs at h with h1 h2
  simp only [Bool.or_eq_true, Bool.not_eq_eq_eq_not, Bool.not_true, not_or,
    Bool.not_eq_false, List.all_eq_true] at h2
  exact ⟨by simpa using h1, h2.1, hl⟩

/-- In every reachable game state the hint history holds the hints of those tried
guesses for which `computeHints` returned, in order, against the current secret word;
and a game that has not started has no tried guess. -/
theorem Game.Reachable.hints_eq {g : Game} (hr : g.Reachable) :
    g.m_hints = g.m_guesses.filterMap (fun w => (computeHints w g.m_word).toOption) ∧
      (g.m_start = false → g.m_guesses = []) := by
  induction hr with
  | create rules => simp [Game.init]
  | setWord g word _ ih =>
    unfold Game.setWord
    split_ifs with h1 h2
    · exact ih
    · exact ih
    · cases hs : g.m_start
      · have hg := ih.2 hs
        have hh := ih.1
        rw [hg] at hh
        simp [hg, hh]
      · simp only [hs, Bool.true_and, decide_eq_true_eq, Decidable.not_not] at h2
        subst h2
        simpa using ih.1
  | start g _ ih =>
    unfold Game.start
    split_ifs with h1 h2
    · exact ih
    · exact ih
    · exact ⟨ih.1, fun h => by simp at h⟩
  | tryGuess g word _ ih =>
    unfold Game.tryGuess
    split_ifs with h1 h2 h3
    · exact ih
    · exact ih
    · exact ih
    · have hs : g.m_start = true := by simpa [Game.hasStarted] using h1
      cases hc : computeHints word g.m_word with
      | error e =>
        simp only [hc]
        refine ⟨?_, fun h => by simp [hs] at h⟩
        rw [List.filterMap_append, ← ih.1]
        simp [hc, Except.toOption]
      | ok hints =>
        simp only [hc]
        refine ⟨?_, fun h => by simp [hs] at h⟩
        rw [List.filterMap_append, ← ih.1]
        simp [hc, Except.toOption]
  | reset g _ ih => simp [Game.reset]
  | setRules g rules _ ih =>
    cases rules with
    | none => exact ih
    | some rules =>
      simp only [Game.setRules]
      by_cases h1 : g.m_rules.addr = rules.addr
      · rw [if_pos h1]
        exact ih
      · rw [if_neg h1]
        cases hs : g.m_start
        · have hg := ih.2 hs
          have hh := ih.1
          rw [hg] at hh
          cases hv : rules.obj.isSolutionValid g.m_word <;>
            simp [Game.hasStarted, hs, hv, hg, hh]
        · cases hv : rules.obj.isSolutionValid [] <;>
            simp [Game.hasStarted, Game.reset, hs, hv]

/-- When a filter-map keeps as many elements as it was given, it kept every element. -/
theorem filterMap_forall₂ {α β : Type} (f : α → Option β) (l : List α)
    (h : (l.filterMap f).length = l.length) :
    List.Forall₂ (fun x y => f x = some y) l (l.filterMap f) := by
  induction l with
  | nil => simp
  | cons a l ih =>
    cases hf : f a with
    | none =>
      rw [List.filterMap_cons_none hf] at h
      have := List.length_filterMap_le f l
      simp only [List.length_cons] at h
      omega
    | some b =>
      rw [List.filterMap_cons_some hf] at h ⊢
      simp only [List.length_cons, add_left_inj] at h
      exact List.Forall₂.cons hf (ih h)

/-- In a reachable game state with as many hint vectors as tried guesses, the hint at
position `j` of the pair `i` is `CORRECT` only where the guess carries the letter of the
secret word. -/
theorem Game.Reachable.correct_letter {g : Game} (hr : g.Reachable)
    (hlen : g.m_guesses.length = g.m_hints.length) (i j : Nat)
    (h : Spec.hintAt g.m_hints i j = some HintType.CORRECT) :
    Spec.letterAt g.m_guesses i j = g.m_word[j]? := by
  have heq := hr.hints_eq.1
  have hf := filterMap_forall₂ (fun w => (computeHints w g.m_word).toOption) g.m_guesses
    (by rw [← heq, hlen])
  rw [← heq] at hf
  unfold Spec.hintAt at h
  unfold Spec.letterAt
  cases hh : g.m_hints[i]? with
  | none => simp [hh] at h
  | some hv =>
    rw [hh] at h
    simp only [Option.some_bind] at h
    have hi : i < g.m_hints.length := (List.getElem?_eq_some_iff.1 hh).1
    have hi2 : i < g.m_guesses.length := hlen ▸ hi
    have hrel := List.Forall₂.get hf hi2 hi
    have hgi : g.m_guesses[i]? = some g.m_guesses[i] := List.getElem?_eq_getElem hi2
    have hhv : g.m_hints.get ⟨i, hi⟩ = hv := by
      have := List.getElem?_eq_getElem hi
      rw [hh] at this
      exact (Option.some.inj this).symm
    rw [hhv] at hrel
    simp only [List.get_eq_getElem] at hrel
    have hc : computeHints g.m_guesses[i] g.m_word = .ok hv := by
      cases hx : computeHints g.m_guesses[i] g.m_word with
      | error e => simp [hx, Except.toOption] at hrel
      | ok v =>
        simp only [hx, Except.toOption, Option.some.injEq] at hrel
        rw [hrel]
    rw [hgi]
    simp only [Option.some_bind]
    exact ((computeHints_correct_iff _ _ _ hc j).1 h).2

/-- In a reachable game state every letter of the pattern that `computeTemplate` builds
is the letter of the secret word at that position. -/
theorem Game.Reachable.template_letter {g : Game} (hr : g.Reachable) (t : Word)
    (ht : computeTemplate g.m_word.length g.m_guesses g.m_hints = .ok t) (j : Nat)
    (c : Char) (hj : t[j]? = some c) (hc : c ≠ '.') : g.m_word[j]? = some c := by
  obtain ⟨hlen, hg, hh, _, rfl⟩ := computeTemplate_ok_inv _ _ _ _ ht
  have hspec := templateFill_spec (List.replicate g.m_word.length '.') g.m_guesses
    g.m_hints hlen (by simpa using hg) (by simpa using hh)
  by_cases hex : ∃ i, Spec.hintAt g.m_hints i j = some HintType.CORRECT
  · obtain ⟨i, hi, hi2⟩ := (hspec.2 j).2 hex
    rw [← hr.correct_letter hlen i j hi, ← hi2]
    exact hj
  · have hno : ∀ i, Spec.hintAt g.m_hints i j ≠ some HintType.CORRECT :=
      fun i hi => hex ⟨i, hi⟩
    rw [(hspec.2 j).1 hno, List.getElem?_replicate] at hj
    split_ifs at hj
    simp only [Option.some.injEq] at hj
    exact absurd hj.symm hc

/-- Every error that `computeTemplate` reports is an invalid-argument error. -/
theorem computeTemplate_error_invalidArg (size : Nat) (guesses : List Word)
    (hints : List (List HintType)) (e : Error)
    (h : computeTemplate size guesses hints = .error e) : e.isInvalidArg = true := by
  unfold computeTemplate at h
  split_ifs at h <;> simp only [Except.error.injEq, reduceCtorEq] at h <;> subst h <;> rfl

/-- The length of the pattern that `computeTemplate` returns. -/
theorem computeTemplate_length (size : Nat) (guesses : List Word)
    (hints : List (List HintType)) (t : Word)
    (h : computeTemplate size guesses hints = .ok t) : t.length = size := by
  obtain ⟨hlen, hg, hh, _, rfl⟩ := computeTemplate_ok_inv _ _ _ _ h
  have := (templateFill_spec (List.replicate size '.') guesses hints hlen
    (by simpa using hg) (by simpa using hh)).1
  simpa using this

/-- On a game with a secret word for which `computeTemplate` returns `t`, the Wordle
`getTemplate` returns `t`. -/
theorem GameRules.getTemplate_wordle (fd : FixedSizeDictionary) (m : Nat) (g : Game)
    (t : Word) (hw : g.getWord ≠ [])
    (ht : computeTemplate g.getWord.length g.getTriedGuesses g.getGuessesHints = .ok t) :
    (GameRules.wordle fd m).getTemplate g = .ok t := by
  simp only [GameRules.getTemplate, List.isEmpty_eq_true, hw, if_false, ht]

/-- On a game with a secret word for which `computeTemplate` returns `t`, the Motus
`getTemplate` returns `t` with the first letter of the secret word at position 0. -/
theorem GameRules.getTemplate_motus (d : Dictionary) (m : Nat) (g : Game)
    (t : Word) (hw : g.getWord ≠ [])
    (ht : computeTemplate g.getWord.length g.getTriedGuesses g.getGuessesHints = .ok t) :
    ∃ c, g.getWord[0]? = some c ∧ (GameRules.motus d m).getTemplate g = .ok (t.set 0 c) := by
  have hl := computeTemplate_length _ _ _ _ ht
  simp only [GameRules.getTemplate, List.isEmpty_eq_true, hw, if_false, ht]
  cases hword : g.getWord with
  | nil => exact absurd hword hw
  | cons c cs =>
    rw [hword] at hl
    cases t with
    | nil => simp at hl
    | cons x xs => exact ⟨c, by simp, by simp⟩

/-- When `getTemplate` returns, the game has a secret word and `computeTemplate`
returned. -/
theorem GameRules.getTemplate_ok_inv (r : GameRules) (g : Game) (tb : Word)
    (h : r.getTemplate g = .ok tb) :
    g.getWord ≠ [] ∧
      ∃ t, computeTemplate g.getWord.length g.getTriedGuesses g.getGuessesHints = .ok t := by
  have hw : g.getWord ≠ [] := by
    intro hw
    cases r <;> simp [GameRules.getTemplate, hw] at h
  refine ⟨hw, ?_⟩
  cases hc : computeTemplate g.getWord.length g.getTriedGuesses g.getGuessesHints with
  | ok t => exact ⟨t, rfl⟩
  | error e =>
    cases r <;> simp [GameRules.getTemplate, hw, hc] at h

/-- C21 (counterexample): in the reachable game state left by the throwing call
`tryGuess("AB")` on `upperGame`, the secret word "AB" is not empty, and yet `getTemplate`
fails with an invalid-argument error for both rule variants: the tried guesses hold one
word and the hint history none, so `computeTemplate` rejects its arguments. -/
theorem getTemplate_fails_with_secret :
    (upperGame.tryGuess "AB".toList).1.Reachable ∧
    (upperGame.tryGuess "AB".toList).1.getWord = "AB".toList ∧
    (upperGame.tryGuess "AB".toList).1.getWord ≠ [] ∧
    upperMotus.obj.getTemplate (upperGame.tryGuess "AB".toList).1
      = .error .templateSizes ∧
    sampleWordle.obj.getTemplate (upperGame.tryGuess "AB".toList).1
      = .error .templateSizes ∧
    Error.templateSizes.isInvalidArg = true :=
  ⟨Game.Reachable.tryGuess _ _ upperGame_reachable, by decide, by decide, by decide,
    by decide, by decide⟩

/-- For both rule variants and every game `getTemplate(game)` fails exactly when the
secret word of the game is empty or `computeTemplate(len(secret), triedGuesses,
guessesHints)` fails, and every error it reports is an invalid-argument error; with an
empty secret word the error is the one of `getTemplate` itself. Otherwise the Wordle
rules return the result of `computeTemplate` and the Motus rules return that same string
with position 0 replaced by the first letter of the secret word, whatever the hints
are. -/
theorem getTemplate_cases (r : GameRules) (g : Game) :
    ((∃ e, r.getTemplate g = .error e) ↔
      (g.getWord = [] ∨
        ∃ e, computeTemplate g.getWord.length g.getTriedGuesses g.getGuessesHints
          = .error e)) ∧
    (∀ e, r.getTemplate g = .error e → e.isInvalidArg = true) ∧
    (g.getWord = [] → r.getTemplate g = .error .templateNoWord) ∧
    (∀ t, g.getWord ≠ [] →
      computeTemplate g.getWord.length g.getTriedGuesses g.getGuessesHints = .ok t →
      (∀ fd m, r = .wordle fd m → r.getTemplate g = .ok t) ∧
      (∀ d m, r = .motus d m →
        ∃ c, g.getWord[0]? = some c ∧ r.getTemplate g = .ok (t.set 0 c))) := by
  have hempty : g.getWord = [] → r.getTemplate g = .error .templateNoWord := by
    intro hw
    cases r <;> simp [GameRules.getTemplate, hw]
  have hok : ∀ t, g.getWord ≠ [] →
      computeTemplate g.getWord.length g.getTriedGuesses g.getGuessesHints = .ok t →
      ∃ t2, r.getTemplate g = .ok t2 := by
    intro t hw ht
    cases r with
    | motus d m =>
      obtain ⟨c, _, hc⟩ := GameRules.getTemplate_motus d m g t hw ht
      exact ⟨_, hc⟩
    | wordle fd m => exact ⟨_, GameRules.getTemplate_wordle fd m g t hw ht⟩
  have herr : ∀ e, r.getTemplate g = .error e →
      g.getWord = [] ∨
        computeTemplate g.getWord.length g.getTriedGuesses g.getGuessesHints
          = .error e := by
    intro e he
    by_cases hw : g.getWord = []
    · exact Or.inl hw
    · right
      cases hc : computeTemplate g.getWord.length g.getTriedGuesses g.getGuessesHints with
      | ok t =>
        obtain ⟨t2, h2⟩ := hok t hw hc
        rw [h2] at he
        cases he
      | error e2 =>
        cases r <;> simp [GameRules.getTemplate, hw, hc] at he <;> rw [he]
  refine ⟨⟨?_, ?_⟩, ?_, hempty, ?_⟩
  · rintro ⟨e, he⟩
    rcases herr e he with hw | hc
    · exact Or.inl hw
    · exact Or.inr ⟨e, hc⟩
  · rintro (hw | ⟨e, hc⟩)
    · exact ⟨_, hempty hw⟩
    · cases hg : r.getTemplate g with
      | error e2 => exact ⟨e2, rfl⟩
      | ok tb =>
        obtain ⟨_, t, ht⟩ := GameRules.getTemplate_ok_inv r g tb hg
        rw [ht] at hc
        cases hc
  · intro e he
    rcases herr e he with hw | hc
    · rw [hempty hw] at he
      cases he
      rfl
    · exact computeTemplate_error_invalidArg _ _ _ _ hc
  · intro t hw ht
    refine ⟨?_, ?_⟩
    · rintro fd m rfl
      exact GameRules.getTemplate_wordle fd m g t hw ht
    · rintro d m rfl
      exact GameRules.getTemplate_motus d m g t hw ht

/-- What a successful `tryGuess` did: `computeHints` returned the hints, and the guess and
its hints were appended to the histories; the secret word is unchanged. -/
theorem Game.tryGuess_ok_inv (g : Game) (w : Word) (hints : List HintType)
    (h : (g.tryGuess w).2 = .ok hints) :
    computeHints w g.m_word = .ok hints ∧ (g.tryGuess w).1.m_word = g.m_word ∧
      (g.tryGuess w).1.m_guesses = g.m_guesses ++ [w] ∧
      (g.tryGuess w).1.m_hints = g.m_hints ++ [hints] := by
  unfold Game.tryGuess at h ⊢
  split_ifs at h ⊢ with h1 h2 h3
  cases hc : computeHints w g.m_word with
  | error e => simp [hc] at h
  | ok hs =>
    simp only [hc, Except.ok.injEq] at h ⊢
    subst h
    simp

/-- One more pair of a guess and a hint vector of the right size: `computeTemplate`
returns the earlier pattern with the `CORRECT` letters of the new guess written in. -/
theorem computeTemplate_snoc (size : Nat) (guesses : List Word)
    (hints : List (List HintType)) (w : Word) (h : List HintType) (t : Word)
    (ht : computeTemplate size guesses hints = .ok t) (hw : w.length = size)
    (hlow : ∀ c ∈ w, islower c = true) (hh : h.length = size) :
    computeTemplate size (guesses ++ [w]) (hints ++ [h])
      = .ok (templateFillWord t w h) := by
  obtain ⟨hlen, hg, hhs, hl, rfl⟩ := computeTemplate_ok_inv _ _ _ _ ht
  rw [computeTemplate_eq size (guesses ++ [w]) (hints ++ [h]) (by simp [hlen]),
    templateFill_append _ _ _ _ _ hlen]
  · intro guess hguess
    rcases List.mem_append.1 hguess with hm | hm
    · exact hg guess hm
    · rw [List.mem_singleton.1 hm]; exact hw
  · intro hv hhv
    rcases List.mem_append.1 hhv with hm | hm
    · exact hhs hv hm
    · rw [List.mem_singleton.1 hm]; exact hh
  · intro guess hguess
    rcases List.mem_append.1 hguess with hm | hm
    · exact hl guess hm
    · rw [List.mem_singleton.1 hm]; exact hlow

/-- After a successful `tryGuess` in a reachable game state, `computeTemplate` returns on
the new histories, and every letter of the earlier pattern is still there. -/
theorem Game.Reachable.template_step {g : Game} (hr : g.Reachable) (w : Word)
    (hints : List HintType) (hok : (g.tryGuess w).2 = .ok hints) (t : Word)
    (ht : computeTemplate g.getWord.length g.getTriedGuesses g.getGuessesHints = .ok t) :
    computeTemplate (g.tryGuess w).1.getWord.length (g.tryGuess w).1.getTriedGuesses
        (g.tryGuess w).1.getGuessesHints = .ok (templateFillWord t w hints) ∧
      (g.tryGuess w).1.getWord = g.getWord ∧
      ∀ (j : Nat) (c : Char), t[j]? = some c → c ≠ '.' → (templateFillWord t w hints)[j]? = some c := by
  obtain ⟨hc, h1, h2, h3⟩ := Game.tryGuess_ok_inv g w hints hok
  obtain ⟨hwl, hlow, hhl⟩ := computeHints_ok_inv _ _ _ hc
  simp only [Game.getWord, Game.getTriedGuesses, Game.getGuessesHints] at ht ⊢
  rw [h1, h2, h3]
  refine ⟨computeTemplate_snoc _ _ _ _ _ _ ht hwl hlow (hhl.trans hwl), rfl, ?_⟩
  intro j c hj hcd
  have htl := computeTemplate_length _ _ _ _ ht
  rw [templateFillWord_getElem t w hints (hwl.trans htl.symm)
    ((hhl.trans hwl).trans htl.symm) j]
  split_ifs with hcor
  · rw [((computeHints_correct_iff _ _ _ hc j).1 hcor).2]
    exact hr.template_letter t ht j c hj hcd
  · exact hj

/-- C22: in a reachable game state (so in every started game), when `tryGuess` succeeds
and `getTemplate`, of the Motus or of the Wordle rules, returned a template before the
guess, it returns a template after the guess as well, and every position that held a
letter (a character other than the dot) before holds the same letter after. -/
theorem getTemplate_monotone (r : GameRules) (g : Game) (w : Word)
    (hints : List HintType) (tb : Word) (hr : g.Reachable)
    (hok : (g.tryGuess w).2 = .ok hints) (hb : r.getTemplate g = .ok tb) :
    ∃ ta, r.getTemplate (g.tryGuess w).1 = .ok ta ∧
      ∀ (j : Nat) (c : Char), tb[j]? = some c → c ≠ '.' → ta[j]? = some c := by
  obtain ⟨hw, t, ht⟩ := GameRules.getTemplate_ok_inv r g tb hb
  obtain ⟨hta, hword, hmono⟩ := hr.template_step w hints hok t ht
  have hw2 : (g.tryGuess w).1.getWord ≠ [] := by rw [hword]; exact hw
  cases r with
  | wordle fd m =>
    rw [GameRules.getTemplate_wordle fd m g t hw ht] at hb
    cases hb
    exact ⟨_, GameRules.getTemplate_wordle fd m _ _ hw2 hta, hmono⟩
  | motus d m =>
    obtain ⟨c0, hc0, hm0⟩ := GameRules.getTemplate_motus d m g t hw ht
    obtain ⟨c1, hc1, hm1⟩ := GameRules.getTemplate_motus d m _ _ hw2 hta
    rw [hm0] at hb
    cases hb
    rw [hword, hc0] at hc1
    cases hc1
    refine ⟨_, hm1, ?_⟩
    intro j c hj hcd
    rw [List.getElem?_set] at hj ⊢
    have hl0 := computeTemplate_length _ _ _ _ ht
    have hl1 : (templateFillWord t w hints).length = t.length :=
      templateFillWord_length _ _ _
    by_cases h0 : 0 = j
    · rw [if_pos h0] at hj ⊢
      rw [hl1]
      exact hj
    · rw [if_neg h0] at hj ⊢
      exact hmono j c hj hcd

/-- C22 (witness): in the sample game with the secret word "email", after the guess
"amble" the Wordle template is ".m..."; the guess "maree" succeeds, and the template
after it still holds the letter "m" at position 1. -/
theorem getTemplate_monotone_witness :
    (sampleGame.tryGuess "amble".toList).1.Reachable ∧
    sampleWordle.obj.getTemplate (sampleGame.tryGuess "amble".toList).1
      = .ok ".m...".toList ∧
    ∃ ta, sampleWordle.obj.getTemplate
        ((sampleGame.tryGuess "amble".toList).1.tryGuess "maree".toList).1 = .ok ta ∧
      ∀ (j : Nat) (c : Char), ".m...".toList[j]? = some c → c ≠ '.' → ta[j]? = some c :=
  ⟨Game.Reachable.tryGuess _ _ sampleGame_reachable, by decide,
    getTemplate_monotone sampleWordle.obj (sampleGame.tryGuess "amble".toList).1
      "maree".toList
      [HintType.MISPLACED, HintType.MISPLACED, HintType.WRONG, HintType.MISPLACED,
        HintType.WRONG]
      ".m...".toList (Game.Reachable.tryGuess _ _ sampleGame_reachable) (by decide)
      (by decide)⟩

/-! ## `computeTemplate`: several `CORRECT` hints at one position -/

/-- The loops of `computeTemplate` leave, at a position with a `CORRECT` hint, the letter
of the last guess that has a `CORRECT` hint there. -/
theorem templateFill_last (pattern : Word) (guesses : List Word)
    (hints : List (List HintType)) (hlen : guesses.length = hints.length)
    (hg : ∀ guess ∈ guesses, guess.length = pattern.length)
    (hh : ∀ hintVector ∈ hints, hintVector.length = pattern.length) (j k : Nat)
    (hk : Spec.hintAt hints k j = some HintType.CORRECT)
    (hlast : ∀ i, k < i → Spec.hintAt hints i j ≠ some HintType.CORRECT) :
    (templateFill pattern guesses hints)[j]? = Spec.letterAt guesses k j := by
  induction guesses generalizing pattern hints k with
  | nil =>
    cases hints with
    | nil => simp [Spec.hintAt] at hk
    | cons h hs => simp at hlen
  | cons g gs ih =>
    cases hints with
    | nil => simp at hlen
    | cons h hs =>
      simp only [List.length_cons, add_left_inj] at hlen
      have hg0 : g.length = pattern.length := hg g (by simp)
      have hh0 : h.length = pattern.length := hh h (by simp)
      have hl := templateFillWord_length pattern g h
      have hg2 : ∀ guess ∈ gs, guess.length = (templateFillWord pattern g h).length :=
        fun guess hm => (hg guess (by simp [hm])).trans hl.symm
      have hh2 : ∀ hv ∈ hs, hv.length = (templateFillWord pattern g h).length :=
        fun hv hm => (hh hv (by simp [hm])).trans hl.symm
      simp only [templateFill]
      cases k with
      | zero =>
        have h0 : h[j]? = some HintType.CORRECT := by simpa [Spec.hintAt] using hk
        have hno : ∀ i, Spec.hintAt hs i j ≠ some HintType.CORRECT := fun i => by
          simpa [Spec.hintAt] using hlast (i + 1) (Nat.succ_pos i)
        rw [((templateFill_spec _ gs hs hlen hg2 hh2).2 j).1 hno,
          templateFillWord_getElem pattern g h hg0 hh0 j, if_pos h0]
        simp [Spec.letterAt]
      | succ k =>
        have := ih (templateFillWord pattern g h) hs hlen hg2 hh2 k
          (by simpa [Spec.hintAt] using hk)
          (fun i hi => by simpa [Spec.hintAt] using hlast (i + 1) (Nat.succ_lt_succ hi))
        simpa [Spec.letterAt] using this

/-- C31 (counterexample): the arguments are valid (`computeTemplate` returns), the pairs
0 and 1 both have a `CORRECT` hint at position 0, and the template holds at position 0
the letter "e" of the later guess "email", not the letter "a" of the earlier guess
"amble". -/
theorem computeTemplate_later_guess_overwrites :
    computeTemplate 5 ["amble".toList, "email".toList]
      [[HintType.CORRECT, HintType.WRONG, HintType.WRONG, HintType.WRONG, HintType.WRONG],
       [HintType.CORRECT, HintType.WRONG, HintType.WRONG, HintType.WRONG, HintType.WRONG]]
      = .ok "e....".toList ∧
    Spec.letterAt ["amble".toList, "email".toList] 0 0 = some 'a' ∧
    "e....".toList[0]? ≠ Spec.letterAt ["amble".toList, "email".toList] 0 0 := by
  decide

/-- C31 (amended): for valid arguments of `computeTemplate` and a position `j`, the
template character at `j` is `guesses[k][j]` for the last pair `k` that has a `CORRECT`
hint at `j` (a later guess overwrites an earlier `CORRECT` position); and it is
`guesses[i][j]` for any pair `i` with a `CORRECT` hint at `j` when all the guesses with a
`CORRECT` hint at `j` carry the same letter there. -/
theorem computeTemplate_last_wins (size : Nat) (guesses : List Word)
    (hints : List (List HintType)) (t : Word)
    (h : computeTemplate size guesses hints = .ok t) (j : Nat) :
    (∀ k, Spec.hintAt hints k j = some HintType.CORRECT →
      (∀ i, k < i → Spec.hintAt hints i j ≠ some HintType.CORRECT) →
      t[j]? = Spec.letterAt guesses k j) ∧
    (∀ i, Spec.hintAt hints i j = some HintType.CORRECT →
      (∀ k, Spec.hintAt hints k j = some HintType.CORRECT →
        Spec.letterAt guesses k j = Spec.letterAt guesses i j) →
      t[j]? = Spec.letterAt guesses i j) := by
  obtain ⟨hlen, hg, hh, _, rfl⟩ := computeTemplate_ok_inv _ _ _ _ h
  have hg2 : ∀ guess ∈ guesses, guess.length = (List.replicate size '.').length := by
    simpa using hg
  have hh2 : ∀ hv ∈ hints, hv.length = (List.replicate size '.').length := by
    simpa using hh
  refine ⟨fun k hk hlast => templateFill_last _ _ _ hlen hg2 hh2 j k hk hlast, ?_⟩
  intro i hi hsame
  obtain ⟨k, hk, hk2⟩ := ((templateFill_spec _ guesses hints hlen hg2 hh2).2 j).2 ⟨i, hi⟩
  rw [hk2, hsame k hk]

/-- C31 (witness): with the guesses "amble" and "email" and a `CORRECT` hint at position
0 for both, the last pair decides; with a `CORRECT` hint at position 1 for "amble" and
"email", which agree there, the letter is the one of the earlier guess. -/
theorem computeTemplate_last_wins_witness :
    "e....".toList[0]? = Spec.letterAt ["amble".toList, "email".toList] 1 0 ∧
    ".m...".toList[1]? = Spec.letterAt ["amble".toList, "email".toList] 0 1 :=
  ⟨(computeTemplate_last_wins 5 ["amble".toList, "email".toList]
      [[HintType.CORRECT, HintType.WRONG, HintType.WRONG, HintType.WRONG, HintType.WRONG],
       [HintType.CORRECT, HintType.WRONG, HintType.WRONG, HintType.WRONG, HintType.WRONG]]
      "e....".toList (by decide) 0).1 1 (by decide)
      (fun i hi => by
        have h2 : Spec.hintAt
            [[HintType.CORRECT, HintType.WRONG, HintType.WRONG, HintType.WRONG,
              HintType.WRONG],
             [HintType.CORRECT, HintType.WRONG, HintType.WRONG, HintType.WRONG,
              HintType.WRONG]] i 0 = none := by
          obtain ⟨m, rfl⟩ : ∃ m, i = m + 2 := ⟨i - 2, by omega⟩
          simp [Spec.hintAt]
        rw [h2]
        simp),
   (computeTemplate_last_wins 5 ["amble".toList, "email".toList]
      [[HintType.WRONG, HintType.CORRECT, HintType.WRONG, HintType.WRONG, HintType.WRONG],
       [HintType.WRONG, HintType.CORRECT, HintType.WRONG, HintType.WRONG, HintType.WRONG]]
      ".m...".toList (by decide) 1).2 0 (by decide)
      (fun k hk => by
        match k with
        | 0 => rfl
        | 1 => decide
        | m + 2 => simp [Spec.hintAt] at hk)⟩

/-! ## Solver: the true solution stays -/

/-- C34: when `s` is among the potential solutions, `addHint(g, hints)` is accepted and
`hints` is `computeHints(g, s)`, then `s` is still among the potential solutions after
the call. -/
theorem addHint_keeps_solution (s : Solver) (guess solution : Word)
    (hints : List HintType) (hs : solution ∈ s.getPotentialSolutions)
    (hok : (s.addHint guess hints).2 = .ok ())
    (hh : computeHints guess solution = .ok hints) :
    solution ∈ (s.addHint guess hints).1.getPotentialSolutions := by
  have hm := matches_of_computeHints guess solution hints hh
  unfold Solver.addHint at hok ⊢
  split_ifs at hok ⊢ with h1 h2 h3
  simp only [Solver.getPotentialSolutions, List.mem_filter, Bool.not_not] at hs ⊢
  exact ⟨hs, hm⟩

/-- C34 (witness): the hints of "maree" against "email" keep "email" among the potential
solutions of the sample solver. -/
theorem addHint_keeps_solution_witness :
    "email".toList ∈ (sampleSolver.addHint "maree".toList
      [HintType.MISPLACED, HintType.MISPLACED, HintType.WRONG, HintType.MISPLACED,
        HintType.WRONG]).1.getPotentialSolutions :=
  addHint_keeps_solution sampleSolver "maree".toList "email".toList
    [HintType.MISPLACED, HintType.MISPLACED, HintType.WRONG, HintType.MISPLACED,
      HintType.WRONG] (by decide) (by decide) (by decide)

/-! ## Game: the histories of a reachable state -/

/-- The hints that `computeHints` returns are all `CORRECT` exactly when the word is the
solution. -/
theorem computeHints_all_correct_iff (word solution : Word) (hints : List HintType)
    (h : computeHints word solution = .ok hints) :
    (∀ x ∈ hints, x = HintType.CORRECT) ↔ word = solution := by
  obtain ⟨hlen, _, hhl⟩ := computeHints_ok_inv _ _ _ h
  constructor
  · intro hall
    apply List.ext_getElem? 
    intro i
    by_cases hi : i < word.length
    · have hih : i < hints.length := hhl ▸ hi
      have h1 : hints[i]? = some HintType.CORRECT := by
        rw [List.getElem?_eq_getElem hih, hall _ (List.getElem_mem hih)]
      exact ((computeHints_correct_iff _ _ _ h i).1 h1).2
    · rw [List.getElem?_eq_none (by omega), List.getElem?_eq_none (by omega)]
  · intro heq x hx
    obtain ⟨i, hi, rfl⟩ := List.getElem_of_mem hx
    have h1 := (computeHints_correct_iff _ _ _ h i).2 ⟨hhl ▸ hi, by rw [heq]⟩
    rw [List.getElem?_eq_getElem hi] at h1
    exact Option.some.inj h1

/-- The test `std::count(hints, CORRECT) == std::size(hints)` of `tryGuess` holds exactly
when the word is the solution. -/
theorem computeHints_count_iff (word solution : Word) (hints : List HintType)
    (h : computeHints word solution = .ok hints) :
    hints.count HintType.CORRECT = hints.length ↔ word = solution := by
  rw [List.count_eq_length, ← computeHints_all_correct_iff word solution hints h]
  constructor
  · intro hall x hx
    exact (hall x hx).symm
  · intro hall x hx
    exact (hall x hx).symm

/-- In every reachable game state a game that has not started is not won. -/
theorem Game.Reachable.not_won {g : Game} (hr : g.Reachable) :
    g.m_start = false → g.m_win = false := by
  induction hr with
  | create rules => simp [Game.init]
  | setWord g word _ ih =>
    unfold Game.setWord
    split_ifs <;> exact ih
  | start g _ ih =>
    unfold Game.start
    split_ifs with h1 h2
    · exact ih
    · exact ih
    · intro h
      simp at h
  | tryGuess g word _ ih =>
    unfold Game.tryGuess
    split_ifs with h1 h2 h3
    · exact ih
    · exact ih
    · exact ih
    · have hs : g.m_start = true := by simpa [Game.hasStarted] using h1
      cases hc : computeHints word g.m_word <;> simp [hc, hs]
  | reset g _ ih => simp [Game.reset]
  | setRules g rules _ ih =>
    cases rules with
    | none => exact ih
    | some rules =>
      simp only [Game.setRules]
      by_cases h1 : g.m_rules.addr = rules.addr
      · rw [if_pos h1]
        exact ih
      · rw [if_neg h1]
        cases hs : g.m_start
        · cases hv : rules.obj.isSolutionValid g.m_word <;>
            simp [Game.hasStarted, hs, hv, ih hs]
        · cases hv : rules.obj.isSolutionValid [] <;>
            simp [Game.hasStarted, Game.reset, hs, hv]

/-- In every reachable game state over a dictionary of lower-case words, `computeHints`
returned for every tried guess, the hint history holds these hints in order, and the game
is won exactly when the last tried guess is the secret word. -/
theorem Game.Reachable.history {g : Game} (hr : g.Reachable) :
    g.m_rules.obj.getDictionary.isLowercase →
    List.Forall₂ (fun w h => computeHints w g.m_word = .ok h) g.m_guesses g.m_hints ∧
      (g.m_win = true ↔ g.m_guesses.getLast? = some g.m_word) := by
  induction hr with
  | create rules => intro _; simp [Game.init]
  | setWord g word hr ih =>
    intro hd
    unfold Game.setWord at hd ⊢
    split_ifs at hd ⊢ with h1 h2
    · exact ih hd
    · exact ih hd
    · cases hs : g.m_start
      · have hg := hr.hints_eq.2 hs
        have hh := hr.hints_eq.1
        rw [hg] at hh
        simp [hg, hh, hr.not_won hs]
      · simp only [hs, Bool.true_and, decide_eq_true_eq, Decidable.not_not] at h2
        subst h2
        exact ih hd
  | start g _ ih =>
    intro hd
    unfold Game.start at hd ⊢
    split_ifs at hd ⊢ with h1 h2
    · exact ih hd
    · exact ih hd
    · exact ih hd
  | tryGuess g word hr ih =>
    intro hd
    have hrules : (g.tryGuess word).1.m_rules = g.m_rules := by
      unfold Game.tryGuess
      split_ifs
      · rfl
      · rfl
      · rfl
      · cases hc : computeHints word g.m_word <;> simp [hc]
    rw [hrules] at hd
    unfold Game.tryGuess
    split_ifs with h1 h2 h3
    · exact ih hd
    · exact ih hd
    · exact ih hd
    · have hs : g.hasStarted = true := by simpa using h1
      have hv : g.m_rules.obj.isGuessValid word g.m_word = true := by simpa using h3
      obtain ⟨hints, hc⟩ := hr.hints_exist hd hs word hv
      simp only [hc]
      refine ⟨List.rel_append (ih hd).1 (List.Forall₂.cons hc List.Forall₂.nil), ?_⟩
      simp only [decide_eq_true_eq, List.getLast?_append, List.getLast?_singleton,
        Option.or, Option.some.injEq]
      exact computeHints_count_iff word g.m_word hints hc
  | reset g _ ih => intro _; simp [Game.reset]
  | setRules g rules hr ih =>
    cases rules with
    | none => exact ih
    | some rules =>
      simp only [Game.setRules]
      by_cases h1 : g.m_rules.addr = rules.addr
      · rw [if_pos h1]
        exact ih
      · rw [if_neg h1]
        intro _
        cases hs : g.m_start
        · have hg := hr.hints_eq.2 hs
          have hh := hr.hints_eq.1
          rw [hg] at hh
          cases hv : rules.obj.isSolutionValid g.m_word <;>
            simp [Game.hasStarted, hs, hv, hg, hh, hr.not_won hs]
        · cases hv : rules.obj.isSolutionValid [] <;>
            simp [Game.hasStarted, Game.reset, hs, hv]

/-- C35: in every reachable game state over a dictionary of lower-case words, the tried
guesses and the hint history have the same length, the hint vector number `i` is
`computeHints` of the guess number `i` against the secret word, and a game that has not
started has no tried guess, no hints and is not won. -/
theorem histories_aligned (g : Game) (hr : g.Reachable)
    (hd : g.m_rules.obj.getDictionary.isLowercase) :
    g.getTriedGuesses.length = g.getGuessesHints.length ∧
    (∀ (i : Nat) (w : Word), g.getTriedGuesses[i]? = some w →
      ∃ h, g.getGuessesHints[i]? = some h ∧ computeHints w g.getWord = .ok h) ∧
    (g.hasStarted = false →
      g.getTriedGuesses = [] ∧ g.getGuessesHints = [] ∧ g.isWon = false) := by
  have hf := (hr.history hd).1
  simp only [Game.getTriedGuesses, Game.getGuessesHints, Game.getWord, Game.hasStarted,
    Game.isWon]
  refine ⟨hf.length_eq, ?_, ?_⟩
  · intro i w hw
    obtain ⟨hi, rfl⟩ := List.getElem?_eq_some_iff.1 hw
    have hi2 : i < g.m_hints.length := hf.length_eq ▸ hi
    refine ⟨g.m_hints[i], List.getElem?_eq_getElem hi2, ?_⟩
    have := List.Forall₂.get hf hi hi2
    simpa using this
  · intro hs
    have hg := hr.hints_eq.2 hs
    have hh := hr.hints_eq.1
    rw [hg] at hh
    exact ⟨hg, by simpa using hh, hr.not_won hs⟩

/-- C35 (witness): the sample game after the guess "amble". -/
theorem histories_aligned_witness :
    (sampleGame.tryGuess "amble".toList).1.getTriedGuesses.length
      = (sampleGame.tryGuess "amble".toList).1.getGuessesHints.length ∧
    ∃ h, (sampleGame.tryGuess "amble".toList).1.getGuessesHints[0]? = some h ∧
      computeHints "amble".toList (sampleGame.tryGuess "amble".toList).1.getWord = .ok h :=
  have h := histories_aligned (sampleGame.tryGuess "amble".toList).1
    (Game.Reachable.tryGuess _ _ sampleGame_reachable)
    (by unfold Dictionary.isLowercase; decide)
  ⟨h.1, h.2.1 0 "amble".toList (by decide)⟩

/-- C36 (counterexample): in the reachable game state left by the throwing call
`tryGuess("AB")` on `upperGame`, one guess has been tried and the last tried guess is the
secret word "AB", and yet the game is not won. -/
theorem last_guess_is_secret_not_won :
    (upperGame.tryGuess "AB".toList).1.Reachable ∧
    (upperGame.tryGuess "AB".toList).1.getTriedGuesses = ["AB".toList] ∧
    (upperGame.tryGuess "AB".toList).1.getTriedGuesses.getLast?
      = some (upperGame.tryGuess "AB".toList).1.getWord ∧
    (upperGame.tryGuess "AB".toList).1.isWon = false :=
  ⟨Game.Reachable.tryGuess _ _ upperGame_reachable, by decide, by decide, by decide⟩

/-- C36 (amended): in every reachable game state over a dictionary of lower-case words,
`isWon()` is true exactly when at least one guess has been tried and the last tried guess
is the secret word; and for lower-case `w` and `s` of equal length `computeHints(w, s)`
returns hints that are all `CORRECT` exactly when `w` is `s`. -/
theorem isWon_iff (g : Game) (hr : g.Reachable)
    (hd : g.m_rules.obj.getDictionary.isLowercase) :
    (g.isWon = true ↔
      (g.getTriedGuesses ≠ [] ∧ g.getTriedGuesses.getLast? = some g.getWord)) ∧
    (∀ w s : Word, w.length = s.length → (∀ c ∈ w, islower c = true) →
      (∀ c ∈ s, islower c = true) →
      ∃ hints, computeHints w s = .ok hints ∧
        ((∀ h ∈ hints, h = HintType.CORRECT) ↔ w = s)) := by
  refine ⟨?_, ?_⟩
  · simp only [Game.isWon, Game.getTriedGuesses, Game.getWord]
    rw [(hr.history hd).2]
    constructor
    · intro h
      refine ⟨?_, h⟩
      intro hnil
      rw [hnil] at h
      simp at h
    · exact fun h => h.2
  · intro w s hlen hw hs
    exact ⟨_, computeHints_ok w s hlen hw hs,
      computeHints_all_correct_iff w s _ (computeHints_ok w s hlen hw hs)⟩

/-- C36 (witness): the sample game is won after the guess "email", its secret word, and
not won after the guess "amble". -/
theorem isWon_iff_witness :
    (sampleGame.tryGuess "email".toList).1.isWon = true ∧
    ¬ ((sampleGame.tryGuess "amble".toList).1.isWon = true) :=
  ⟨((isWon_iff (sampleGame.tryGuess "email".toList).1
      (Game.Reachable.tryGuess _ _ sampleGame_reachable)
      (by unfold Dictionary.isLowercase; decide)).1).2 ⟨by decide, by decide⟩,
   fun h => absurd (((isWon_iff (sampleGame.tryGuess "amble".toList).1
      (Game.Reachable.tryGuess _ _ sampleGame_reachable)
      (by unfold Dictionary.isLowercase; decide)).1).1 h).2 (by decide)⟩

/-! ## Templates of a reachable game -/

/-- Two lists related element by element: the element of the second list at the index of
an element of the first. -/
theorem forall₂_getElem? {α β : Type} {R : α → β → Prop} {l₁ : List α} {l₂ : List β}
    (h : List.Forall₂ R l₁ l₂) (i : Nat) (a : α) (ha : l₁[i]? = some a) :
    ∃ b, l₂[i]? = some b ∧ R a b := by
  obtain ⟨hi, rfl⟩ := List.getElem?_eq_some_iff.1 ha
  have hi2 : i < l₂.length := h.length_eq ▸ hi
  refine ⟨l₂[i], List.getElem?_eq_getElem hi2, ?_⟩
  have := List.Forall₂.get h hi hi2
  simpa using this

/-- Guesses for which `computeHints` returned the hints of the history: the guesses are
lower-case words of the length of the solution, and so long are the hint vectors. -/
theorem forall₂_computeHints (solution : Word) (guesses : List Word)
    (hints : List (List HintType))
    (h : List.Forall₂ (fun w hv => computeHints w solution = .ok hv) guesses hints) :
    (∀ guess ∈ guesses, guess.length = solution.length) ∧
    (∀ hintVector ∈ hints, hintVector.length = solution.length) ∧
    (∀ guess ∈ guesses, ∀ c ∈ guess, islower c = true) := by
  induction h with
  | nil => simp
  | cons hc _ ih =>
    obtain ⟨h1, h2, h3⟩ := computeHints_ok_inv _ _ _ hc
    refine ⟨?_, ?_, ?_⟩
    · intro guess hm
      rcases List.mem_cons.1 hm with rfl | hm
      · exact h1
      · exact ih.1 guess hm
    · intro hv hm
      rcases List.mem_cons.1 hm with rfl | hm
      · exact h3.trans h1
      · exact ih.2.1 hv hm
    · intro guess hm
      rcases List.mem_cons.1 hm with rfl | hm
      · exact h2
      · exact ih.2.2 guess hm

/-- In a reachable game state over a dictionary of lower-case words `computeTemplate`
returns on the histories of the game. -/
theorem Game.Reachable.template_ok {g : Game} (hr : g.Reachable)
    (hd : g.m_rules.obj.getDictionary.isLowercase) :
    computeTemplate g.m_word.length g.m_guesses g.m_hints
      = .ok (templateFill (List.replicate g.m_word.length '.') g.m_guesses g.m_hints) := by
  have hf := (hr.history hd).1
  obtain ⟨h1, h2, h3⟩ := forall₂_computeHints _ _ _ hf
  exact computeTemplate_eq _ _ _ hf.length_eq h1 h2 h3

/-- In a reachable game state over a dictionary of lower-case words that is won, the
pattern of `computeTemplate` is the secret word. -/
theorem Game.Reachable.template_won {g : Game} (hr : g.Reachable)
    (hd : g.m_rules.obj.getDictionary.isLowercase) (hwin : g.m_win = true) (t : Word)
    (ht : computeTemplate g.m_word.length g.m_guesses g.m_hints = .ok t) :
    t = g.m_word := by
  have hf := (hr.history hd).1
  have hlast := (hr.history hd).2.1 hwin
  have hl := computeTemplate_length _ _ _ _ ht
  obtain ⟨hlen, hg, hh, _, rfl⟩ := computeTemplate_ok_inv _ _ _ _ ht
  rw [List.getLast?_eq_getElem?] at hlast
  obtain ⟨hv, hhv, hc⟩ := forall₂_getElem? hf _ _ hlast
  have hspec := templateFill_spec (List.replicate g.m_word.length '.') g.m_guesses
    g.m_hints hlen (by simpa using hg) (by simpa using hh)
  apply List.ext_getElem?
  intro j
  by_cases hj : j < g.m_word.length
  · have hcor : Spec.hintAt g.m_hints (g.m_guesses.length - 1) j
        = some HintType.CORRECT := by
      simp only [Spec.hintAt, hhv, Option.some_bind]
      exact (computeHints_correct_iff _ _ _ hc j).2 ⟨hj, rfl⟩
    obtain ⟨i, hi, hi2⟩ := (hspec.2 j).2 ⟨_, hcor⟩
    rw [hi2, hr.correct_letter hlen i j hi]
  · rw [List.getElem?_eq_none (by omega), List.getElem?_eq_none (by omega)]

/-- C37: in every reachable game state over a dictionary of lower-case words whose
secret word is not empty, `computeTemplate` returns on the histories of the game, and
`getTemplate`, of the Motus or of the Wordle rules, returns a template that has the
length of the secret word, whose characters are dots or the letters of the secret word
at their positions, and that is the secret word when the game is won. -/
theorem getTemplate_reachable (r : GameRules) (g : Game) (hr : g.Reachable)
    (hd : g.m_rules.obj.getDictionary.isLowercase) (hw : g.getWord ≠ []) :
    (∃ t0, computeTemplate g.getWord.length g.getTriedGuesses g.getGuessesHints
      = .ok t0) ∧
    ∃ t, r.getTemplate g = .ok t ∧ t.length = g.getWord.length ∧
      (∀ (j : Nat) (c : Char), t[j]? = some c → c = '.' ∨ g.getWord[j]? = some c) ∧
      (g.isWon = true → t = g.getWord) := by
  have ht := hr.template_ok hd
  have hl := computeTemplate_length _ _ _ _ ht
  have hletter : ∀ (j : Nat) (c : Char),
      (templateFill (List.replicate g.m_word.length '.') g.m_guesses g.m_hints)[j]?
        = some c → c = '.' ∨ g.m_word[j]? = some c := by
    intro j c hj
    by_cases hc : c = '.'
    · exact Or.inl hc
    · exact Or.inr (hr.template_letter _ ht j c hj hc)
  refine ⟨⟨_, ht⟩, ?_⟩
  cases r with
  | wordle fd m =>
    exact ⟨_, GameRules.getTemplate_wordle fd m g _ hw ht, hl, hletter,
      fun hwin => hr.template_won hd hwin _ ht⟩
  | motus d m =>
    obtain ⟨c0, hc0, hm⟩ := GameRules.getTemplate_motus d m g _ hw ht
    refine ⟨_, hm, by simpa using hl, ?_, ?_⟩
    · intro j c hj
      rw [List.getElem?_set] at hj
      by_cases h0 : 0 = j
      · rw [if_pos h0] at hj
        split_ifs at hj
        right
        rw [← h0, ← hj]
        exact hc0
      · rw [if_neg h0] at hj
        exact hletter j c hj
    · intro hwin
      rw [hr.template_won hd hwin _ ht]
      simp only [Game.getWord] at hc0 ⊢
      cases hword : g.m_word with
      | nil => simp
      | cons a l =>
        rw [hword] at hc0
        simp only [List.getElem?_cons_zero, Option.some.injEq] at hc0
        simp [hc0]

/-- C37 (witness): the sample game, with the secret word "email", after the winning guess
"email": the Motus template is the secret word. -/
theorem getTemplate_reachable_witness :
    ∃ t, sampleMotus.obj.getTemplate (sampleGame.tryGuess "email".toList).1 = .ok t ∧
      t.length = (sampleGame.tryGuess "email".toList).1.getWord.length ∧
      (∀ (j : Nat) (c : Char), t[j]? = some c →
        c = '.' ∨ (sampleGame.tryGuess "email".toList).1.getWord[j]? = some c) ∧
      ((sampleGame.tryGuess "email".toList).1.isWon = true →
        t = (sampleGame.tryGuess "email".toList).1.getWord) :=
  (getTemplate_reachable sampleMotus.obj (sampleGame.tryGuess "email".toList).1
    (Game.Reachable.tryGuess _ _ sampleGame_reachable)
    (by unfold Dictionary.isLowercase; decide) (by decide)).2

/-! ## Solver: the candidates of a reachable state -/

/-- In every reachable solver state the potential guesses are the dictionary words that
are valid guesses for the template, and every potential solution is a valid solution
that the template does not reject; without a template there is no candidate. -/
theorem Solver.Reachable.candidates {s : Solver} (hr : s.Reachable) :
    (∀ w, w ∈ s.m_potentialGuesses ↔
      (s.m_wordTemplate ≠ [] ∧ w ∈ s.m_rules.obj.getDictionary.getAllWords ∧
        s.m_rules.obj.isGuessValid w s.m_wordTemplate = true)) ∧
    (∀ w ∈ s.m_potentialSolutions,
      s.m_wordTemplate ≠ [] ∧ s.m_rules.obj.isSolutionValid w = true ∧
        templateRejects s.m_wordTemplate w = false) := by
  induction hr with
  | create rules => simp [Solver.init]
  | setTemplate s t _ ih =>
    by_cases hvalid : Spec.validTemplate (t.map tolower)
    · by_cases hne : t = []
      · subst hne
        rw [setTemplate_nil]
        simp [Solver.reset]
      · rw [setTemplate_of_valid s t hne hvalid]
        have hne2 : t.map tolower ≠ [] := by simpa using hne
        refine ⟨fun w => ?_, fun w hw => ?_⟩
        · simp [List.mem_filter, hne]
        · simp only [List.mem_filter, Bool.not_eq_eq_eq_not, Bool.not_true] at hw
          exact ⟨hne2, hw.1.2, hw.2⟩
    · have hv : ¬ (t.map tolower).all
          (fun c => decide (c = '.') || (decide (c ≥ 'a') && decide (c ≤ 'z'))) = true :=
        fun h => hvalid ((validTemplate_iff _).1 h)
      unfold Solver.setTemplate
      simp only [hv, Bool.not_eq_true] at *
      simpa [hv] using ih
  | addHint s guess hints _ ih =>
    unfold Solver.addHint
    split_ifs
    · exact ih
    · exact ih
    · exact ih
    · exact ⟨ih.1, fun w hw => ih.2 w (List.mem_filter.1 hw).1⟩
  | reset s _ ih => simp [Solver.reset]
  | setRules s rules _ ih =>
    cases rules with
    | none => exact ih
    | some rules =>
      simp only [Solver.setRules]
      split_ifs
      · exact ih
      · simp [Solver.reset]

/-- C39: in every reachable solver state (so in every state reached by `setTemplate`
followed by `addHint` calls), under Wordle rules, and under Motus rules when the first
character of the template is not the dot, every potential solution is also a potential
guess. -/
theorem solutions_are_guesses (s : Solver) (hr : s.Reachable)
    (h : (∃ fd m, s.m_rules.obj = GameRules.wordle fd m) ∨
      (∃ c, s.getTemplate.head? = some c ∧ c ≠ '.')) :
    ∀ w ∈ s.getPotentialSolutions, w ∈ s.getPotentialGuesses := by
  intro w hw
  obtain ⟨hne, hsol, hrej⟩ := hr.candidates.2 w hw
  have hcar := (templateRejects_eq_false_iff _ _).1 hrej
  simp only [Solver.getPotentialGuesses]
  rw [hr.candidates.1 w]
  refine ⟨hne, GameRules.isSolutionValid_mem _ _ hsol, ?_⟩
  simp only [Solver.getTemplate] at h
  cases hrules : s.m_rules.obj with
  | wordle fd m =>
    rw [hrules] at hsol
    simp only [GameRules.isSolutionValid, Bool.and_eq_true, decide_eq_true_eq] at hsol
    simp only [GameRules.isGuessValid, Bool.and_eq_true, decide_eq_true_eq]
    exact ⟨⟨hcar.1.symm.trans hsol.1, hsol.1⟩, hsol.2⟩
  | motus d m =>
    rw [hrules] at hsol h
    rcases h with ⟨fd, m2, hfd⟩ | ⟨c, hc, hdot⟩
    · cases hfd
    · simp only [GameRules.isSolutionValid, Bool.and_eq_true, Bool.not_eq_eq_eq_not,
        Bool.not_true] at hsol
      have hhead : w.head? = s.m_wordTemplate.head? := by
        have h0 := hcar.2 0 (List.length_pos.2 hne)
        rw [← List.head?_eq_getElem?, ← List.head?_eq_getElem?] at h0
        exact h0 (by rw [hc]; simpa using hdot)
      simp only [GameRules.isGuessValid, List.isEmpty_eq_true, hne, if_false,
        Bool.and_eq_true, decide_eq_true_eq]
      exact ⟨⟨hcar.1, hhead⟩, hsol.2⟩

/-- C39 (witness): the potential solution "email" of the sample solver, under Wordle
rules, is a potential guess. -/
theorem solutions_are_guesses_witness :
    "email".toList ∈ sampleSolver.getPotentialGuesses :=
  solutions_are_guesses sampleSolver sampleSolver_reachable
    (Or.inl ⟨_, _, rfl⟩) "email".toList (by decide)

/-- C38: in every reachable solver state with a non-empty template, over a dictionary of
lower-case words, `computeNextGuesses(n)` returns; every potential guess and every
potential solution have the same length, and `computeHints` returns on them. -/
theorem computeNextGuesses_total {F : Type} [LinearOrderedField F] (log2 : F → F)
    (s : Solver) (n : Nat) (hr : s.Reachable)
    (hd : s.m_rules.obj.getDictionary.isLowercase) (ht : s.getTemplate ≠ []) :
    (∃ l, s.computeNextGuesses log2 n = .ok l) ∧
    ∀ guess ∈ s.getPotentialGuesses, ∀ solution ∈ s.getPotentialSolutions,
      guess.length = solution.length ∧
        ∃ hints, computeHints guess solution = .ok hints := by
  have hall : ∀ guess ∈ s.getPotentialGuesses, ∀ solution ∈ s.getPotentialSolutions,
      guess.length = solution.length ∧
        ∃ hints, computeHints guess solution = .ok hints := by
    intro guess hg solution hs
    obtain ⟨_, hgm, hgv⟩ := (hr.candidates.1 guess).1 hg
    obtain ⟨_, hsv, hrej⟩ := hr.candidates.2 solution hs
    have hcar := (templateRejects_eq_false_iff _ _).1 hrej
    have hlen : guess.length = solution.length :=
      (GameRules.isGuessValid_mem _ _ _ hgv).1.trans hcar.1.symm
    exact ⟨hlen, _, computeHints_ok guess solution hlen (hd guess hgm)
      (hd solution (GameRules.isSolutionValid_mem _ _ hsv))⟩
  exact ⟨computeNextGuesses_ok log2 s n ht (fun guess hg solution hs =>
    (hall guess hg solution hs).2), hall⟩

/-- C38 (witness): `computeNextGuesses(2)` returns on the sample solver, for the real
numbers and the logarithm in base 2. -/
theorem computeNextGuesses_total_witness :
    ∃ l, sampleSolver.computeNextGuesses (Real.logb 2) 2 = .ok l :=
  (computeNextGuesses_total (Real.logb 2) sampleSolver 2 sampleSolver_reachable
    (by unfold Dictionary.isLowercase; decide) (by decide)).1

/-! ## Entropy solver: the entries of the returned list -/

/-- The list that the outer loop of `computeNextGuesses` builds holds the words of the
initial list and every guess once, and each new entry pairs a guess with its expected
entropy. -/
theorem evaluateGuesses_entries {F : Type} [LinearOrderedField F] (log2 : F → F)
    (s : Solver) (guesses : List Word) (acc l : List (Word × F))
    (h : evaluateGuesses log2 s guesses acc = .ok l) :
    List.Perm (l.map Prod.fst) (guesses ++ acc.map Prod.fst) ∧
      ∀ e ∈ l, e ∈ acc ∨ s.computeExpectedEntropy log2 e.1 = .ok e.2 := by
  induction guesses generalizing acc with
  | nil =>
    simp only [evaluateGuesses, Except.ok.injEq] at h
    subst h
    exact ⟨by simp, fun e he => Or.inl he⟩
  | cons g gs ih =>
    unfold evaluateGuesses at h
    split at h
    · cases h
    · rename_i x hx
      obtain ⟨hp, he⟩ := ih _ h
      have hins := insertGuess_perm s.getPotentialSolutions g x acc
      refine ⟨?_, ?_⟩
      · refine hp.trans ?_
        refine (List.Perm.append_left gs (hins.map Prod.fst)).trans ?_
        simp only [List.map_cons, List.cons_append]
        exact List.perm_middle
      · intro e hmem
        rcases he e hmem with h1 | h1
        · rcases List.mem_cons.1 (hins.mem_iff.1 h1) with rfl | h2
          · exact Or.inr hx
          · exact Or.inl h2
        · exact Or.inr h1

/-- When at least two potential solutions are left and the template is set,
`computeNextGuesses(m)` returns the first `m` entries of the list that the outer loop
builds. -/
theorem computeNextGuesses_of_evaluate {F : Type} [LinearOrderedField F] (log2 : F → F)
    (s : Solver) (entropies : List (Word × F)) (ht : s.getTemplate ≠ [])
    (h2 : 2 ≤ s.getPotentialSolutions.length)
    (h : evaluateGuesses log2 s s.getPotentialGuesses [] = .ok entropies) (m : Nat) :
    s.computeNextGuesses log2 m = .ok (entropies.take m) := by
  unfold Solver.computeNextGuesses
  rw [if_neg (by simpa using ht)]
  split
  · rename_i heq
    simp [heq] at h2
  · rename_i heq
    simp [heq] at h2
  · rw [h]
    simp only [Except.ok.injEq]
    rw [List.take_eq_take]
    simp

/-- When at least two potential solutions are left and `computeNextGuesses(n)`
returns, the list has `min(n, number of potential guesses)` entries; and
`computeNextGuesses(number of potential guesses)` returns a list whose words are the
potential guesses, each once, and each is paired with its `computeExpectedEntropy`. -/
theorem computeNextGuesses_entries {F : Type} [LinearOrderedField F] (log2 : F → F)
    (s : Solver) (n : Nat) (l : List (Word × F))
    (h2 : 2 ≤ s.getPotentialSolutions.length)
    (h : s.computeNextGuesses log2 n = .ok l) :
    l.length = min n s.getPotentialGuesses.length ∧
    ∃ full, s.computeNextGuesses log2 s.getPotentialGuesses.length = .ok full ∧
      List.Perm (full.map Prod.fst) s.getPotentialGuesses ∧
      (∀ e ∈ full, s.computeExpectedEntropy log2 e.1 = .ok e.2) := by
  have ht : s.getTemplate ≠ [] := by
    intro ht
    unfold Solver.computeNextGuesses at h
    rw [if_pos (by simpa using ht)] at h
    cases h
  obtain ⟨entropies, hev, rfl⟩ := computeNextGuesses_eq_take log2 s n l h2 h
  obtain ⟨hp, he⟩ := evaluateGuesses_entries log2 s _ _ _ hev
  simp only [List.map_nil, List.append_nil] at hp
  have hl : entropies.length = s.getPotentialGuesses.length := by
    simpa using hp.length_eq
  refine ⟨by rw [List.length_take, hl], entropies, ?_, hp, ?_⟩
  · have := computeNextGuesses_of_evaluate log2 s entropies ht h2 hev
      s.getPotentialGuesses.length
    rw [this, ← hl, List.take_length]
  · intro e hmem
    rcases he e hmem with h1 | h1
    · simp at h1
    · exact h1

/-! ## `computeHints`: the number of hints for a letter -/

/-- The first loop of `computeHints` takes from the remaining letters one occurrence of
`c` for every position where both words hold `c`. -/
theorem computeHintsCorrect_count (word solution : Word) (rem : List Char) (c : Char) :
    (computeHintsCorrect word solution rem).2.count c
      = rem.count c - Spec.matchCount c word solution := by
  induction word generalizing solution rem with
  | nil => simp [computeHintsCorrect, Spec.matchCount]
  | cons w ws ih =>
    cases solution with
    | nil => simp [computeHintsCorrect, Spec.matchCount]
    | cons s ss =>
      have ih1 := ih ss (rem.erase w)
      have ih2 := ih ss rem
      simp only [Spec.matchCount] at ih1 ih2 ⊢
      simp only [computeHintsCorrect, List.zip_cons_cons, List.countP_cons]
      by_cases hws : w = s
      · subst hws
        simp only [if_true, ih1, List.count_erase, decide_True, Bool.true_and]
        by_cases hc : w = c
        · subst hc
          simp
          omega
        · simp [hc]
      · simp only [if_neg hws, ih2]
        simp [hws]

/-- After the first loop of `computeHints` the positions with the letter `c` and the hint
`CORRECT` are the positions where both words hold `c`, and with the other positions of
`c` they make up the occurrences of `c` in `word`. -/
theorem computeHintsCorrect_hintCount (word solution : Word) (rem : List Char) (c : Char)
    (hlen : word.length = solution.length) :
    Spec.hintCount (fun h => decide (h = HintType.CORRECT)) c word
        (computeHintsCorrect word solution rem).1 = Spec.matchCount c word solution ∧
    Spec.hintCount (fun h => !decide (h = HintType.CORRECT)) c word
        (computeHintsCorrect word solution rem).1 + Spec.matchCount c word solution
      = word.count c := by
  induction word generalizing solution rem with
  | nil => simp [computeHintsCorrect, Spec.matchCount, Spec.hintCount]
  | cons w ws ih =>
    cases solution with
    | nil => simp at hlen
    | cons s ss =>
      simp only [List.length_cons, add_left_inj] at hlen
      have ih1 := ih ss (rem.erase w) hlen
      have ih2 := ih ss rem hlen
      simp only [Spec.matchCount, Spec.hintCount] at ih1 ih2 ⊢
      simp only [computeHintsCorrect, List.zip_cons_cons, List.countP_cons,
        List.count_cons]
      by_cases hws : w = s
      · subst hws
        simp only [if_true, List.zip_cons_cons, List.countP_cons, ih1.1]
        by_cases hc : w = c
        · subst hc
          simp
          have := ih1.2
          omega
        · simp [hc]
          exact ih1.2
      · simp only [if_neg hws, List.zip_cons_cons, List.countP_cons, ih2.1]
        by_cases hc : w = c
        · subst hc
          simp [hws]
          have := ih2.2
          omega
        · simp [hc, hws]
          exact ih2.2

/-- The positions where both words hold the letter `c` are at most the occurrences of `c`
in `solution`. -/
theorem Spec.matchCount_le (c : Char) (word solution : Word) :
    Spec.matchCount c word solution ≤ solution.count c := by
  induction word generalizing solution with
  | nil => simp [Spec.matchCount]
  | cons w ws ih =>
    cases solution with
    | nil => simp [Spec.matchCount]
    | cons s ss =>
      have := ih ss
      simp only [Spec.matchCount] at this ⊢
      simp only [List.zip_cons_cons, List.countP_cons, List.count_cons]
      by_cases hws : w = s
      · subst hws
        by_cases hc : w = c
        · subst hc
          simp
          exact this
        · simp [hc]
          exact this
      · simp [hws]
        omega

/-- The second loop of `computeHints` keeps the `CORRECT` hints, and gives a `MISPLACED`
hint to as many of the other positions with the letter `c` as there are occurrences of
`c` among the remaining letters. -/
theorem computeHintsMisplaced_hintCount (word : Word) (hints : List HintType)
    (rem : List Char) (c : Char) (hno : ∀ h ∈ hints, h ≠ HintType.MISPLACED)
    (hlen : word.length = hints.length) :
    Spec.hintCount (fun h => decide (h = HintType.CORRECT)) c word
        (computeHintsMisplaced word hints rem)
      = Spec.hintCount (fun h => decide (h = HintType.CORRECT)) c word hints ∧
    Spec.hintCount (fun h => decide (h = HintType.MISPLACED)) c word
        (computeHintsMisplaced word hints rem)
      = min (Spec.hintCount (fun h => !decide (h = HintType.CORRECT)) c word hints)
          (rem.count c) := by
  induction word generalizing hints rem with
  | nil => simp [computeHintsMisplaced, Spec.hintCount]
  | cons w ws ih =>
    cases hints with
    | nil => simp at hlen
    | cons h hs =>
      simp only [List.length_cons, add_left_inj] at hlen
      have hno2 : ∀ x ∈ hs, x ≠ HintType.MISPLACED := fun x hx => hno x (by simp [hx])
      have hh : h ≠ HintType.MISPLACED := hno h (by simp)
      have ih1 := ih hs (rem.erase w) hno2 hlen
      have ih2 := ih hs rem hno2 hlen
      simp only [Spec.hintCount] at ih1 ih2 ⊢
      simp only [computeHintsMisplaced]
      by_cases hcor : h = HintType.CORRECT
      · subst hcor
        simp only [ne_eq, not_true_eq_false, if_false, List.zip_cons_cons,
          List.countP_cons, ih2.1, ih2.2]
        simp
      · rw [if_pos hcor]
        by_cases hmem : w ∈ rem
        · rw [if_pos hmem]
          simp only [List.zip_cons_cons, List.countP_cons, ih1.1, ih1.2, List.count_erase]
          by_cases hc : w = c
          · subst hc
            have hpos : 0 < rem.count w := List.count_pos_iff.2 hmem
            simp [hcor]
            omega
          · simp [hc]
        · rw [if_neg hmem]
          simp only [List.zip_cons_cons, List.countP_cons, ih2.1, ih2.2]
          by_cases hc : w = c
          · subst hc
            have h0 : rem.count w = 0 := List.count_eq_zero.2 hmem
            simp [hcor, hh, h0]
          · simp [hc]

/-- The positions with the hint `CORRECT` or `MISPLACED` are counted apart. -/
theorem Spec.hintCount_or (c : Char) (word : Word) (hints : List HintType) :
    Spec.hintCount
        (fun h => decide (h = HintType.CORRECT) || decide (h = HintType.MISPLACED)) c word
        hints
      = Spec.hintCount (fun h => decide (h = HintType.CORRECT)) c word hints
        + Spec.hintCount (fun h => decide (h = HintType.MISPLACED)) c word hints := by
  unfold Spec.hintCount
  induction word.zip hints with
  | nil => simp
  | cons p l ih =>
    simp only [List.countP_cons, ih]
    by_cases hc : p.1 = c
    · cases hp : p.2 <;> simp [hc, hp] <;> omega
    · simp [hc]

/-- C33: for lower-case `word` and `solution` of equal length `computeHints` returns;
position `i` of the hints is `CORRECT` exactly when `word[i] == solution[i]`; and for
every letter `c` the number of positions of `word` with the letter `c` whose hint is
`CORRECT` or `MISPLACED` is the smaller of the numbers of occurrences of `c` in `word`
and in `solution`. -/
theorem computeHints_letter_count (word solution : Word)
    (hlen : word.length = solution.length) (hw : ∀ c ∈ word, islower c = true)
    (hs : ∀ c ∈ solution, islower c = true) :
    ∃ hints, computeHints word solution = .ok hints ∧
      (∀ i : Nat, i < word.length →
        (hints[i]? = some HintType.CORRECT ↔ word[i]? = solution[i]?)) ∧
      ∀ c : Char,
        Spec.hintCount
          (fun h => decide (h = HintType.CORRECT) || decide (h = HintType.MISPLACED))
          c word hints
        = min (word.count c) (solution.count c) := by
  have hok := computeHints_ok word solution hlen hw hs
  refine ⟨_, hok, ?_, ?_⟩
  · intro i hi
    rw [computeHints_correct_iff _ _ _ hok i]
    exact ⟨fun h => h.2, fun h => ⟨hi, h⟩⟩
  · intro c
    have hl1 := computeHintsCorrect_length word solution solution hlen
    have h1 := computeHintsCorrect_hintCount word solution solution c hlen
    have h2 := computeHintsCorrect_count word solution solution c
    have h3 := computeHintsMisplaced_hintCount word
      (computeHintsCorrect word solution solution).1
      (computeHintsCorrect word solution solution).2 c
      (computeHintsCorrect_no_misplaced word solution solution) hl1.symm
    have h4 := Spec.matchCount_le c word solution
    rw [Spec.hintCount_or, h3.1, h3.2, h1.1, h2]
    have h5 := h1.2
    omega

/-- C33 (witness): the hints of "maree" against "email"; the letter "e" occurs twice in
"maree" and once in "email", and one position of "e" gets a hint that is `CORRECT` or
`MISPLACED`. -/
theorem computeHints_letter_count_witness :
    ∃ hints, computeHints "maree".toList "email".toList = .ok hints ∧
      (∀ i : Nat, i < "maree".toList.length →
        (hints[i]? = some HintType.CORRECT ↔ "maree".toList[i]? = "email".toList[i]?)) ∧
      ∀ c : Char,
        Spec.hintCount
          (fun h => decide (h = HintType.CORRECT) || decide (h = HintType.MISPLACED))
          c "maree".toList hints
        = min ("maree".toList.count c) ("email".toList.count c) :=
  computeHints_letter_count "maree".toList "email".toList (by decide) (by decide)
    (by decide)

/-! ## Entropy solver: the order of entries with equal scores -/

/-- On the sample solver every potential guess splits the three potential solutions into
three classes, so the three scores are equal, and `computeNextGuesses(3)` returns the
words in the order "maree", "email", "amble". -/
theorem sampleSolver_next_guesses (log2 : ℚ → ℚ) :
    ∃ e : ℚ, sampleSolver.computeNextGuesses log2 3
      = .ok [("maree".toList, e), ("email".toList, e), ("amble".toList, e)] := by
  have hsol : sampleSolver.getPotentialSolutions
      = ["amble".toList, "email".toList, "maree".toList] := by decide
  have hgs : sampleSolver.getPotentialGuesses
      = ["amble".toList, "email".toList, "maree".toList] := by decide
  have ht : sampleSolver.getTemplate.isEmpty = false := by decide
  have h1 : countHints "amble".toList
      ["amble".toList, "email".toList, "maree".toList] [] = .ok
      [([HintType.MISPLACED, HintType.MISPLACED, HintType.WRONG, HintType.WRONG,
          HintType.CORRECT], 1),
       ([HintType.MISPLACED, HintType.CORRECT, HintType.WRONG, HintType.MISPLACED,
          HintType.MISPLACED], 1),
       ([HintType.CORRECT, HintType.CORRECT, HintType.CORRECT, HintType.CORRECT,
          HintType.CORRECT], 1)] := by decide
  have h2 : countHints "email".toList
      ["amble".toList, "email".toList, "maree".toList] [] = .ok
      [([HintType.MISPLACED, HintType.MISPLACED, HintType.MISPLACED, HintType.WRONG,
          HintType.WRONG], 1),
       ([HintType.MISPLACED, HintType.CORRECT, HintType.MISPLACED, HintType.WRONG,
          HintType.MISPLACED], 1),
       ([HintType.CORRECT, HintType.CORRECT, HintType.CORRECT, HintType.CORRECT,
          HintType.CORRECT], 1)] := by decide
  have h3 : countHints "maree".toList
      ["amble".toList, "email".toList, "maree".toList] [] = .ok
      [([HintType.MISPLACED, HintType.MISPLACED, HintType.WRONG, HintType.WRONG,
          HintType.CORRECT], 1),
       ([HintType.MISPLACED, HintType.MISPLACED, HintType.WRONG, HintType.MISPLACED,
          HintType.WRONG], 1),
       ([HintType.CORRECT, HintType.CORRECT, HintType.CORRECT, HintType.CORRECT,
          HintType.CORRECT], 1)] := by decide
  have hm1 : "email".toList ∈ ["amble".toList, "email".toList, "maree".toList] := by
    decide
  have hm2 : "maree".toList ∈ ["amble".toList, "email".toList, "maree".toList] := by
    decide
  refine ⟨0 + -((1 : ℚ) / 3) * log2 ((1 : ℚ) / 3) + -((1 : ℚ) / 3) * log2 ((1 : ℚ) / 3)
    + -((1 : ℚ) / 3) * log2 ((1 : ℚ) / 3), ?_⟩
  simp only [Solver.computeNextGuesses, ht, hsol, hgs, evaluateGuesses,
    Solver.computeExpectedEntropy, h1, h2, h3, List.foldl, List.length, insertGuess,
    lt_self_iff_false, if_false, true_and, hm1, hm2, if_true]
  norm_num

/-- C32 (counterexample): on the sample solver the potential guesses "amble", "email"
and "maree" are all potential solutions and get equal scores, and the returned list
holds them in the order "maree", "email", "amble", the reverse of their order in the
potential guesses. -/
theorem computeNextGuesses_ties_reversed :
    sampleSolver.getPotentialGuesses
      = ["amble".toList, "email".toList, "maree".toList] ∧
    sampleSolver.getPotentialSolutions
      = ["amble".toList, "email".toList, "maree".toList] ∧
    ∀ log2 : ℚ → ℚ, ∃ e : ℚ,
      sampleSolver.computeNextGuesses log2 3
        = .ok [("maree".toList, e), ("email".toList, e), ("amble".toList, e)] :=
  ⟨by decide, by decide, sampleSolver_next_guesses⟩

/-- The inner loop of `computeNextGuesses` leaves the other entries in their order. -/
theorem insertGuess_filter_of_false {F : Type} [LinearOrderedField F]
    (solutions : List Word) (guess : Word) (e : F) (l : List (Word × F))
    (p : Word × F → Bool) (hp : p (guess, e) = false) :
    (insertGuess solutions guess e l).filter p = l.filter p := by
  induction l with
  | nil => simp [insertGuess, hp]
  | cons it rest ih =>
    unfold insertGuess
    split_ifs
    · simp [List.filter_cons, hp]
    · simp [List.filter_cons, hp]
    · simp only [List.filter_cons, ih]

/-- A guess that is not a potential solution goes after the entries of equal score. -/
theorem insertGuess_filter_outside {F : Type} [LinearOrderedField F]
    (solutions : List Word) (guess : Word) (e x : F) (l : List (Word × F))
    (hl : l.Pairwise (Spec.rankedBefore solutions)) (hg : guess ∉ solutions) :
    (insertGuess solutions guess e l).filter (Spec.tiedOutside solutions x)
      = l.filter (Spec.tiedOutside solutions x)
        ++ (if e = x then [(guess, e)] else []) := by
  induction l with
  | nil =>
    by_cases hx : e = x <;> simp [insertGuess, Spec.tiedOutside, hx, hg]
  | cons it rest ih =>
    have hrest := (List.pairwise_cons.1 hl).2
    have hhead := (List.pairwise_cons.1 hl).1
    simp only [insertGuess]
    by_cases h1 : it.2 < e
    · rw [if_pos h1, List.filter_cons]
      by_cases hx : e = x
      · have hnone : (it :: rest).filter (Spec.tiedOutside solutions x) = [] := by
          rw [List.filter_eq_nil_iff]
          intro b hb
          have hble : b.2 < e := by
            rcases List.mem_cons.1 hb with rfl | hb
            · exact h1
            · rcases hhead b hb with h | h
              · exact lt_trans h h1
              · exact h.1 ▸ h1
          have hbx : b.2 ≠ x := hx ▸ ne_of_lt hble
          simp [Spec.tiedOutside, hbx]
        have hnew : Spec.tiedOutside solutions x (guess, e) = true := by
          simp [Spec.tiedOutside, hx, hg]
        rw [hnone, hnew, if_pos hx]
        simp
      · have hnew : Spec.tiedOutside solutions x (guess, e) = false := by
          simp [Spec.tiedOutside, hx]
        rw [hnew, if_neg hx]
        simp
    · rw [if_neg h1, if_neg (fun h => hg h.2), List.filter_cons, ih hrest,
        List.filter_cons]
      split_ifs <;> simp

/-- A guess that is a potential solution goes before the entries of equal score. -/
theorem insertGuess_filter_inside {F : Type} [LinearOrderedField F]
    (solutions : List Word) (guess : Word) (e x : F) (l : List (Word × F))
    (hg : guess ∈ solutions) :
    (insertGuess solutions guess e l).filter (Spec.tiedInside solutions x)
      = (if e = x then [(guess, e)] else [])
        ++ l.filter (Spec.tiedInside solutions x) := by
  have hfront : ∀ l2 : List (Word × F),
      ((guess, e) :: l2).filter (Spec.tiedInside solutions x)
        = (if e = x then [(guess, e)] else [])
          ++ l2.filter (Spec.tiedInside solutions x) := by
    intro l2
    rw [List.filter_cons]
    by_cases hx : e = x
    · have hnew : Spec.tiedInside solutions x (guess, e) = true := by
        simp [Spec.tiedInside, hx, hg]
      rw [hnew, if_pos hx]
      simp
    · have hnew : Spec.tiedInside solutions x (guess, e) = false := by
        simp [Spec.tiedInside, hx]
      rw [hnew, if_neg hx]
      simp
  induction l with
  | nil => simpa [insertGuess] using hfront []
  | cons it rest ih =>
    simp only [insertGuess]
    by_cases h1 : it.2 < e
    · rw [if_pos h1]
      exact hfront _
    · rw [if_neg h1]
      by_cases h2 : it.2 = e
      · rw [if_pos ⟨h2, hg⟩]
        exact hfront _
      · rw [if_neg (fun h => h2 h.1), List.filter_cons, ih]
        by_cases hx : e = x
        · have hit : Spec.tiedInside solutions x it = false := by
            have hne : it.2 ≠ x := fun h => h2 (h.trans hx.symm)
            simp [Spec.tiedInside, hne]
          rw [if_pos hx, hit, List.filter_cons, hit]
          simp
        · rw [if_neg hx, List.filter_cons]
          simp

/-- The outer loop of `computeNextGuesses` and the entries of one score: the words of
those that are not potential solutions follow the initial ones in the order of the
guesses, and the words of those that are potential solutions precede the initial ones in
the reverse order of the guesses. -/
theorem evaluateGuesses_ties {F : Type} [LinearOrderedField F] (log2 : F → F)
    (s : Solver) (guesses : List Word) (acc l : List (Word × F))
    (hacc : acc.Pairwise (Spec.rankedBefore s.getPotentialSolutions))
    (h : evaluateGuesses log2 s guesses acc = .ok l) (x : F) :
    (∃ sub, List.Sublist sub guesses ∧
      (l.filter (Spec.tiedOutside s.getPotentialSolutions x)).map Prod.fst
        = (acc.filter (Spec.tiedOutside s.getPotentialSolutions x)).map Prod.fst ++ sub) ∧
    (∃ sub, List.Sublist sub guesses.reverse ∧
      (l.filter (Spec.tiedInside s.getPotentialSolutions x)).map Prod.fst
        = sub ++ (acc.filter (Spec.tiedInside s.getPotentialSolutions x)).map Prod.fst) := by
  induction guesses generalizing acc with
  | nil =>
    simp only [evaluateGuesses, Except.ok.injEq] at h
    subst h
    exact ⟨⟨[], List.Sublist.refl _, by simp⟩, ⟨[], by simp, by simp⟩⟩
  | cons g gs ih =>
    unfold evaluateGuesses at h
    split at h
    · cases h
    · rename_i e he
      obtain ⟨⟨sub1, hs1, he1⟩, ⟨sub2, hs2, he2⟩⟩ :=
        ih _ (insertGuess_ranked _ _ _ _ hacc) h
      have hone : List.Sublist (if e = x then [g] else []) [g] := by
        split_ifs
        · exact List.Sublist.refl _
        · exact List.nil_sublist _
      by_cases hg : g ∈ s.getPotentialSolutions
      · refine ⟨⟨sub1, List.Sublist.cons g hs1, ?_⟩,
          ⟨sub2 ++ (if e = x then [g] else []), ?_, ?_⟩⟩
        · rw [he1, insertGuess_filter_of_false]
          simp [Spec.tiedOutside, hg]
        · rw [List.reverse_cons]
          exact List.Sublist.append hs2 hone
        · rw [he2, insertGuess_filter_inside _ _ _ _ _ hg, List.map_append,
            List.append_assoc]
          congr 2
          split_ifs <;> simp
      · refine ⟨⟨(if e = x then [g] else []) ++ sub1, ?_, ?_⟩,
          ⟨sub2, ?_, ?_⟩⟩
        · have := List.Sublist.append hone hs1
          simpa using this
        · rw [he1, insertGuess_filter_outside _ _ _ _ _ hacc hg, List.map_append,
            List.append_assoc]
          congr 2
          split_ifs <;> simp
        · rw [List.reverse_cons]
          exact hs2.trans (List.sublist_append_left _ _)
        · rw [he2, insertGuess_filter_of_false]
          simp [Spec.tiedInside, hg]

/-- With at most one potential solution `computeNextGuesses` returns at most one
entry. -/
theorem computeNextGuesses_short {F : Type} [LinearOrderedField F] (log2 : F → F)
    (s : Solver) (n : Nat) (l : List (Word × F))
    (h2 : ¬ 2 ≤ s.getPotentialSolutions.length)
    (h : s.computeNextGuesses log2 n = .ok l) : l.length ≤ 1 := by
  unfold Solver.computeNextGuesses at h
  split_ifs at h
  split at h
  · cases h
    simp
  · cases h
    simp
  · rename_i hnil hone
    exfalso
    apply h2
    cases hsol : s.getPotentialSolutions with
    | nil => exact absurd hsol hnil
    | cons a rest =>
      cases rest with
      | nil => exact absurd hsol (hone a)
      | cons b rest2 => simp

/-- C32 (amended): in the list returned by `computeNextGuesses`, of two entries `a` before
`b` with equal scores, when neither word is a potential solution the words appear in
this order in the potential guesses (the first-encountered word comes first), and when
both words are potential solutions they appear in the reverse order in the potential
guesses (the word encountered later comes first). -/
theorem computeNextGuesses_tie_order {F : Type} [LinearOrderedField F] (log2 : F → F)
    (s : Solver) (n : Nat) (l : List (Word × F))
    (h : s.computeNextGuesses log2 n = .ok l) (a b : Word × F)
    (hab : List.Sublist [a, b] l) (heq : a.2 = b.2) :
    (a.1 ∉ s.getPotentialSolutions → b.1 ∉ s.getPotentialSolutions →
      List.Sublist [a.1, b.1] s.getPotentialGuesses) ∧
    (a.1 ∈ s.getPotentialSolutions → b.1 ∈ s.getPotentialSolutions →
      List.Sublist [b.1, a.1] s.getPotentialGuesses) := by
  by_cases h2 : 2 ≤ s.getPotentialSolutions.length
  · obtain ⟨entropies, hev, rfl⟩ := computeNextGuesses_eq_take log2 s n l h2 h
    have hab2 : List.Sublist [a, b] entropies := hab.trans (List.take_sublist _ _)
    obtain ⟨⟨sub1, hs1, he1⟩, ⟨sub2, hs2, he2⟩⟩ :=
      evaluateGuesses_ties log2 s _ [] entropies List.Pairwise.nil hev a.2
    simp only [List.filter_nil, List.map_nil, List.nil_append, List.append_nil] at he1 he2
    refine ⟨fun ha hb => ?_, fun ha hb => ?_⟩
    · have hf := (hab2.filter (Spec.tiedOutside s.getPotentialSolutions a.2)).map Prod.fst
      rw [he1] at hf
      have hk : [a, b].filter (Spec.tiedOutside s.getPotentialSolutions a.2) = [a, b] := by
        simp [Spec.tiedOutside, ha, hb, heq]
      rw [hk] at hf
      exact hf.trans hs1
    · have hf := (hab2.filter (Spec.tiedInside s.getPotentialSolutions a.2)).map Prod.fst
      rw [he2] at hf
      have hk : [a, b].filter (Spec.tiedInside s.getPotentialSolutions a.2) = [a, b] := by
        simp [Spec.tiedInside, ha, hb, heq]
      rw [hk] at hf
      have hrev := (hf.trans hs2).reverse
      simpa using hrev
  · have hshort := computeNextGuesses_short log2 s n l h2 h
    have := hab.length_le
    simp only [List.length_cons, List.length_nil] at this
    omega

/-- C32 (witness): on the sample solver the entries of "maree" and "email" have equal
scores and both words are potential solutions; "maree" comes first in the returned list
and "email" comes first in the potential guesses. -/
theorem computeNextGuesses_tie_order_witness :
    List.Sublist ["email".toList, "maree".toList] sampleSolver.getPotentialGuesses :=
  (sampleSolver_next_guesses (fun x : ℚ => x)).elim
    (fun e he =>
      (computeNextGuesses_tie_order (fun x : ℚ => x) sampleSolver 3 _ he
        ("maree".toList, e) ("email".toList, e)
        (List.Sublist.cons₂ _ (List.Sublist.cons₂ _ (List.nil_sublist _))) rfl).2
        (show "maree".toList ∈ sampleSolver.getPotentialSolutions by decide)
        (show "email".toList ∈ sampleSolver.getPotentialSolutions by decide))

/-! ## Solvers and games over a dictionary of lower-case words -/

/-- In a reachable solver state over a dictionary of lower-case words `computeHints`
returns for a lower-case guess of the length of the template against every potential
solution. -/
theorem Solver.Reachable.solution_hints {s : Solver} (hr : s.Reachable)
    (hd : s.m_rules.obj.getDictionary.isLowercase) (guess : Word)
    (hg : ∀ c ∈ guess, islower c = true) (hlen : guess.length = s.getTemplate.length) :
    ∀ solution ∈ s.getPotentialSolutions,
      ∃ hints, computeHints guess solution = .ok hints := by
  intro solution hs
  obtain ⟨_, hsv, hrej⟩ := hr.candidates.2 solution hs
  have hcar := (templateRejects_eq_false_iff _ _).1 hrej
  exact ⟨_, computeHints_ok guess solution (hlen.trans hcar.1.symm) hg
    (hd solution (GameRules.isSolutionValid_mem _ _ hsv))⟩

/-- In a reachable solver state over a dictionary of lower-case words `computeHints`
returns for every potential guess against every potential solution. -/
theorem Solver.Reachable.guess_hints {s : Solver} (hr : s.Reachable)
    (hd : s.m_rules.obj.getDictionary.isLowercase) :
    ∀ guess ∈ s.getPotentialGuesses, ∀ solution ∈ s.getPotentialSolutions,
      ∃ hints, computeHints guess solution = .ok hints := by
  intro guess hg
  obtain ⟨_, hgm, hgv⟩ := (hr.candidates.1 guess).1 hg
  exact hr.solution_hints hd guess (hd guess hgm) (GameRules.isGuessValid_mem _ _ _ hgv).1

/-- The solver `upperSolver` is reachable. -/
theorem upperSolver_reachable : upperSolver.Reachable :=
  Solver.Reachable.setTemplate _ _ (Solver.Reachable.create _)

/-- C16 (counterexample): on the reachable solver `upperSolver`, for the lower-case guess
"ab" of the length of the template, no potential solution has the hints `WRONG, WRONG`,
and yet `computeActualEntropy("ab", hints)` throws the invalid-argument error of
`computeHints` instead of returning a negative value. -/
theorem computeActualEntropy_throws :
    upperSolver.Reachable ∧
    (∀ c ∈ "ab".toList, islower c = true) ∧
    "ab".toList.length = upperSolver.getTemplate.length ∧
    (∀ solution ∈ upperSolver.getPotentialSolutions,
      computeHints "ab".toList solution ≠ .ok [HintType.WRONG, HintType.WRONG]) ∧
    upperSolver.computeActualEntropy (Real.logb 2) "ab".toList
        [HintType.WRONG, HintType.WRONG] = .error .hintsNotLower := by
  refine ⟨upperSolver_reachable, by decide, by decide, by decide, ?_⟩
  have h : countOccurences "ab".toList [HintType.WRONG, HintType.WRONG]
      upperSolver.getPotentialSolutions = .error .hintsNotLower := by decide
  simp only [Solver.computeActualEntropy, h]

/-- C16 (amended): in a reachable solver state over a dictionary of lower-case words,
for a lower-case guess of the length of the template, `computeActualEntropy(guess,
hints)`, read over the real numbers, returns a value that is negative exactly when no
potential solution has the hints `hints`; otherwise the value is `-log2(k/n)`, which is
not negative, where `k` is the number of potential solutions with these hints and `n` the
number of potential solutions. -/
theorem computeActualEntropy_spec (s : Solver) (guess : Word) (hints : List HintType)
    (hr : s.Reachable) (hd : s.m_rules.obj.getDictionary.isLowercase)
    (hg : ∀ c ∈ guess, islower c = true) (hlen : guess.length = s.getTemplate.length) :
    ∃ v : ℝ, s.computeActualEntropy (Real.logb 2) guess hints = .ok v ∧
      (v < 0 ↔ ∀ solution ∈ s.getPotentialSolutions,
        computeHints guess solution ≠ .ok hints) ∧
      ((∃ solution ∈ s.getPotentialSolutions, computeHints guess solution = .ok hints) →
        v = -Real.logb 2 ((Spec.classSize guess s.getPotentialSolutions hints : ℝ)
              / (s.getPotentialSolutions.length : ℝ)) ∧ 0 ≤ v) :=
  computeActualEntropy_formula s guess hints (hr.solution_hints hd guess hg hlen)

/-- C16 (witness): the guess "maree" with the hints of the secret "email" on the sample
solver. -/
theorem computeActualEntropy_spec_witness :
    ∃ v : ℝ, sampleSolver.computeActualEntropy (Real.logb 2) "maree".toList
        [.MISPLACED, .MISPLACED, .WRONG, .MISPLACED, .WRONG] = .ok v ∧ 0 ≤ v :=
  (computeActualEntropy_spec sampleSolver "maree".toList
      [.MISPLACED, .MISPLACED, .WRONG, .MISPLACED, .WRONG] sampleSolver_reachable
      (by unfold Dictionary.isLowercase; decide) (by decide) (by decide)).elim
    (fun v hv => ⟨v, hv.1, (hv.2.2 ⟨"email".toList, by decide, by decide⟩).2⟩)

/-- C40 (counterexample): the reachable solver `upperSolver` has two potential solutions,
and yet `computeNextGuesses(n)` returns no list for any `n`: it throws the
invalid-argument error of `computeHints`. -/
theorem computeNextGuesses_throws :
    upperSolver.Reachable ∧
    2 ≤ upperSolver.getPotentialSolutions.length ∧
    upperSolver.getPotentialGuesses = ["AB".toList, "AC".toList] ∧
    ∀ n, upperSolver.computeNextGuesses (Real.logb 2) n = .error .hintsNotLower := by
  refine ⟨upperSolver_reachable, by decide, by decide, fun n => ?_⟩
  have ht : upperSolver.getTemplate.isEmpty = false := by decide
  have hsol : upperSolver.getPotentialSolutions = ["AB".toList, "AC".toList] := by decide
  have hgs : upperSolver.getPotentialGuesses = ["AB".toList, "AC".toList] := by decide
  have h : countHints "AB".toList ["AB".toList, "AC".toList] []
      = .error .hintsNotLower := by decide
  simp only [Solver.computeNextGuesses, ht, hsol, hgs, evaluateGuesses,
    Solver.computeExpectedEntropy, h]
  simp

/-- C40 (amended): in a reachable solver state over a dictionary of lower-case words with
at least two potential solutions, `computeNextGuesses(n)` returns a list of
`min(n, number of potential guesses)` entries; and `computeNextGuesses(number of
potential guesses)` returns a list whose words are the potential guesses, each once, and
each is paired with its `computeExpectedEntropy`. -/
theorem computeNextGuesses_complete {F : Type} [LinearOrderedField F] (log2 : F → F)
    (s : Solver) (n : Nat) (hr : s.Reachable)
    (hd : s.m_rules.obj.getDictionary.isLowercase)
    (h2 : 2 ≤ s.getPotentialSolutions.length) :
    ∃ l, s.computeNextGuesses log2 n = .ok l ∧
      l.length = min n s.getPotentialGuesses.length ∧
      ∃ full, s.computeNextGuesses log2 s.getPotentialGuesses.length = .ok full ∧
        List.Perm (full.map Prod.fst) s.getPotentialGuesses ∧
        (∀ e ∈ full, s.computeExpectedEntropy log2 e.1 = .ok e.2) := by
  have ht : s.getTemplate ≠ [] := by
    cases hsol : s.getPotentialSolutions with
    | nil => simp [hsol] at h2
    | cons a rest =>
      exact (hr.candidates.2 a (by
        simp only [Solver.getPotentialSolutions] at hsol
        simp [hsol])).1
  obtain ⟨l, hl⟩ := computeNextGuesses_ok log2 s n ht (hr.guess_hints hd)
  exact ⟨l, hl, computeNextGuesses_entries log2 s n l h2 hl⟩

/-- C40 (witness): on the sample solver, with three potential guesses and three potential
solutions, `computeNextGuesses(2)` returns two entries. -/
theorem computeNextGuesses_complete_witness :
    ∃ l, sampleSolver.computeNextGuesses (Real.logb 2) 2 = .ok l ∧
      l.length = min 2 sampleSolver.getPotentialGuesses.length ∧
      ∃ full, sampleSolver.computeNextGuesses (Real.logb 2)
          sampleSolver.getPotentialGuesses.length = .ok full ∧
        List.Perm (full.map Prod.fst) sampleSolver.getPotentialGuesses ∧
        (∀ e ∈ full, sampleSolver.computeExpectedEntropy (Real.logb 2) e.1 = .ok e.2) :=
  computeNextGuesses_complete (Real.logb 2) sampleSolver 2 sampleSolver_reachable
    (by unfold Dictionary.isLowercase; decide) (by decide)

/-- C21 (amended): in every reachable game state over a dictionary of lower-case words,
for both rule variants, `getTemplate(game)` fails exactly when the secret word of the
game is empty, and then with an invalid-argument error; otherwise `computeTemplate(
len(secret), triedGuesses, guessesHints)` returns, the Wordle rules return its result
and the Motus rules return that same string with position 0 replaced by the first letter
of the secret word, whatever the hints are. -/
theorem getTemplate_fails_iff (r : GameRules) (g : Game) (hr : g.Reachable)
    (hd : g.m_rules.obj.getDictionary.isLowercase) :
    ((∃ e, r.getTemplate g = .error e) ↔ g.getWord = []) ∧
    (∀ e, r.getTemplate g = .error e → e.isInvalidArg = true) ∧
    (g.getWord ≠ [] →
      ∃ t, computeTemplate g.getWord.length g.getTriedGuesses g.getGuessesHints = .ok t ∧
        (∀ fd m, r = .wordle fd m → r.getTemplate g = .ok t) ∧
        (∀ d m, r = .motus d m →
          ∃ c, g.getWord[0]? = some c ∧ r.getTemplate g = .ok (t.set 0 c))) := by
  have hc := getTemplate_cases r g
  have ht := hr.template_ok hd
  refine ⟨?_, hc.2.1, fun hw => ⟨_, ht, hc.2.2.2 _ hw ht⟩⟩
  rw [hc.1]
  constructor
  · rintro (hw | ⟨e, he⟩)
    · exact hw
    · simp only [Game.getWord, Game.getTriedGuesses, Game.getGuessesHints] at he
      rw [ht] at he
      cases he
  · exact Or.inl

/-- C21 (witness): under the Motus rules the started sample game, with the secret word
"email" and no guess yet, has the template "e....". -/
theorem getTemplate_fails_iff_witness :
    ∃ t, computeTemplate sampleGame.getWord.length sampleGame.getTriedGuesses
        sampleGame.getGuessesHints = .ok t ∧
      (∀ fd m, sampleMotus.obj = .wordle fd m → sampleMotus.obj.getTemplate sampleGame
        = .ok t) ∧
      (∀ d m, sampleMotus.obj = .motus d m →
        ∃ c, sampleGame.getWord[0]? = some c ∧
          sampleMotus.obj.getTemplate sampleGame = .ok (t.set 0 c)) :=
  (getTemplate_fails_iff sampleMotus.obj sampleGame sampleGame_reachable
    sampleGame_lowercase).2.2 (by decide)

end Alphadocte
